import Mathlib

/-!
# The value core of elvish (package eval, value.go) and the filter of histlist

A shallow embedding of the Go source. Conventions:

* A Go pointer is an address `Addr` into a `Heap`. The objects that the package mutates through
  a pointer (the slice behind a `List`, with its backing array, and the map behind a `Map`) live
  in the heap; objects that are never mutated after construction (an `errorString`, a `big.Rat`,
  a `Closure`) are carried next to their address.
* `throw(err)` and Go run-time panics end a call early; a call returns `Except Failure α`.
* Recursion that Go does not bound (rendering a container that contains itself, a method that
  calls itself through `fmt`) is given a call-depth budget `fuel`; running out of it is reported
  as `Failure.stackOverflow`. `reflect.DeepEqual` bounds its recursion with a record of the pairs
  it has met; `DeepEq` carries that record and is shown to answer for every two Values.
* Code outside value.go that the functions call (`parse.Quote`, `FnPrefix`, the renderings of
  `fmt`) is a parameter; the functions of the Go library that decide a result (`strconv.Atoi`,
  `reflect.DeepEqual`, `strings.Contains`) are embedded from the library.
* The function `filter` of the history listing addon (package histlist, histlist.go) is embedded
  in the namespace `Histlist`; it only reads the slice it is given, so a slice is there a value:
  nil, or its elements.
-/

namespace Eval

/-! ## Data model -/

/-- A Go pointer: the address of an object. -/
abbrev Addr := Nat

/-- The Go type `Error`, a struct with the single field `inner error`, identified with the
interface value it holds: `nil` is `Error{nil}`, the other constructors are the dynamic types of
`error` that value.go builds. -/
inductive Error : Type
  /-- `Error{nil}`, the value of `OK`. -/
  | nil
  /-- `Error{errors.New(s)}`: a pointer to an `errorString` holding `s`. -/
  | errorString (ptr : Addr) (s : String)
  /-- `Error{multiError{errors}}` for a slice `errors` that is not nil, with its elements. -/
  | multiError (errors : List Error)
  /-- `Error{multiError{nil}}`: the multi-error of the nil slice, which has no element. -/
  | multiErrorNil
  /-- `Error{f}` for a `flow` value `f` (an unsigned integer). -/
  | flow (f : Nat)

/-- Modelled from the spec: the segment kinds of package glob, which is not part of the sources
at hand. The spec lists them as literal text, path separator, `*`, `**` and `?`. -/
inductive SegmentType : Type
  | Literal
  | Slash
  | Star
  | StarStar
  | Question
deriving DecidableEq, Repr

/-- Modelled from the spec: `glob.Segment`, a segment kind paired with the literal text. Go
strings are byte sequences and `stringToSegments` indexes bytes, so the text is a list of
bytes. -/
structure Segment where
  kind : SegmentType
  text : List UInt8
deriving DecidableEq, Repr

/-- Modelled from the spec: `glob.Pattern`, of which value.go uses the field `Segments`. -/
structure Pattern where
  Segments : List Segment
deriving DecidableEq, Repr

/-- The struct `Closure`. `Op` and the captured `Variable` cells are declared outside value.go and
are never inspected here: they are handles. -/
structure Closure where
  ArgNames : List String
  Op : Nat
  Captured : List (String × Addr)
  Variadic : Bool
deriving DecidableEq, Repr

/-- The struct `BuiltinFn`; `Impl` is a native function, kept as a handle; the handle 0 is the
nil func. -/
structure BuiltinFn where
  Name : String
  Impl : Nat
deriving DecidableEq, Repr

/-- The dynamic types that implement the interface `Value` (methods `Kind` and `Repr`). -/
inductive Value : Type
  /-- `String(s)`. -/
  | string (s : String)
  /-- `Bool(b)`. -/
  | bool (b : Bool)
  /-- An `Error`. -/
  | error (e : Error)
  /-- `List{inner}`: a pointer to a slice of values. -/
  | list (inner : Addr)
  /-- `Map{inner}`: a pointer to a Go map. -/
  | map (inner : Addr)
  /-- A `*Closure`: the pointer and the struct it points to. -/
  | closure (ptr : Addr) (c : Closure)
  /-- A `*BuiltinFn`: the pointer and the struct it points to. -/
  | builtinFn (ptr : Addr) (b : BuiltinFn)
  /-- `Rat{b}`: the pointer to a `big.Rat` and the number it holds. -/
  | rat (b : Addr) (q : ℚ)
  /-- A `GlobPattern`. -/
  | globPattern (gp : Pattern)

/-- A Go slice value `[]Value`: the nil slice, or the address of the backing array and the
number of elements. value.go never re-slices a `[]Value`, so a slice starts at the first element
of its array. Two slices with the same array share their elements. -/
abbrev Slice := Option (Addr × Nat)

/-- The length `len(s)` of a slice; the nil slice has length 0. -/
def Slice.len : Slice → Nat
  | none => 0
  | some (_, n) => n

/-- The memory that Lists and Maps point into. `arrays` holds the backing arrays of the slices,
`slices` the slice variables of type `[]Value` that a List points to, `maps` the
`map[Value]Value` objects, as their entries in iteration order. A pointer is an index; a pointer
to no object (the nil pointer of the zero `List{}`) is an index out of range. -/
structure Heap where
  arrays : List (List Value)
  slices : List Slice
  maps : List (List (Value × Value))

/-- The elements of a slice: the first `len` elements of its backing array; the nil slice has
none. -/
def Heap.elems (h : Heap) : Slice → List Value
  | none => []
  | some (a, n) => (h.arrays.getD a []).take n

/-- The error values handed to `throw`. -/
inductive Thrown : Type
  /-- The package variable `ErrNeedIntIndex`. -/
  | ErrNeedIntIndex
  /-- The package variable `ErrIndexOutOfRange`. -/
  | ErrIndexOutOfRange
  /-- An error allocated at the throw site by `errors.New(msg)` or `fmt.Errorf`. -/
  | fresh (msg : String)
deriving DecidableEq, Repr

/-- The message of a thrown error, as `errors.New` was given it. -/
def Thrown.Error : Thrown → String
  | .ErrNeedIntIndex => "need integer index"
  | .ErrIndexOutOfRange => "index out of range"
  | .fresh msg => msg

/-- The ways a call ends without returning. -/
inductive Failure : Type
  /-- The call reached `throw(err)`. -/
  | thrown (err : Thrown)
  /-- A Go run-time panic. -/
  | runtimePanic (msg : String)
  /-- The call nests deeper than the budget; for unbounded recursion Go ends in a fatal stack
  overflow. -/
  | stackOverflow
deriving DecidableEq, Repr

/-- The run-time panic of calling a method through a nil interface or reading through a nil
pointer. -/
def nilDereference : Failure :=
  .runtimePanic "invalid memory address or nil pointer dereference"

/-- The run-time panic of using a value of an uncomparable dynamic type as a map key. -/
def unhashable (typeName : String) : Failure :=
  .runtimePanic ("hash of unhashable type " ++ typeName)

deriving instance DecidableEq for Except

/-- Modelled from the spec: `throw` is declared outside value.go; it raises its argument at once
and does not return. -/
def throw {α : Type} (err : Thrown) : Except Failure α :=
  .error (.thrown err)

/-- Code that value.go calls and that is declared elsewhere. -/
structure Externals where
  /-- `parse.Quote`. -/
  Quote : String → String
  /-- The constant `FnPrefix`. -/
  FnPrefix : String
  /-- What the verb `%v` of `fmt` prints for the struct a `*Closure` points to. -/
  fmtClosure : Closure → String
  /-- What the verb `%v` of `fmt` prints for a `GlobPattern`. -/
  fmtGlobPattern : Pattern → String

/-! ## Bool -/

/-- `Bool.Repr`. -/
def Bool_Repr (b : Bool) : String :=
  if b then "$true" else "$false"

/-- `Bool.String`. -/
def Bool_String (b : Bool) : String :=
  if b then "true" else "false"

/-- `Bool.Bool`. -/
def Bool_Bool (b : Bool) : Bool := b

/-! ## Error, multiError, flow -/

/-- The array `flowNames`. -/
def flowNames : List String := ["return", "break", "continue"]

/-- `flow.Error`. The verb `%v` of `fmt` renders an operand that implements `error` by calling
its `Error` method, and `flow` implements `error`: the branch for an unnamed flow calls
`flow.Error` on the same value again. -/
def flow_Error : Nat → Nat → Except Failure String
  | 0, _ => .error .stackOverflow
  | fuel + 1, f =>
    if f ≥ flowNames.length then
      match flow_Error fuel f with
      | .ok v => .ok ("!(BAD FLOW: " ++ v ++ ")")
      | .error err => .error err
    else .ok (flowNames.getD f "")

/-- `flow.Repr`. -/
def flow_Repr (fuel : Nat) (f : Nat) : Except Failure String :=
  match flow_Error fuel f with
  | .ok m => .ok ("?(" ++ m ++ ")")
  | .error err => .error err

mutual
/-- The call `e.inner.Error()`: the method `Error` of the dynamic value, and a run-time panic
when the interface is nil. -/
def inner_Error (fuel : Nat) : Error → Except Failure String
  | .nil => .error nilDereference
  | .errorString _ s => .ok s
  | .multiError es =>
    match multiError_Error_loop fuel es 0 "(" with
    | .ok b => .ok (b ++ ")")
    | .error err => .error err
  | .multiErrorNil => .ok ("(" ++ ")")
  | .flow f => flow_Error fuel f
/-- The loop of `multiError.Error` over the remaining elements, at index `i`, with the buffer
written so far. -/
def multiError_Error_loop (fuel : Nat) : List Error → Nat → String → Except Failure String
  | [], _, b => .ok b
  | e :: es, i, b =>
    let b1 := if i > 0 then b ++ " | " else b
    match inner_Error fuel e with
    | .ok m => multiError_Error_loop fuel es (i + 1) (b1 ++ m)
    | .error err => .error err
end

/-- `multiError.Error`. -/
def multiError_Error (fuel : Nat) (errors : List Error) : Except Failure String :=
  inner_Error fuel (.multiError errors)

mutual
/-- `Error.Repr`. The values that are a `Reprer` are the multi-error and the flow; the last
branch is the `errorString`, whose `Error` method returns its text. -/
def Error_Repr (x : Externals) (fuel : Nat) : Error → Except Failure String
  | .nil => .ok "$ok"
  | .multiError es =>
    match multiError_Repr_loop x fuel es "?(multi-error" with
    | .ok b => .ok (b ++ ")")
    | .error err => .error err
  | .multiErrorNil => .ok ("?(multi-error" ++ ")")
  | .flow f => flow_Repr fuel f
  | .errorString _ s => .ok ("?(error " ++ x.Quote s ++ ")")
/-- The loop of `multiError.Repr` over the remaining elements, with the buffer written so far. -/
def multiError_Repr_loop (x : Externals) (fuel : Nat) :
    List Error → String → Except Failure String
  | [], b => .ok b
  | e :: es, b =>
    match Error_Repr x fuel e with
    | .ok r => multiError_Repr_loop x fuel es ((b ++ " ") ++ r)
    | .error err => .error err
end

/-- `multiError.Repr`. -/
def multiError_Repr (x : Externals) (fuel : Nat) (errors : List Error) : Except Failure String :=
  Error_Repr x fuel (.multiError errors)

/-- `Error.String`. -/
def Error_String (fuel : Nat) (e : Error) : Except Failure String :=
  match e with
  | .nil => .ok "ok"
  | inner => inner_Error fuel inner

/-- `Error.Bool`. -/
def Error_Bool (e : Error) : Bool :=
  match e with
  | .nil => true
  | _ => false

/-- The value `OK`. -/
def OK : Error := .nil

/-- `newMultiError(es ...Error)`, called with the elements one by one: the parameter `es` is
the nil slice for a call with no element, and a new slice of the elements otherwise. -/
def newMultiError (es : List Error) : Error :=
  match es with
  | [] => .multiErrorNil
  | e :: rest => .multiError (e :: rest)

/-- `allok`. -/
def allok : List Error → Bool
  | [] => true
  | e :: es =>
    match e with
    | .nil => allok es
    | _ => false

/-! ## Rat -/

/-- `Rat.String`: the numerator alone when the number is an integer, else `num/den`. -/
def Rat_String (q : ℚ) : String :=
  if q.den = 1 then toString q.num else toString q.num ++ "/" ++ toString q.den

/-- `Rat.Repr`. -/
def Rat_Repr (q : ℚ) : String :=
  "(rat " ++ Rat_String q ++ ")"

/-! ## Repr of the containers and of every Value -/

/-- The loop of `List.Repr` over the remaining elements, at index `i`, with the buffer written
so far; `repr` is the method `Repr` of the elements. -/
def List_Repr_loop (repr : Value → Except Failure String) :
    List Value → Nat → String → Except Failure String
  | [], _, buf => .ok buf
  | v :: vs, i, buf =>
    let buf1 := if i > 0 then buf ++ " " else buf
    match repr v with
    | .ok r => List_Repr_loop repr vs (i + 1) (buf1 ++ r)
    | .error err => .error err

/-- The loop of `Map.Repr` over the remaining entries, with the buffer written so far;
`buf.Len()` counts bytes. Go visits the entries of a map in no fixed order: the order is the one
of the heap object. -/
def Map_Repr_loop (repr : Value → Except Failure String) :
    List (Value × Value) → String → Except Failure String
  | [], buf => .ok buf
  | (k, v) :: rest, buf =>
    let buf1 := if buf.utf8ByteSize > 1 then buf ++ " " else buf
    match repr k with
    | .ok rk =>
      match repr v with
      | .ok rv => Map_Repr_loop repr rest ((((buf1 ++ "&") ++ rk) ++ " ") ++ rv)
      | .error err => .error err
    | .error err => .error err

/-- The method `Repr` of a Value, by dynamic type: `String.Repr`, `Bool.Repr`, `Error.Repr`,
`List.Repr`, `Map.Repr`, `Closure.Repr`, `BuiltinFn.Repr`, `Rat.Repr` and `GlobPattern.Repr`. -/
def Value_Repr (x : Externals) (h : Heap) : Nat → Value → Except Failure String
  | 0, _ => .error .stackOverflow
  | fuel + 1, v =>
    match v with
    | .string s => .ok (x.Quote s)
    | .bool b => .ok (Bool_Repr b)
    | .error e => Error_Repr x fuel e
    | .list inner =>
      match h.slices[inner]? with
      | none => .error nilDereference
      | some sl =>
        match List_Repr_loop (Value_Repr x h fuel) (h.elems sl) 0 "[" with
        | .ok buf => .ok (buf ++ "]")
        | .error err => .error err
    | .map inner =>
      match h.maps[inner]? with
      | none => .error nilDereference
      | some entries =>
        match Map_Repr_loop (Value_Repr x h fuel) entries "[" with
        | .ok buf =>
          let buf1 := if buf.utf8ByteSize = 1 then buf ++ "&" else buf
          .ok (buf1 ++ "]")
        | .error err => .error err
    | .closure _ c => .ok ("<Closure" ++ x.fmtClosure c ++ ">")
    | .builtinFn _ b => .ok ("$" ++ x.FnPrefix ++ b.Name)
    | .rat _ q => .ok (Rat_Repr q)
    | .globPattern gp => .ok ("<GlobPattern" ++ x.fmtGlobPattern gp ++ ">")

/-! ## Conversions -/

/-- The type assertion `v.(Stringer)` followed by the call of `String`: the result of the
method for the variants that declare one (`String`, `Bool`, `Error`, `Rat`), none for the
others. -/
def Stringer_String (fuel : Nat) : Value → Option (Except Failure String)
  | .string s => some (.ok s)
  | .bool b => some (.ok (Bool_String b))
  | .error e => some (Error_String fuel e)
  | .rat _ q => some (.ok (Rat_String q))
  | _ => none

/-- `ToString`. -/
def ToString (x : Externals) (h : Heap) (fuel : Nat) (v : Value) : Except Failure String :=
  match Stringer_String fuel v with
  | some s => s
  | none => Value_Repr x h fuel v

/-- The type assertion `v.(Booler)` followed by the call of `Bool`: the result of the method for
the variants that declare one (`Bool`, `Error`), none for the others. -/
def Booler_Bool : Value → Option Bool
  | .bool b => some (Bool_Bool b)
  | .error e => some (Error_Bool e)
  | _ => none

/-- `ToBool`. -/
def ToBool (v : Value) : Bool :=
  match Booler_Bool v with
  | some b => b
  | none => true

/-! ## strconv.Atoi -/

/-- The two errors of package strconv. -/
inductive NumError : Type
  | ErrSyntax
  | ErrRange
deriving DecidableEq, Repr

/-- The size of the Go type `int` in bits. -/
def IntSize : Nat := 64

/-- The digit loop of `strconv.ParseUint` in base 10 for a 64-bit result, with the number `n`
read so far. It stops at the first character that is not a digit and at the first overflow,
whichever comes first. Unsigned arithmetic wraps modulo `2 ^ 64`. -/
def ParseUint_loop : List Char → Nat → Except NumError Nat
  | [], n => .ok n
  | d :: rest, n =>
    if '0' ≤ d ∧ d ≤ '9' then
      let v := d.toNat - '0'.toNat
      if n ≥ (2 ^ 64 - 1) / 10 + 1 then .error .ErrRange
      else
        let n10 := (n * 10) % 2 ^ 64
        let n1 := (n10 + v) % 2 ^ 64
        if n1 < n10 ∨ n1 > 2 ^ 64 - 1 then .error .ErrRange
        else ParseUint_loop rest n1
    else .error .ErrSyntax

/-- `strconv.ParseUint(s, 10, 0)`: on a range error Go also returns the largest value. -/
def ParseUint (s : List Char) : Except NumError Nat :=
  match s with
  | [] => .error .ErrSyntax
  | _ => ParseUint_loop s 0

/-- `strconv.ParseInt(s, 10, 0)`. -/
def ParseInt (s : List Char) : Except NumError Int :=
  match s with
  | [] => .error .ErrSyntax
  | c :: rest =>
    let neg := c = '-'
    let s1 := if c = '+' then rest else if c = '-' then rest else s
    let cutoff : Nat := 2 ^ (IntSize - 1)
    match ParseUint s1 with
    | .error .ErrSyntax => .error .ErrSyntax
    | .error .ErrRange => .error .ErrRange
    | .ok un =>
      if ¬ neg ∧ un ≥ cutoff then .error .ErrRange
      else if neg ∧ un > cutoff then .error .ErrRange
      else .ok (if neg then - (un : Int) else (un : Int))

/-- `strconv.Atoi`. -/
def Atoi (s : String) : Except NumError Int :=
  ParseInt s.toList

/-! ## Indexing -/

/-- `intIndex`. -/
def intIndex (x : Externals) (h : Heap) (fuel : Nat) (idx : Value) : Except Failure Int :=
  match ToString x h fuel idx with
  | .error err => .error err
  | .ok s =>
    match Atoi s with
    | .ok i => .ok i
    | .error .ErrRange => throw .ErrIndexOutOfRange
    | .error .ErrSyntax => throw .ErrNeedIntIndex

/-- `List.Index` for the List whose field `inner` is the pointer `l`. -/
def List_Index (x : Externals) (h : Heap) (fuel : Nat) (l : Addr) (idx : Value) :
    Except Failure Value :=
  match intIndex x h fuel idx with
  | .error err => .error err
  | .ok i0 =>
    match h.slices[l]? with
    | none => .error nilDereference
    | some sl =>
      let len : Int := sl.len
      let i := if i0 < 0 then i0 + len else i0
      if i < 0 ∨ i ≥ len then throw .ErrIndexOutOfRange
      else
        match (h.elems sl)[i.toNat]? with
        | some v => .ok v
        | none => .error (.runtimePanic "index out of range")

/-- `List.IndexSet` for the List whose field `inner` is the pointer `l`: the outcome and the
heap after the call. -/
def List_IndexSet (x : Externals) (h : Heap) (fuel : Nat) (l : Addr) (idxv v : Value) :
    Except Failure Unit × Heap :=
  match intIndex x h fuel idxv with
  | .error err => (.error err, h)
  | .ok i0 =>
    match h.slices[l]? with
    | none => (.error nilDereference, h)
    | some sl =>
      let len : Int := sl.len
      let idx := if i0 < 0 then i0 + len else i0
      if idx < 0 ∨ idx ≥ len then (throw .ErrIndexOutOfRange, h)
      else
        match sl with
        | some (a, _) =>
          (.ok (), { h with arrays := h.arrays.set a ((h.arrays.getD a []).set idx.toNat v) })
        | none => (.error (.runtimePanic "index out of range"), h)

/-- The slice that Go passes for a variadic parameter when the call lists the arguments one by
one: nil for no argument, else a new slice with a new backing array that holds the arguments.
A call `f(vs...)` passes the slice `vs` itself, with no new array. -/
def variadic (h : Heap) (args : List Value) : Slice × Heap :=
  match args with
  | [] => (none, h)
  | _ => (some (h.arrays.length, args.length), { h with arrays := h.arrays ++ [args] })

/-- `NewList`: the parameter `vs` is a new slice variable that holds the slice passed for it;
the new List points to that variable. -/
def NewList (h : Heap) (vs : Slice) : Value × Heap :=
  (.list h.slices.length, { h with slices := h.slices ++ [vs] })

/-- `NewMap`: the new Map and the heap that holds its empty map. -/
def NewMap (h : Heap) : Value × Heap :=
  (.map h.maps.length, { h with maps := h.maps ++ [[]] })

/-- Go's `==` on two `Error` structs whose inner values have comparable dynamic types: both nil,
the same `errorString` pointer, or the same flow. -/
def Error_eq : Error → Error → Bool
  | .nil, .nil => true
  | .errorString p _, .errorString q _ => p == q
  | .flow f, .flow g => f == g
  | _, _ => false

/-- Go's `==` on two interface values of type `Value` with comparable dynamic types: the same
dynamic type and equal values, where pointers are equal when they are the same address. -/
def Value_eq : Value → Value → Bool
  | .string a, .string b => a == b
  | .bool a, .bool b => a == b
  | .error a, .error b => Error_eq a b
  | .list p, .list q => p == q
  | .map p, .map q => p == q
  | .closure p _, .closure q _ => p == q
  | .builtinFn p _, .builtinFn q _ => p == q
  | .rat p _, .rat q _ => p == q
  | _, _ => false

/-- Whether Go can hash a key: the dynamic types with a slice field, `GlobPattern` and an `Error`
that holds a `multiError`, cannot be compared. -/
def hashable : Value → Bool
  | .globPattern _ => false
  | .error (.multiError _) => false
  | .error .multiErrorNil => false
  | _ => true

/-- Hashing a key of a `map[Value]Value`: a run-time panic for a key that cannot be compared. -/
def hashKey (k : Value) : Except Failure Unit :=
  match k with
  | .globPattern _ => .error (unhashable "eval.GlobPattern")
  | .error (.multiError _) => .error (unhashable "eval.multiError")
  | .error .multiErrorNil => .error (unhashable "eval.multiError")
  | _ => .ok ()

/-- The map read `v, ok := m[k]` on the entries of a map, for a key that can be hashed. -/
def mapaccess (entries : List (Value × Value)) (k : Value) : Option Value :=
  match entries with
  | [] => none
  | (k0, v0) :: rest => if Value_eq k0 k then some v0 else mapaccess rest k

/-- The map write `m[k] = v` on the entries of a map, for a key that can be hashed: the entry
under an equal key is overwritten, else the entry is added. -/
def mapassign (entries : List (Value × Value)) (k v : Value) : List (Value × Value) :=
  match entries with
  | [] => [(k, v)]
  | (k0, v0) :: rest =>
    if Value_eq k0 k then (k, v) :: rest else (k0, v0) :: mapassign rest k v

/-- `Map.Index` for the Map whose field `inner` is the pointer `m`. -/
def Map_Index (x : Externals) (h : Heap) (fuel : Nat) (m : Addr) (idx : Value) :
    Except Failure Value :=
  match h.maps[m]? with
  | none => .error nilDereference
  | some entries =>
    match hashKey idx with
    | .error err => .error err
    | .ok _ =>
      match mapaccess entries idx with
      | some v => .ok v
      | none =>
        match Value_Repr x h fuel idx with
        | .ok r => throw (.fresh ("no such key: " ++ r))
        | .error err => .error err

/-- `Map.IndexSet` for the Map whose field `inner` is the pointer `m`: the outcome and the heap
after the call. -/
def Map_IndexSet (h : Heap) (m : Addr) (idx v : Value) : Except Failure Unit × Heap :=
  match h.maps[m]? with
  | none => (.error nilDereference, h)
  | some entries =>
    match hashKey idx with
    | .error err => (.error err, h)
    | .ok _ => (.ok (), { h with maps := h.maps.set m (mapassign entries idx v) })

/-! ## Glob segments -/

/-- The first inner loop of `stringToSegments`, `for ; j < len(s) && s[j] != '/'; j++ {}`: the
value of `j` when it ends. The byte of `/` is 47. -/
def skipLiteral (s : List UInt8) : Nat → Nat → Option Nat
  | 0, _ => none
  | fuel + 1, j =>
    if j < s.length ∧ s[j]? ≠ some 47 then skipLiteral s fuel (j + 1) else some j

/-- The second inner loop of `stringToSegments`, `for ; j < len(s) && s[j] == '/'; j++ {}`: the
value of `j` when it ends. -/
def skipSlashes (s : List UInt8) : Nat → Nat → Option Nat
  | 0, _ => none
  | fuel + 1, j =>
    if j < s.length ∧ s[j]? = some 47 then skipSlashes s fuel (j + 1) else some j

/-- The outer loop of `stringToSegments` from index `i` with the segments appended so far. Every
loop has a budget of iterations; none is the answer when a budget runs out. -/
def stringToSegments_loop (s : List UInt8) : Nat → Nat → List Segment → Option (List Segment)
  | 0, _, _ => none
  | fuel + 1, i, segs =>
    if i < s.length then
      match skipLiteral s (s.length + 1) i with
      | none => none
      | some j =>
        let segs1 := if j > i then segs ++ [⟨.Literal, (s.take j).drop i⟩] else segs
        if j < s.length then
          match skipSlashes s (s.length + 1) j with
          | none => none
          | some j2 => stringToSegments_loop s fuel j2 (segs1 ++ [⟨.Slash, []⟩])
        else some segs1
    else some segs

/-- `stringToSegments`, with a budget of `len(s) + 1` iterations for each loop. -/
def stringToSegments (s : List UInt8) : Option (List Segment) :=
  stringToSegments_loop s (s.length + 1) 0 []

/-- Reading a segment sequence back as text: the text of a Literal segment, one `/` for a Slash
segment. -/
def readBack : List Segment → List UInt8
  | [] => []
  | seg :: rest =>
    match seg.kind with
    | .Literal => seg.text ++ readBack rest
    | .Slash => 47 :: readBack rest
    | _ => readBack rest

/-- The text with every maximal run of `/` collapsed to a single `/`: a `/` that is followed by
another `/` is dropped. -/
def collapseSlashes : List UInt8 → List UInt8
  | [] => []
  | c :: rest =>
    if c = 47 ∧ rest.head? = some 47 then collapseSlashes rest else c :: collapseSlashes rest

/-! ## Wildcards -/

/-- `wildcardToSegment`; `quoteQ` is what the verb `%q` of `fmt` prints for a string. The
statement after `throw` is never reached. -/
def wildcardToSegment (quoteQ : String → String) (s : String) : Except Failure Segment :=
  if s = "*" then .ok ⟨.Star, []⟩
  else if s = "**" then .ok ⟨.StarStar, []⟩
  else if s = "?" then .ok ⟨.Question, []⟩
  else throw (.fresh ("bad wildcard: " ++ quoteQ s))

/-! ## Kind -/

/-- The method `Kind` of a Value, by dynamic type: `String.Kind`, `Bool.Kind`, `Error.Kind`,
`List.Kind`, `Map.Kind`, `Closure.Kind`, `BuiltinFn.Kind`, `Rat.Kind` and `GlobPattern.Kind`. -/
def Value_Kind : Value → String
  | .string _ => "string"
  | .bool _ => "bool"
  | .error _ => "error"
  | .list _ => "list"
  | .map _ => "map"
  | .closure _ _ => "fn"
  | .builtinFn _ _ => "fn"
  | .rat _ _ => "string"
  | .globPattern _ => "glob-pattern"

/-- The struct `ExternalCmd`. -/
structure ExternalCmd where
  Name : String
deriving DecidableEq, Repr

/-- `ExternalCmd.Type`. -/
def ExternalCmd_Type (_e : ExternalCmd) : String := "fn"

/-- `ExternalCmd.Repr`. -/
def ExternalCmd_Repr (e : ExternalCmd) : String :=
  "<external " ++ e.Name ++ " >"

/-- The ten types that value.go declares as variants of a value. -/
inductive Variant : Type
  | String
  | Bool
  | Error
  | List
  | Map
  | Closure
  | BuiltinFn
  | ExternalCmd
  | Rat
  | GlobPattern
deriving DecidableEq, Repr

/-- The names of the methods that value.go declares for each variant (for `Closure` and
`BuiltinFn` on the pointer type). -/
def declaredMethods : Variant → List String
  | .String => ["Kind", "Repr", "String", "Index"]
  | .Bool => ["Kind", "Repr", "String", "Bool"]
  | .Error => ["Kind", "Repr", "String", "Bool"]
  | .List => ["Kind", "appendStrings", "Repr", "Index", "IndexSet"]
  | .Map => ["Kind", "Repr", "Index", "IndexSet"]
  | .Closure => ["Kind", "Repr"]
  | .BuiltinFn => ["Kind", "Repr"]
  | .ExternalCmd => ["Type", "Repr"]
  | .Rat => ["Kind", "Repr", "String"]
  | .GlobPattern => ["Kind", "Repr", "append"]

/-- What the method `Kind` of a variant returns, none when the variant declares no method of
that name. -/
def Variant_Kind : Variant → Option String
  | .String => some "string"
  | .Bool => some "bool"
  | .Error => some "error"
  | .List => some "list"
  | .Map => some "map"
  | .Closure => some "fn"
  | .BuiltinFn => some "fn"
  | .ExternalCmd => none
  | .Rat => some "string"
  | .GlobPattern => some "glob-pattern"

/-- Whether a variant implements the interface `Value`: it has the methods `Kind` and `Repr`. -/
def implementsValue (t : Variant) : Bool :=
  decide ("Kind" ∈ declaredMethods t) && decide ("Repr" ∈ declaredMethods t)

/-- The variant of a Value. -/
def Value.variant : Value → Variant
  | .string _ => .String
  | .bool _ => .Bool
  | .error _ => .Error
  | .list _ => .List
  | .map _ => .Map
  | .closure _ _ => .Closure
  | .builtinFn _ _ => .BuiltinFn
  | .rat _ _ => .Rat
  | .globPattern _ => .GlobPattern

/-- The seven kind tags. -/
def kindTags : List String :=
  ["string", "bool", "error", "list", "map", "fn", "glob-pattern"]

/-! ## Well-formed integer texts -/

/-- The text after an optional sign `+` or `-`. -/
def stripSign : List Char → List Char
  | '+' :: rest => rest
  | '-' :: rest => rest
  | cs => cs

/-- The number that a sequence of decimal digits denotes. -/
def decimalValue (ds : List Char) : Nat :=
  ds.foldl (fun n c => n * 10 + (c.toNat - '0'.toNat)) 0

/-- A well-formed decimal integer: an optional sign and then one decimal digit or more. -/
def wellFormedInt (s : String) : Prop :=
  stripSign s.toList ≠ [] ∧ ∀ c ∈ stripSign s.toList, '0' ≤ c ∧ c ≤ '9'

/-- The integer that a well-formed text denotes. -/
def intValue (s : String) : Int :=
  if s.toList.head? = some '-' then - (decimalValue (stripSign s.toList) : Int)
  else (decimalValue (stripSign s.toList) : Int)

/-- The decimal digits in front of the first character that is not one, after the sign. -/
def leadingDigits (s : String) : List Char :=
  (stripSign s.toList).takeWhile (fun c => decide ('0' ≤ c ∧ c ≤ '9'))

/-! ## The shape of a segment sequence -/

/-- The segment sequences that describe a text: a stretch without `/` gives a Literal segment
with the stretch as text, a run of `/` gives one Slash segment with empty text, and the two
alternate. -/
inductive Segs : List UInt8 → List Segment → Prop
  /-- The empty text has no segment. -/
  | nil : Segs [] []
  /-- A stretch without `/` that ends the text. -/
  | lit (a : List UInt8) : a ≠ [] → (∀ c ∈ a, c ≠ 47) → Segs a [⟨.Literal, a⟩]
  /-- A run of `/` and then the rest, which does not start with `/`. -/
  | slash (b r : List UInt8) (out : List Segment) :
      b ≠ [] → (∀ c ∈ b, c = 47) → r.head? ≠ some 47 → Segs r out →
      Segs (b ++ r) (⟨.Slash, []⟩ :: out)
  /-- A stretch without `/`, a run of `/` and then the rest, which does not start with `/`. -/
  | litSlash (a b r : List UInt8) (out : List Segment) :
      a ≠ [] → (∀ c ∈ a, c ≠ 47) → b ≠ [] → (∀ c ∈ b, c = 47) → r.head? ≠ some 47 →
      Segs r out → Segs (a ++ (b ++ r)) (⟨.Literal, a⟩ :: ⟨.Slash, []⟩ :: out)

/-! ## JSON -/

/-- A Go value of type `interface{}` as `FromJSONInterface` tells them apart: the nil interface,
a `bool`, a `float64` (its 64 bits), a `string`, a `[]interface{}`, a `map[string]interface{}`
(its members in iteration order), or a value of any other type, with the description that the
verb `%T` of `fmt` prints for its type. -/
inductive JSONNode : Type
  | null
  | bool (b : Bool)
  | float64 (bits : Nat)
  | string (s : String)
  | array (a : List JSONNode)
  | object (m : List (String × JSONNode))
  | other (typeName : String)

mutual
/-- `FromJSONInterface`: the Value and the heap after the call; `sprint` is what `fmt.Sprint`
prints for a `float64`. For a string `fmt.Sprint` prints the string. The slice of a List is made
with `make`, so it is not nil, and the map of a Map is made with `make`. -/
def FromJSONInterface (sprint : Nat → String) (h : Heap) :
    JSONNode → Except Failure (Value × Heap)
  | .null => .ok (.string "", h)
  | .bool b => .ok (.bool b, h)
  | .float64 f => .ok (.string (sprint f), h)
  | .string s => .ok (.string s, h)
  | .array a =>
    match FromJSONInterface_array sprint h a with
    | .ok (vs, h1) =>
      .ok (.list h1.slices.length,
        ⟨h1.arrays ++ [vs], h1.slices ++ [some (h1.arrays.length, vs.length)], h1.maps⟩)
    | .error err => .error err
  | .object m =>
    match FromJSONInterface_object sprint h m [] with
    | .ok (entries, h1) =>
      .ok (.map h1.maps.length, ⟨h1.arrays, h1.slices, h1.maps ++ [entries]⟩)
    | .error err => .error err
  | .other typeName => throw (.fresh ("unexpected json type: " ++ typeName))
/-- The loop of `FromJSONInterface` over the remaining elements of an array: their Values and
the heap after the loop. -/
def FromJSONInterface_array (sprint : Nat → String) (h : Heap) :
    List JSONNode → Except Failure (List Value × Heap)
  | [] => .ok ([], h)
  | v :: rest =>
    match FromJSONInterface sprint h v with
    | .ok (v1, h1) =>
      match FromJSONInterface_array sprint h1 rest with
      | .ok (vs, h2) => .ok (v1 :: vs, h2)
      | .error err => .error err
    | .error err => .error err
/-- The loop of `FromJSONInterface` over the remaining members of an object, with the entries
written so far: the entries and the heap after the loop. -/
def FromJSONInterface_object (sprint : Nat → String) (h : Heap) :
    List (String × JSONNode) → List (Value × Value) →
      Except Failure (List (Value × Value) × Heap)
  | [], entries => .ok (entries, h)
  | (k, v) :: rest, entries =>
    match FromJSONInterface sprint h v with
    | .ok (v1, h1) => FromJSONInterface_object sprint h1 rest (mapassign entries (.string k) v1)
    | .error err => .error err
end

mutual
/-- The type descriptions of the nodes of a tree that are of another type than nil, `bool`,
`float64`, `string`, `[]interface{}` and `map[string]interface{}`, at any depth, in the order in
which the tree is walked. -/
def otherTypes : JSONNode → List String
  | .other typeName => [typeName]
  | .array a => otherTypes_array a
  | .object m => otherTypes_object m
  | _ => []
/-- The type descriptions of the nodes of other types in the elements of an array. -/
def otherTypes_array : List JSONNode → List String
  | [] => []
  | v :: rest => otherTypes v ++ otherTypes_array rest
/-- The type descriptions of the nodes of other types in the members of an object. -/
def otherTypes_object : List (String × JSONNode) → List String
  | [] => []
  | (_, v) :: rest => otherTypes v ++ otherTypes_object rest
end

/-- The Values `vs` are the conversions of the nodes, one by one and in order, each in the heap
that the conversion before it left: from the heap `h` to the heap `h1`. -/
inductive Converts (sprint : Nat → String) :
    Heap → List JSONNode → List Value → Heap → Prop
  /-- No node, no Value. -/
  | nil (h : Heap) : Converts sprint h [] [] h
  /-- The conversion of the first node, then the ones of the rest. -/
  | cons (h h1 h2 : Heap) (j : JSONNode) (js : List JSONNode) (v : Value) (vs : List Value) :
      FromJSONInterface sprint h j = .ok (v, h1) → Converts sprint h1 js vs h2 →
      Converts sprint h (j :: js) (v :: vs) h2

/-- The entries are the members of an object, one by one and in order, with the key wrapped as
a String and the conversion of the member as value, each conversion in the heap that the one
before it left: from the heap `h` to the heap `h1`. -/
inductive ConvertsMembers (sprint : Nat → String) :
    Heap → List (String × JSONNode) → List (Value × Value) → Heap → Prop
  /-- No member, no entry. -/
  | nil (h : Heap) : ConvertsMembers sprint h [] [] h
  /-- The conversion of the first member, then the ones of the rest. -/
  | cons (h h1 h2 : Heap) (k : String) (j : JSONNode) (ms : List (String × JSONNode))
      (v : Value) (es : List (Value × Value)) :
      FromJSONInterface sprint h j = .ok (v, h1) → ConvertsMembers sprint h1 ms es h2 →
      ConvertsMembers sprint h ((k, j) :: ms) ((.string k, v) :: es) h2

/-! ## Deep equality

`DeepEq` is `reflect.DeepEqual` of the Go library, on two interface values of type `Value`. The
definitions follow the rules of the library: values of different types are never deeply equal;
two pointers are deeply equal when they are equal or point to deeply equal values; two slices
when both are nil or both are not, they have the same length, and they start at the same
element of the same array or have deeply equal elements; two maps when both are nil or both are
not, they have the same length, and they are the same map or every key of the first is a key of
the second, by the equality `==` of Go, with a deeply equal value; two structs when their fields
are deeply equal; two funcs only when both are nil.

The library keeps a record of the pairs of pointers that it has started to compare and treats a
pair that it meets again as equal; this is what ends the comparison of containers that hold
themselves. The embedding keeps that record for the pointers of Lists and Maps, through which
every cycle of Values passes, as the pairs in the order of the two arguments; the library
orders the two addresses of a pair, which does not change an answer, deep equality being
symmetric. The record bounds the depth of the nested calls, and `DeepEq` runs with a budget
that this bound never exceeds. The values with fields that are declared outside value.go (the
struct behind a `*Closure`, a `big.Rat`, a `glob.Pattern`) are compared by a parameter. -/

/-- The deep equality of values whose fields are declared outside value.go. -/
structure Outside where
  /-- Deep equality of the structs behind two different `*Closure` pointers; the types of the
  fields `Op` and `Captured` are declared in other files. -/
  closure : Addr → Closure → Addr → Closure → Bool
  /-- Deep equality of the `big.Rat` behind two different pointers; its fields are inside the
  library. -/
  rat : Addr → ℚ → Addr → ℚ → Bool
  /-- Deep equality of two `glob.Pattern` structs. -/
  globPattern : Pattern → Pattern → Bool

mutual
/-- Deep equality of two `Error` structs: of their fields `inner`. Two `errorString` pointers are
deeply equal when they are equal or point to the same text; two multi-errors when their slices
are both nil or both not, have the same length and deeply equal elements. -/
def Error_deepEqual : Error → Error → Bool
  | .nil, .nil => true
  | .errorString p s, .errorString q t => p == q || s == t
  | .flow f, .flow g => f == g
  | .multiErrorNil, .multiErrorNil => true
  | .multiError es1, .multiError es2 =>
    if es1.length != es2.length then false
    else Error_deepEqual_loop es1 es2
  | _, _ => false
/-- Deep equality of the elements of two slices of Errors of the same length, one by one, up to
the first pair that is not deeply equal. -/
def Error_deepEqual_loop : List Error → List Error → Bool
  | e1 :: rest1, e2 :: rest2 =>
    if Error_deepEqual e1 e2 then Error_deepEqual_loop rest1 rest2 else false
  | _, _ => true
end

/-- An entry of the record of `reflect.DeepEqual`: the two pointers of two Lists, or of two
Maps, whose comparison has started. -/
inductive Visit : Type
  /-- The pointers of two Lists. -/
  | list (p q : Addr)
  /-- The pointers of two Maps. -/
  | map (p q : Addr)
deriving DecidableEq, Repr

/-- Deep equality of the elements of two slices of the same length, one by one, up to the
first pair that is not deeply equal; `eq` is the deep equality of two elements, which takes the
record and returns it with the pairs it has added. -/
def deepEqual_elems (eq : List Visit → Value → Value → Option (Bool × List Visit)) :
    List Visit → List Value → List Value → Option (Bool × List Visit)
  | visited, x :: xs, y :: ys =>
    match eq visited x y with
    | some (true, visited1) => deepEqual_elems eq visited1 xs ys
    | other => other
  | visited, _, _ => some (true, visited)

/-- Deep equality of the entries of a map with the map that has the entries `entries2`: every
key is looked up in the second map, and the two values are compared; `eq` is the deep equality
of two values. -/
def deepEqual_entries (eq : List Visit → Value → Value → Option (Bool × List Visit))
    (entries2 : List (Value × Value)) :
    List Visit → List (Value × Value) → Option (Bool × List Visit)
  | visited, [] => some (true, visited)
  | visited, (k, v1) :: rest =>
    match mapaccess entries2 k with
    | none => some (false, visited)
    | some v2 =>
      match eq visited v1 v2 with
      | some (true, visited1) => deepEqual_entries eq entries2 visited1 rest
      | other => other

/-- Whether two slices start at the same element of the same array, or are both nil. -/
def sameData (sl1 sl2 : Slice) : Bool :=
  sl1.map (fun an => an.1) == sl2.map (fun an => an.1)

/-- The function `deepValueEqual` of the library on two Values, with the record `visited` and a
budget of nested calls; the answer comes with the record as the call leaves it. Two nil
pointers are equal and are not recorded. The handle 0 of a `BuiltinFn` is the nil func. -/
def deepValueEqual (o : Outside) (h : Heap) :
    Nat → List Visit → Value → Value → Option (Bool × List Visit)
  | 0, _, _, _ => none
  | fuel + 1, visited, a, b =>
    match a, b with
    | .string s, .string t => some (s == t, visited)
    | .bool x, .bool y => some (x == y, visited)
    | .error e1, .error e2 => some (Error_deepEqual e1 e2, visited)
    | .list p, .list q =>
      match h.slices[p]?, h.slices[q]? with
      | some sl1, some sl2 =>
        if Visit.list p q ∈ visited then some (true, visited)
        else if p = q then some (true, Visit.list p q :: visited)
        else if sl1.isNone != sl2.isNone then some (false, Visit.list p q :: visited)
        else if sl1.len != sl2.len then some (false, Visit.list p q :: visited)
        else if sameData sl1 sl2 then some (true, Visit.list p q :: visited)
        else deepEqual_elems (deepValueEqual o h fuel) (Visit.list p q :: visited)
          (h.elems sl1) (h.elems sl2)
      | none, none => some (true, visited)
      | _, _ => some (false, visited)
    | .map p, .map q =>
      match h.maps[p]?, h.maps[q]? with
      | some entries1, some entries2 =>
        if Visit.map p q ∈ visited then some (true, visited)
        else if p = q then some (true, Visit.map p q :: visited)
        else if entries1.length != entries2.length then
          some (false, Visit.map p q :: visited)
        else deepEqual_entries (deepValueEqual o h fuel) entries2 (Visit.map p q :: visited)
          entries1
      | none, none => some (true, visited)
      | _, _ => some (false, visited)
    | .closure p c, .closure q d => some (p == q || o.closure p c q d, visited)
    | .builtinFn p c, .builtinFn q d =>
      some (p == q || (c.Name == d.Name && c.Impl == 0 && d.Impl == 0), visited)
    | .rat p x, .rat q y => some (p == q || o.rat p x q y, visited)
    | .globPattern g1, .globPattern g2 => some (o.globPattern g1 g2, visited)
    | _, _ => some (false, visited)

/-- A budget of nested calls that `deepValueEqual` never exceeds: a nested call follows a new
entry of the record, and the record holds pairs of allocated pointers. -/
def deepEqualBudget (h : Heap) : Nat :=
  h.slices.length * h.slices.length + h.maps.length * h.maps.length + 1

/-- `DeepEq`: `reflect.DeepEqual(a, b)`, which starts with an empty record. -/
def DeepEq (o : Outside) (h : Heap) (a b : Value) : Option Bool :=
  (deepValueEqual o h (deepEqualBudget h) [] a b).map (fun r => r.1)

/-- One layer of deep equality, by the rules of the library: what makes `a` and `b` deeply
equal when `R` says which of their elements are. -/
def deepStep (o : Outside) (h : Heap) (R : Value → Value → Prop) : Value → Value → Prop
  | .string s, .string t => (s == t) = true
  | .bool x, .bool y => (x == y) = true
  | .error e1, .error e2 => Error_deepEqual e1 e2 = true
  | .list p, .list q =>
    match h.slices[p]?, h.slices[q]? with
    | some sl1, some sl2 =>
      p = q ∨ (sl1.isNone = sl2.isNone ∧ sl1.len = sl2.len ∧
        (sameData sl1 sl2 = true ∨ ∀ xy ∈ (h.elems sl1).zip (h.elems sl2), R xy.1 xy.2))
    | none, none => True
    | _, _ => False
  | .map p, .map q =>
    match h.maps[p]?, h.maps[q]? with
    | some entries1, some entries2 =>
      p = q ∨ (entries1.length = entries2.length ∧
        ∀ kv ∈ entries1, ∃ v2, mapaccess entries2 kv.1 = some v2 ∧ R kv.2 v2)
    | none, none => True
    | _, _ => False
  | .closure p c, .closure q d => (p == q || o.closure p c q d) = true
  | .builtinFn p c, .builtinFn q d =>
    (p == q || (c.Name == d.Name && c.Impl == 0 && d.Impl == 0)) = true
  | .rat p x, .rat q y => (p == q || o.rat p x q y) = true
  | .globPattern g1, .globPattern g2 => o.globPattern g1 g2 = true
  | _, _ => False

/-- A relation on Values under which related Values agree in one layer and have related
elements. -/
def deepBisimulation (o : Outside) (h : Heap) (R : Value → Value → Prop) : Prop :=
  ∀ a b, R a b → deepStep o h R a b

/-- Deep equality as a relation: the largest one under which related Values agree in one layer
and have related elements; it relates containers that hold themselves as well. -/
def deeplyEqual (o : Outside) (h : Heap) (a b : Value) : Prop :=
  ∃ R, deepBisimulation o h R ∧ R a b

/-- The relation that a record stands for: two Lists or two Maps with allocated pointers are
related when their pair is in the record; other Values when they agree in one layer. -/
def deepAssumed (o : Outside) (h : Heap) (visited : List Visit) : Value → Value → Prop
  | .list p, .list q =>
    match h.slices[p]?, h.slices[q]? with
    | some _, some _ => Visit.list p q ∈ visited
    | none, none => True
    | _, _ => False
  | .map p, .map q =>
    match h.maps[p]?, h.maps[q]? with
    | some _, some _ => Visit.map p q ∈ visited
    | none, none => True
    | _, _ => False
  | a, b => deepStep o h (fun _ _ => False) a b

/-- An entry of the record is good when its two containers agree in one layer and their
elements are related by the record. -/
def deepGood (o : Outside) (h : Heap) (visited : List Visit) : Visit → Prop
  | .list p q => deepStep o h (deepAssumed o h visited) (.list p) (.list q)
  | .map p q => deepStep o h (deepAssumed o h visited) (.map p) (.map q)

/-- The entries that a record can get: the pairs of allocated pointers. -/
def visitUniverse (h : Heap) : Finset Visit :=
  ((Finset.range h.slices.length ×ˢ Finset.range h.slices.length).image
      (fun pq => Visit.list pq.1 pq.2)) ∪
    ((Finset.range h.maps.length ×ˢ Finset.range h.maps.length).image
      (fun pq => Visit.map pq.1 pq.2))

/-- The number of entries that a record can still get. -/
def unvisited (h : Heap) (visited : List Visit) : Nat :=
  (visitUniverse h \ visited.toFinset).card

/-- The empty heap. -/
def emptyHeap : Heap := ⟨[], [], []⟩

/-- The bytes of a text in UTF-8, the form in which Go holds a string. -/
def bytes (s : String) : List UInt8 := s.toUTF8.data.toList

/-! ## Sample inputs -/

/-- A choice of the code outside value.go: a quoting that wraps the text in double quotes. -/
def sampleExternals : Externals :=
  ⟨fun s => "\"" ++ s ++ "\"", "fn-", fun _ => "", fun _ => ""⟩

/-- A deep equality of the values with fields outside value.go: two Closures behind different
pointers are never deeply equal, two Rats when they hold the same number, two patterns when
they have the same segments. -/
def sampleOutside : Outside :=
  ⟨fun _ _ _ _ => false, fun _ x _ y => x == y, fun g1 g2 => g1 == g2⟩

/-- A heap with one slice, of `a`, `b`, `c`, and one map, with the entry `k` to `v`. -/
def sampleHeap : Heap :=
  ⟨[[.string "a", .string "b", .string "c"]], [some (0, 3)], [[(.string "k", .string "v")]]⟩

end Eval

namespace Histlist

/-! ## The history listing addon (package histlist, histlist.go) -/

/-- A Go `string`: a sequence of bytes, not necessarily valid UTF-8. -/
abbrev GoString := List UInt8

/-- The Go type `histutil.Entry`, of which histlist.go reads the fields `Text` and `Seq`. -/
structure Entry where
  /-- The field `Text string`: the text of the command. -/
  Text : GoString
  /-- The field `Seq int`: the sequence number of the command. -/
  Seq : Int
deriving DecidableEq, Repr

/-- A Go slice `[]histutil.Entry` as a value: `none` is the nil slice, `some es` a slice that is
not nil and holds the elements `es`. The type `items` of histlist.go has this underlying type. -/
abbrev items := Option (List Entry)

/-- The elements of a slice; the nil slice has none. -/
def items.elems : items → List Entry
  | none => []
  | some es => es

/-- `it.Len()`: `len(it)`. -/
def items.Len (it : items) : Nat := it.elems.length

/-- The builtin `append(s, e)` as a value: the result is never nil and holds the elements of `s`
followed by `e`. -/
def append (s : items) (e : Entry) : items := some (s.elems ++ [e])

/-- The search of `strings.Index(s, substr)` from the position `i` on, where `s` is the text from
`i` on: the first position at which `substr` starts, or -1. The library searches with faster
methods for some lengths; this is the function that its documentation states ("the index of the
first instance of substr in s, or -1 if substr is not present in s"). -/
def Index_loop (substr : GoString) : GoString → Nat → Int
  | [], i => if substr = [] then (i : Int) else -1
  | c :: s, i =>
    if (c :: s).take substr.length = substr then (i : Int) else Index_loop substr s (i + 1)

/-- `strings.Index(s, substr)`. -/
def Index (s substr : GoString) : Int := Index_loop substr s 0

/-- `strings.Contains(s, substr)`: `return Index(s, substr) >= 0`. -/
def Contains (s substr : GoString) : Bool := decide (0 ≤ Index s substr)

/-- The loop of `filter`, `for _, entry := range allEntries`, over the elements that are left,
with the slice `entries` built so far. -/
def filter_loop (p : GoString) : List Entry → items → items
  | [], entries => entries
  | entry :: rest, entries =>
    if Contains entry.Text p then filter_loop p rest (append entries entry)
    else filter_loop p rest entries

/-- `filter(allEntries, p)`: the slice `allEntries` itself when `p == ""`; otherwise the loop,
started with `var entries []histutil.Entry`, the nil slice. -/
def filter (allEntries : items) (p : GoString) : items :=
  if p = [] then allEntries else filter_loop p allEntries.elems none

/-- Three entries of a history: `ls`, `echo a`, `ls -l`, as bytes. -/
def sampleEntries : items :=
  some [⟨[108, 115], 1⟩, ⟨[101, 99, 104, 111, 32, 97], 2⟩, ⟨[108, 115, 32, 45, 108], 3⟩]

end Histlist

/-! # Properties -/

namespace Eval

/-! ## Truthiness and string forms -/

/-- C5: `ToBool v` is false exactly when `v` is `Bool(false)` or an Error with a non-nil inner
error; `Error{nil}` and the empty String are truthy, and so is every List, Map, Closure,
BuiltinFn, Rat and GlobPattern. -/
theorem ToBool_false_iff :
    (∀ v : Value, ToBool v = false ↔ (v = .bool false ∨ ∃ e, v = .error e ∧ e ≠ .nil)) ∧
    ToBool (.error OK) = true ∧
    ToBool (.string "") = true ∧
    (∀ p, ToBool (.list p) = true) ∧
    (∀ p, ToBool (.map p) = true) ∧
    (∀ p c, ToBool (.closure p c) = true) ∧
    (∀ p b, ToBool (.builtinFn p b) = true) ∧
    (∀ p q, ToBool (.rat p q) = true) ∧
    (∀ gp, ToBool (.globPattern gp) = true) := by
  refine ⟨?_, rfl, rfl, fun _ => rfl, fun _ => rfl, fun _ _ => rfl, fun _ _ => rfl,
    fun _ _ => rfl, fun _ => rfl⟩
  intro v
  cases v with
  | bool b => cases b <;> simp [ToBool, Booler_Bool, Bool_Bool]
  | error e => cases e <;> simp [ToBool, Booler_Bool, Error_Bool]
  | _ => simp [ToBool, Booler_Bool]

/-! ## Multi-errors -/

/-- Appending to the accumulator of `String.intercalate` on the left. -/
theorem intercalate_go_append (a sep : String) (l : List String) (acc : String) :
    String.intercalate.go (a ++ acc) sep l = a ++ String.intercalate.go acc sep l := by
  induction l generalizing acc with
  | nil => rfl
  | cons m ms ih =>
    simp only [String.intercalate.go]
    rw [String.append_assoc, String.append_assoc, ih, String.append_assoc]

/-- The loop of `multiError.Error` after the first element continues the accumulator of
`String.intercalate`. -/
theorem multiError_Error_loop_go (fuel : Nat) (es : List Error) (ms : List String)
    (hms : List.Forall₂ (fun e m => inner_Error fuel e = .ok m) es ms) (i : Nat) (b : String) :
    multiError_Error_loop fuel es (i + 1) b = .ok (String.intercalate.go b " | " ms) := by
  induction hms generalizing i b with
  | nil => simp [multiError_Error_loop, String.intercalate.go]
  | cons hm _ ih =>
    simp only [multiError_Error_loop, hm, String.intercalate.go]
    simpa using ih (i + 1) _

/-- The message of a multi-error whose elements all have a message. -/
theorem multiError_Error_of_messages (fuel : Nat) (es : List Error) (ms : List String)
    (hms : List.Forall₂ (fun e m => inner_Error fuel e = .ok m) es ms) :
    inner_Error fuel (.multiError es) = .ok ("(" ++ " | ".intercalate ms ++ ")") := by
  cases hms with
  | nil => simp [inner_Error, multiError_Error_loop, String.intercalate]
  | @cons e m es1 ms1 hm hrest =>
    simp only [inner_Error, multiError_Error_loop, hm, String.intercalate]
    have := multiError_Error_loop_go fuel es1 ms1 hrest 0 ("(" ++ m)
    simp only [Nat.zero_add] at this
    simp [this, intercalate_go_append]

/-- C6: `ToString` gives the dedicated string form of the variants that have one and `Repr` for
the others. A String gives its raw text, a Bool `true` or `false`, a Rat its number text. An
Error with a nil inner error gives `ok`; every other Error gives what the call
`e.inner.Error()` gives, which is: the text `m` for the error of `errors.New(m)`; `return`,
`break` and `continue` for the three named flows; for a multi-error `(`, the messages of its
elements in order joined with ` | `, and `)`, so `()` for no element and `(x | y)` for the plain
errors `x` and `y`. A List, a Map, a Closure, a BuiltinFn and a GlobPattern give their `Repr`. -/
theorem ToString_by_variant (x : Externals) (h : Heap) (fuel : Nat) :
    (∀ s, ToString x h fuel (.string s) = .ok s) ∧
    ToString x h fuel (.bool true) = .ok "true" ∧
    ToString x h fuel (.bool false) = .ok "false" ∧
    ToString x h fuel (.error .nil) = .ok "ok" ∧
    (∀ e, e ≠ .nil → ToString x h fuel (.error e) = inner_Error fuel e) ∧
    (∀ p m, ToString x h fuel (.error (.errorString p m)) = .ok m) ∧
    ToString x h (fuel + 1) (.error (.flow 0)) = .ok "return" ∧
    ToString x h (fuel + 1) (.error (.flow 1)) = .ok "break" ∧
    ToString x h (fuel + 1) (.error (.flow 2)) = .ok "continue" ∧
    (∀ es ms, List.Forall₂ (fun e m => inner_Error fuel e = .ok m) es ms →
      ToString x h fuel (.error (.multiError es)) =
        .ok ("(" ++ " | ".intercalate ms ++ ")")) ∧
    ToString x h fuel (.error .multiErrorNil) = .ok "()" ∧
    (∀ p q, ToString x h fuel (.error (.multiError [.errorString p "x", .errorString q "y"])) =
      .ok "(x | y)") ∧
    (∀ p q, ToString x h fuel (.rat p q) =
      .ok (if q.den = 1 then toString q.num else toString q.num ++ "/" ++ toString q.den)) ∧
    (∀ p, ToString x h fuel (.list p) = Value_Repr x h fuel (.list p)) ∧
    (∀ p, ToString x h fuel (.map p) = Value_Repr x h fuel (.map p)) ∧
    (∀ p c, ToString x h fuel (.closure p c) = Value_Repr x h fuel (.closure p c)) ∧
    (∀ p b, ToString x h fuel (.builtinFn p b) = Value_Repr x h fuel (.builtinFn p b)) ∧
    (∀ gp, ToString x h fuel (.globPattern gp) = Value_Repr x h fuel (.globPattern gp)) := by
  refine ⟨fun _ => rfl, rfl, rfl, rfl, ?_, fun _ _ => rfl, rfl, rfl, rfl, ?_, rfl, ?_,
    fun _ _ => rfl, fun _ => rfl, fun _ => rfl, fun _ _ => rfl, fun _ _ => rfl, fun _ => rfl⟩
  · intro e he
    cases e with
    | nil => exact absurd rfl he
    | _ => rfl
  · intro es ms hms
    exact multiError_Error_of_messages fuel es ms hms
  · intro p q
    have hms : List.Forall₂ (fun e m => inner_Error fuel e = .ok m)
        [.errorString p "x", .errorString q "y"] ["x", "y"] :=
      .cons (by simp [inner_Error]) (.cons (by simp [inner_Error]) .nil)
    exact multiError_Error_of_messages fuel _ _ hms

/-- C7, as amended: for Errors that all carry a non-nil inner error with messages `ms`, the
message of the multi-error built by `newMultiError` is `(`, the messages in order joined with
` | `, and `)`. -/
theorem newMultiError_message (fuel : Nat) (es : List Error) (ms : List String)
    (hms : List.Forall₂ (fun e m => e ≠ .nil ∧ inner_Error fuel e = .ok m) es ms) :
    Error_String fuel (newMultiError es) = .ok ("(" ++ " | ".intercalate ms ++ ")") := by
  have h2 : List.Forall₂ (fun e m => inner_Error fuel e = .ok m) es ms :=
    hms.imp (fun _ _ h => h.2)
  cases es with
  | nil =>
    cases hms
    simp [Error_String, newMultiError, inner_Error, String.intercalate]
  | cons e rest =>
    simpa [Error_String, newMultiError] using
      multiError_Error_of_messages fuel (e :: rest) ms h2

/-- C7, witness: the multi-error of two plain errors with the messages `x` and `y`. -/
theorem newMultiError_message_witness :
    Error_String 0 (newMultiError [.errorString 7 "x", .errorString 8 "y"]) = .ok "(x | y)" :=
  newMultiError_message 0 [.errorString 7 "x", .errorString 8 "y"] ["x", "y"]
    (.cons ⟨by simp, rfl⟩ (.cons ⟨by simp, rfl⟩ .nil))

/-- C7, counterexample: the message of the multi-error of one plain error `x` is `(x)` and not
`x`, and for a list that holds `OK` no message is produced: the call ends in a nil
dereference. -/
theorem newMultiError_message_counterexample :
    Error_String 1 (newMultiError [.errorString 7 "x"]) = .ok "(x)" ∧
    Error_String 1 (newMultiError [.errorString 7 "x"]) ≠ .ok "x" ∧
    Error_String 1 (newMultiError [OK, .errorString 7 "x"]) = .error nilDereference := by
  decide

/-- Joining strings: the head comes first. -/
theorem String_join_cons (a : String) (l : List String) :
    String.join (a :: l) = a ++ String.join l := by
  have key : ∀ (l : List String) (acc : String),
      l.foldl (fun r s => r ++ s) acc = acc ++ l.foldl (fun r s => r ++ s) "" := by
    intro l
    induction l with
    | nil => intro acc; simp
    | cons b bs ih =>
      intro acc
      simp only [List.foldl_cons]
      rw [ih (acc ++ b), ih ("" ++ b)]
      simp [String.append_assoc]
  simp only [String.join, List.foldl_cons]
  rw [key l ("" ++ a)]
  simp

/-- The loop of `multiError.Repr` appends a space and the Repr of each element. -/
theorem multiError_Repr_loop_eq (x : Externals) (fuel : Nat) (es : List Error)
    (rs : List String)
    (hrs : List.Forall₂ (fun e r => Error_Repr x fuel e = .ok r) es rs) (b : String) :
    multiError_Repr_loop x fuel es b = .ok (b ++ String.join (rs.map (fun r => " " ++ r))) := by
  induction hrs generalizing b with
  | nil => simp [multiError_Repr_loop, String.join]
  | cons hr _ ih =>
    simp only [multiError_Repr_loop, hr, List.map_cons, String_join_cons]
    rw [ih]
    simp [String.append_assoc]

/-- C8: with `rs` the Repr of the elements in order, the Repr of `newMultiError(es)` is
`?(multi-error`, then a space and the Repr of each element, then `)`; an element with a nil
inner error contributes `$ok`, an element that wraps a plain error with message `m` contributes
`?(error `, the quoted `m` and `)`. -/
theorem newMultiError_Repr (x : Externals) (fuel : Nat) (es : List Error) (rs : List String)
    (hrs : List.Forall₂ (fun e r => Error_Repr x fuel e = .ok r) es rs) :
    Error_Repr x fuel (newMultiError es) =
        .ok ("?(multi-error" ++ String.join (rs.map (fun r => " " ++ r)) ++ ")") ∧
    Error_Repr x fuel OK = .ok "$ok" ∧
    (∀ p m, Error_Repr x fuel (.errorString p m) = .ok ("?(error " ++ x.Quote m ++ ")")) := by
  refine ⟨?_, rfl, fun _ _ => rfl⟩
  cases es with
  | nil =>
    cases hrs
    simp [newMultiError, Error_Repr, String.join]
  | cons e rest =>
    simp [newMultiError, Error_Repr, multiError_Repr_loop_eq x fuel (e :: rest) rs hrs]

/-- C8, witness: the multi-error of `OK` and a plain error with message `x`, with a quoting that
wraps the text in double quotes. -/
theorem newMultiError_Repr_witness :
    Error_Repr ⟨fun s => "\"" ++ s ++ "\"", "fn-", fun _ => "", fun _ => ""⟩ 0
      (newMultiError [OK, .errorString 7 "x"]) = .ok "?(multi-error $ok ?(error \"x\"))" :=
  (newMultiError_Repr ⟨fun s => "\"" ++ s ++ "\"", "fn-", fun _ => "", fun _ => ""⟩ 0
    [OK, .errorString 7 "x"] ["$ok", "?(error \"x\")"]
    (.cons rfl (.cons rfl .nil))).1

/-- C9: `allok` is true exactly when every element carries a nil inner error; it is true for the
empty list and for two `OK`, false for `OK` followed by an error. -/
theorem allok_iff :
    (∀ es : List Error, allok es = true ↔ ∀ e ∈ es, e = .nil) ∧
    allok [] = true ∧
    allok [OK, OK] = true ∧
    (∀ p m, allok [OK, .errorString p m] = false) := by
  refine ⟨?_, rfl, rfl, fun _ _ => rfl⟩
  intro es
  induction es with
  | nil => simp [allok]
  | cons e es ih => cases e <;> simp [allok, ih]

/-! ## Reading back the decimal form of an integer -/

/-- The character of a decimal digit is a digit with that value. -/
theorem digitChar_digit (d : Nat) (hd : d < 10) :
    ('0' ≤ Nat.digitChar d ∧ Nat.digitChar d ≤ '9') ∧
    (Nat.digitChar d).toNat - '0'.toNat = d ∧
    Nat.digitChar d ≠ '+' ∧ Nat.digitChar d ≠ '-' := by
  interval_cases d <;> decide

/-- The digits that `Nat.toDigitsCore` writes go in front of the ones it was given. -/
theorem toDigitsCore_append (fuel n : Nat) (ds : List Char) :
    Nat.toDigitsCore 10 fuel n ds = Nat.toDigitsCore 10 fuel n [] ++ ds := by
  induction fuel generalizing n ds with
  | zero => simp [Nat.toDigitsCore]
  | succ fuel ih =>
    simp only [Nat.toDigitsCore]
    split
    · simp
    · rw [ih (n / 10) (_ :: ds), ih (n / 10) [_]]
      simp

/-- The digit loop on a text in two parts. -/
theorem ParseUint_loop_append (l1 l2 : List Char) (n : Nat) :
    ParseUint_loop (l1 ++ l2) n =
      match ParseUint_loop l1 n with
      | .ok m => ParseUint_loop l2 m
      | .error e => .error e := by
  induction l1 generalizing n with
  | nil => simp [ParseUint_loop]
  | cons c cs ih =>
    simp only [List.cons_append, ParseUint_loop]
    split
    · split
      · rfl
      · split
        · rfl
        · exact ih _
    · rfl

/-- The digit loop on one digit. -/
theorem ParseUint_loop_digit (d n : Nat) (hd : d < 10) (hn : n < 2 ^ 64) :
    ParseUint_loop [Nat.digitChar d] n =
      if n * 10 + d < 2 ^ 64 then .ok (n * 10 + d) else .error .ErrRange := by
  obtain ⟨hdig, hval, -, -⟩ := digitChar_digit d hd
  simp only [ParseUint_loop, hdig, and_self, if_true, hval]
  norm_num at hn ⊢
  by_cases h1 : 1844674407370955162 ≤ n
  · rw [if_pos h1, if_neg (by omega)]
  · rw [if_neg h1]
    have h10 : n * 10 % 18446744073709551616 = n * 10 := Nat.mod_eq_of_lt (by omega)
    rw [h10]
    by_cases h2 : n * 10 + d < 18446744073709551616
    · rw [Nat.mod_eq_of_lt h2, if_neg (by omega), if_pos h2]
    · rw [if_neg h2, if_pos]
      left
      have : (n * 10 + d) % 18446744073709551616 = n * 10 + d - 18446744073709551616 := by
        omega
      omega

/-- The digit loop reads the decimal digits of a number back, or reports that it does not fit 64
bits. -/
theorem ParseUint_loop_toDigitsCore (fuel n : Nat) (hfuel : n < fuel) :
    ParseUint_loop (Nat.toDigitsCore 10 fuel n []) 0 =
      if n < 2 ^ 64 then .ok n else .error .ErrRange := by
  induction fuel generalizing n with
  | zero => omega
  | succ fuel ih =>
    simp only [Nat.toDigitsCore]
    split
    · rename_i h0
      have hlt : n < 10 := by omega
      rw [Nat.mod_eq_of_lt hlt, ParseUint_loop_digit n 0 hlt (by norm_num)]
      have : n < 2 ^ 64 := by norm_num; omega
      simp [this]
    · rename_i h0
      rw [toDigitsCore_append, ParseUint_loop_append, ih (n / 10) (by omega)]
      by_cases hq : n / 10 < 2 ^ 64
      · rw [if_pos hq]
        simp only []
        rw [ParseUint_loop_digit (n % 10) (n / 10) (Nat.mod_lt _ (by norm_num)) hq]
        have : n / 10 * 10 + n % 10 = n := by omega
        rw [this]
      · rw [if_neg hq]
        have : ¬ n < 2 ^ 64 := by
          norm_num at hq ⊢
          omega
        rw [if_neg this]

/-- Every character that `Nat.toDigitsCore` writes is a digit. -/
theorem toDigitsCore_head (fuel n : Nat) (hfuel : n < fuel) :
    ∃ c rest, Nat.toDigitsCore 10 fuel n [] = c :: rest ∧ c ≠ '+' ∧ c ≠ '-' := by
  induction fuel generalizing n with
  | zero => omega
  | succ fuel ih =>
    simp only [Nat.toDigitsCore]
    split
    · exact ⟨_, [], rfl, (digitChar_digit _ (Nat.mod_lt _ (by norm_num))).2.2⟩
    · rw [toDigitsCore_append]
      obtain ⟨c, rest, hc, hne⟩ := ih (n / 10) (by omega)
      exact ⟨c, rest ++ [(n % 10).digitChar], by simp [hc], hne⟩

/-- `ParseUint` on the decimal digits of a natural number. -/
theorem ParseUint_toDigits (n : Nat) :
    ParseUint (Nat.toDigits 10 n) = if n < 2 ^ 64 then .ok n else .error .ErrRange := by
  obtain ⟨c, rest, hc, -⟩ := toDigitsCore_head (n + 1) n (by omega)
  have := ParseUint_loop_toDigitsCore (n + 1) n (by omega)
  unfold Nat.toDigits
  rw [hc] at this ⊢
  simpa [ParseUint] using this

/-- `Atoi` reads the decimal form of an integer back when the integer fits the Go type `int`, and
reports a range error when it does not. -/
theorem Atoi_toString (i : Int) :
    Atoi (toString i) = if -2 ^ 63 ≤ i ∧ i < 2 ^ 63 then .ok i else .error .ErrRange := by
  cases i with
  | ofNat n =>
    obtain ⟨c, rest, hc, hplus, hminus⟩ := toDigitsCore_head (n + 1) n (by omega)
    have hs : (toString (Int.ofNat n)).toList = Nat.toDigits 10 n := rfl
    have hp := ParseUint_toDigits n
    have hc2 : Nat.toDigits 10 n = c :: rest := hc
    simp only [Atoi, hs, ParseInt]
    rw [hc2] at hp ⊢
    simp only [hplus, hminus, if_false, hp, IntSize, Int.ofNat_eq_coe]
    by_cases h64 : n < 2 ^ 64
    · rw [if_pos h64]
      norm_num at h64 ⊢
      split_ifs <;> first | rfl | omega
    · rw [if_neg h64]
      norm_num at h64 ⊢
      rw [if_neg (by omega)]
  | negSucc n =>
    have hs : (toString (Int.negSucc n)).toList = '-' :: Nat.toDigits 10 (n + 1) := rfl
    have hp := ParseUint_toDigits (n + 1)
    have hneg : Int.negSucc n = -((n : Int) + 1) := Int.negSucc_eq n
    simp only [Atoi, hs, ParseInt]
    simp only [show ('-' : Char) ≠ '+' by decide, if_false, if_true, hp, IntSize, hneg]
    by_cases h64 : n + 1 < 2 ^ 64
    · rw [if_pos h64]
      norm_num at h64 ⊢
      split_ifs <;> first | rfl | omega
    · rw [if_neg h64]
      norm_num at h64 ⊢
      rw [if_neg (by omega)]

/-! ## Indexing a List -/

/-- `intIndex` on the decimal form of an integer: the integer when it fits the Go type `int`,
`ErrIndexOutOfRange` when it does not. -/
theorem intIndex_toString (x : Externals) (h : Heap) (fuel : Nat) (i : Int) :
    intIndex x h fuel (.string (toString i)) =
      if -2 ^ 63 ≤ i ∧ i < 2 ^ 63 then .ok i else throw .ErrIndexOutOfRange := by
  simp only [intIndex, ToString, Stringer_String, Atoi_toString]
  split_ifs <;> rfl

/-- The elements of a slice with `n` elements on the array at `a`, in a heap where the slice is
well formed: the array exists and has at least `n` elements. -/
theorem elems_some_wf (h : Heap) (a n : Nat) (hwf : (h.elems (some (a, n))).length = n)
    (hn : 0 < n) :
    ∃ arr, h.arrays[a]? = some arr ∧ n ≤ arr.length ∧ h.elems (some (a, n)) = arr.take n := by
  cases ha : h.arrays[a]? with
  | none =>
    simp [Heap.elems, List.getD_eq_getElem?_getD, ha] at hwf
    omega
  | some arr =>
    simp only [Heap.elems, List.getD_eq_getElem?_getD, ha, Option.getD_some, List.length_take]
      at hwf ⊢
    exact ⟨arr, rfl, by omega, rfl⟩

/-- C1: for a List whose slice is `sl` and an integer index `i` given in decimal form,
`List.Index` returns the element at position `i` when `0 ≤ i ≤ len - 1` and the element at
position `i + len` when `-len ≤ i < 0`; for every other `i` (so for every `i` when the List is
empty) it throws `ErrIndexOutOfRange`. The backing array of a Go slice holds its elements, and
the length of a Go slice fits the type `int`. -/
theorem List_Index_contract (x : Externals) (h : Heap) (fuel : Nat) (l : Addr) (sl : Slice)
    (hl : h.slices[l]? = some sl) (hwf : (h.elems sl).length = sl.len)
    (hlen : sl.len < 2 ^ 63) (i : Int) :
    (0 ≤ i ∧ i ≤ (sl.len : Int) - 1 →
      ∃ v, (h.elems sl)[i.toNat]? = some v ∧
        List_Index x h fuel l (.string (toString i)) = .ok v) ∧
    (-(sl.len : Int) ≤ i ∧ i < 0 →
      ∃ v, (h.elems sl)[(i + sl.len).toNat]? = some v ∧
        List_Index x h fuel l (.string (toString i)) = .ok v) ∧
    (i < -(sl.len : Int) ∨ (sl.len : Int) - 1 < i →
      List_Index x h fuel l (.string (toString i)) = .error (.thrown .ErrIndexOutOfRange)) := by
  have hlen2 : (sl.len : Int) < 9223372036854775808 := by
    norm_num at hlen
    omega
  refine ⟨?_, ?_, ?_⟩
  · rintro ⟨h0, h1⟩
    have hr : -2 ^ 63 ≤ i ∧ i < 2 ^ 63 := by norm_num; omega
    have hk : i.toNat < (h.elems sl).length := by rw [hwf]; omega
    refine ⟨(h.elems sl)[i.toNat], List.getElem?_eq_getElem hk, ?_⟩
    simp only [List_Index, intIndex_toString, if_pos hr, hl]
    rw [if_neg (by omega), if_neg (by omega), List.getElem?_eq_getElem hk]
  · rintro ⟨h0, h1⟩
    have hr : -2 ^ 63 ≤ i ∧ i < 2 ^ 63 := by norm_num; omega
    have hk : (i + sl.len).toNat < (h.elems sl).length := by rw [hwf]; omega
    refine ⟨(h.elems sl)[(i + sl.len).toNat], List.getElem?_eq_getElem hk, ?_⟩
    simp only [List_Index, intIndex_toString, if_pos hr, hl]
    rw [if_pos h1, if_neg (by omega), List.getElem?_eq_getElem hk]
  · intro hout
    simp only [List_Index, intIndex_toString]
    by_cases hr : -2 ^ 63 ≤ i ∧ i < 2 ^ 63
    · simp only [if_pos hr, hl]
      rw [if_pos]
      · rfl
      · split_ifs <;> omega
    · rw [if_neg hr]
      rfl

/-- C1, witness: the List of `a`, `b`, `c` at the indices 1, -1 and 3. -/
theorem List_Index_contract_witness :
    List_Index sampleExternals sampleHeap 0 0 (.string (toString (1 : Int))) =
      .ok (.string "b") ∧
    List_Index sampleExternals sampleHeap 0 0 (.string (toString (-1 : Int))) =
      .ok (.string "c") ∧
    List_Index sampleExternals sampleHeap 0 0 (.string (toString (3 : Int))) =
      .error (.thrown .ErrIndexOutOfRange) := by
  have key := fun i => List_Index_contract sampleExternals sampleHeap 0 0 (some (0, 3)) rfl rfl
    (by decide) i
  refine ⟨?_, ?_, (key 3).2.2 (by decide)⟩
  · obtain ⟨v, hv, hres⟩ := (key 1).1 (by decide)
    rw [hres]
    have : v = .string "b" := by
      simpa [Heap.elems, sampleHeap, Slice.len] using hv.symm
    rw [this]
  · obtain ⟨v, hv, hres⟩ := (key (-1)).2.1 (by decide)
    rw [hres]
    have : v = .string "c" := by
      simpa [Heap.elems, sampleHeap, Slice.len] using hv.symm
    rw [this]

/-- C2: for a List whose slice is `sl`, an integer index `i` given in decimal form and a value
`v`: when `-len ≤ i ≤ len - 1`, `List.IndexSet` returns, and in the heap after the call the List
has the same slice, of the same length, which holds `v` at the normalized position and its old
element at every other position; every array but the backing array of the slice, every slice
variable and every map is as before. For every other `i` the call throws `ErrIndexOutOfRange`
and the heap is as before. -/
theorem List_IndexSet_contract (x : Externals) (h : Heap) (fuel : Nat) (l : Addr) (sl : Slice)
    (hl : h.slices[l]? = some sl) (hwf : (h.elems sl).length = sl.len)
    (hlen : sl.len < 2 ^ 63) (i : Int) (v : Value) :
    (-(sl.len : Int) ≤ i ∧ i ≤ (sl.len : Int) - 1 →
      ∃ h1, List_IndexSet x h fuel l (.string (toString i)) v = (.ok (), h1) ∧
        h1.slices = h.slices ∧
        (h1.elems sl).length = sl.len ∧
        (h1.elems sl)[(if 0 ≤ i then i else i + sl.len).toNat]? = some v ∧
        (∀ j, j ≠ (if 0 ≤ i then i else i + sl.len).toNat →
          (h1.elems sl)[j]? = (h.elems sl)[j]?) ∧
        (∀ a n a1, sl = some (a, n) → a1 ≠ a → h1.arrays[a1]? = h.arrays[a1]?) ∧
        h1.arrays.length = h.arrays.length ∧
        h1.maps = h.maps) ∧
    (i < -(sl.len : Int) ∨ (sl.len : Int) - 1 < i →
      List_IndexSet x h fuel l (.string (toString i)) v =
        (.error (.thrown .ErrIndexOutOfRange), h)) := by
  have hlen2 : (sl.len : Int) < 9223372036854775808 := by
    norm_num at hlen
    omega
  refine ⟨?_, ?_⟩
  · rintro ⟨h0, h1⟩
    have hr : -2 ^ 63 ≤ i ∧ i < 2 ^ 63 := by norm_num; omega
    have hnorm : (if i < 0 then i + (sl.len : Int) else i) =
        (if 0 ≤ i then i else i + sl.len) := by split_ifs <;> omega
    have hk : (if 0 ≤ i then i else i + (sl.len : Int)).toNat < sl.len := by
      split_ifs <;> omega
    cases sl with
    | none => simp [Slice.len] at hk
    | some an =>
      obtain ⟨a, n⟩ := an
      simp only [Slice.len] at hk hwf h0 h1 hnorm ⊢
      obtain ⟨arr, harr, hn, helems⟩ := elems_some_wf h a n hwf (by omega)
      have ha : a < h.arrays.length := (List.getElem?_eq_some.mp harr).1
      have hgetD : h.arrays.getD a [] = arr := by
        simp [List.getD_eq_getElem?_getD, harr]
      have hres : List_IndexSet x h fuel l (.string (toString i)) v = (.ok (),
          ⟨h.arrays.set a (arr.set (if 0 ≤ i then i else i + (n : Int)).toNat v),
            h.slices, h.maps⟩) := by
        simp only [List_IndexSet, intIndex_toString, if_pos hr, hl, Slice.len, hnorm, hgetD]
        rw [if_neg]
        split_ifs <;> omega
      rw [hres]
      generalize (if 0 ≤ i then i else i + (n : Int)).toNat = k at hk ⊢
      have helems1 : Heap.elems ⟨h.arrays.set a (arr.set k v), h.slices, h.maps⟩ (some (a, n)) =
          (arr.set k v).take n := by
        simp [Heap.elems, List.getD_eq_getElem?_getD, ha]
      refine ⟨_, rfl, rfl, ?_, ?_, ?_, ?_, ?_, rfl⟩
      · rw [helems1]
        simp [hn]
      · rw [helems1, List.getElem?_take_of_lt hk]
        simp [show k < arr.length by omega]
      · intro j hj
        rw [helems1, helems]
        by_cases hjn : j < n
        · rw [List.getElem?_take_of_lt hjn, List.getElem?_take_of_lt hjn,
            List.getElem?_set_ne (Ne.symm hj)]
        · rw [List.getElem?_eq_none (by simp; omega), List.getElem?_eq_none (by simp; omega)]
      · intro a0 n0 a1 hsl ha1
        simp only [Option.some.injEq, Prod.mk.injEq] at hsl
        simp only []
        rw [List.getElem?_set_ne (by rw [hsl.1]; exact Ne.symm ha1)]
      · simp
  · intro hout
    simp only [List_IndexSet, intIndex_toString]
    by_cases hr : -2 ^ 63 ≤ i ∧ i < 2 ^ 63
    · simp only [if_pos hr, hl]
      rw [if_pos]
      · rfl
      · split_ifs <;> omega
    · rw [if_neg hr]
      rfl

/-- C2, witness: writing `z` into the List of `a`, `b`, `c` at the index -1 returns, and at the
index 3 it throws `ErrIndexOutOfRange`. -/
theorem List_IndexSet_contract_witness :
    (List_IndexSet sampleExternals sampleHeap 0 0 (.string (toString (-1 : Int)))
      (.string "z")).1 = .ok () ∧
    List_IndexSet sampleExternals sampleHeap 0 0 (.string (toString (3 : Int))) (.string "z") =
      (.error (.thrown .ErrIndexOutOfRange), sampleHeap) := by
  have key := fun i => List_IndexSet_contract sampleExternals sampleHeap 0 0 (some (0, 3)) rfl
    rfl (by decide) i (.string "z")
  refine ⟨?_, (key 3).2 (by decide)⟩
  obtain ⟨h1, hres, -⟩ := (key (-1)).1 (by decide)
  rw [hres]


/-! ## Indexing a Map -/

/-- Go's `==` on Errors is symmetric. -/
theorem Error_eq_symm (a b : Error) : Error_eq a b = Error_eq b a := by
  cases a <;> cases b <;> simp [Error_eq, eq_comm]

/-- Go's `==` on Errors is transitive. -/
theorem Error_eq_trans (a b c : Error) (hab : Error_eq a b = true) :
    Error_eq a c = Error_eq b c := by
  cases a <;> cases b <;> cases c <;> simp_all [Error_eq]

/-- Go's `==` on Values is symmetric. -/
theorem Value_eq_symm (a b : Value) : Value_eq a b = Value_eq b a := by
  cases a <;> cases b <;> simp [Value_eq, eq_comm, Error_eq_symm]

/-- Go's `==` on Values is transitive. -/
theorem Value_eq_trans (a b c : Value) (hab : Value_eq a b = true) :
    Value_eq a c = Value_eq b c := by
  cases a <;> cases b <;> cases c <;> simp_all [Value_eq]
  exact Error_eq_trans _ _ _ hab

/-- A key that can be hashed is equal to itself. -/
theorem Value_eq_refl (k : Value) (hk : hashable k = true) : Value_eq k k = true := by
  cases k with
  | error e => cases e <;> simp_all [Value_eq, Error_eq, hashable]
  | globPattern gp => simp [hashable] at hk
  | _ => simp [Value_eq]

/-- Hashing succeeds for a key that can be hashed. -/
theorem hashKey_of_hashable (k : Value) (hk : hashable k = true) : hashKey k = .ok () := by
  cases k with
  | error e => cases e <;> simp_all [hashKey, hashable]
  | globPattern gp => simp [hashable] at hk
  | _ => simp [hashKey]

/-- Reading a key that was just written gives the written value. -/
theorem mapaccess_mapassign_same (entries : List (Value × Value)) (k v : Value)
    (hk : hashable k = true) : mapaccess (mapassign entries k v) k = some v := by
  induction entries with
  | nil => simp [mapassign, mapaccess, Value_eq_refl k hk]
  | cons e rest ih =>
    obtain ⟨k0, v0⟩ := e
    by_cases h0 : Value_eq k0 k = true
    · simp [mapassign, mapaccess, h0, Value_eq_refl k hk]
    · simp [mapassign, mapaccess, h0, ih]

/-- Writing a key leaves the reads under every other key as they were. -/
theorem mapaccess_mapassign_other (entries : List (Value × Value)) (k v k1 : Value)
    (hne : Value_eq k k1 = false) :
    mapaccess (mapassign entries k v) k1 = mapaccess entries k1 := by
  induction entries with
  | nil => simp [mapassign, mapaccess, hne]
  | cons e rest ih =>
    obtain ⟨k0, v0⟩ := e
    by_cases h0 : Value_eq k0 k = true
    · have := Value_eq_trans k0 k k1 h0
      simp [mapassign, mapaccess, h0, hne, this]
    · simp [mapassign, mapaccess, h0, ih]

/-- A read misses exactly when no entry has an equal key. -/
theorem mapaccess_eq_none_iff (entries : List (Value × Value)) (k : Value) :
    mapaccess entries k = none ↔ ∀ e ∈ entries, Value_eq e.1 k = false := by
  induction entries with
  | nil => simp [mapaccess]
  | cons e rest ih =>
    obtain ⟨k0, v0⟩ := e
    by_cases h0 : Value_eq k0 k = true
    · simp [mapaccess, h0]
    · simp [mapaccess, h0, ih]

/-- A read that hits returns the value of an entry with an equal key. -/
theorem mapaccess_some_mem (entries : List (Value × Value)) (k v : Value)
    (hv : mapaccess entries k = some v) :
    ∃ k0, (k0, v) ∈ entries ∧ Value_eq k0 k = true := by
  induction entries with
  | nil => simp [mapaccess] at hv
  | cons e rest ih =>
    obtain ⟨k0, v0⟩ := e
    by_cases h0 : Value_eq k0 k = true
    · simp only [mapaccess, h0, if_true, Option.some.injEq] at hv
      exact ⟨k0, by simp [hv], h0⟩
    · simp only [mapaccess, h0] at hv
      obtain ⟨k1, hmem, heq⟩ := ih hv
      exact ⟨k1, List.mem_cons_of_mem _ hmem, heq⟩

/-- C3, as amended: for a Map whose entries are `entries`, a key `k` that Go can hash (every
Value but a GlobPattern and an Error that holds a multi-error) and a value `v`, `Map.IndexSet`
returns; in the heap after the call `Map.Index(k)` returns `v`, the reads under every key that
is not equal to `k` are as before, and every other object of the heap is as before. -/
theorem Map_IndexSet_then_Index (x : Externals) (h : Heap) (fuel : Nat) (m : Addr)
    (entries : List (Value × Value)) (hm : h.maps[m]? = some entries) (k v : Value)
    (hk : hashable k = true) :
    ∃ h1 entries1, Map_IndexSet h m k v = (.ok (), h1) ∧
      h1.maps[m]? = some entries1 ∧
      Map_Index x h1 fuel m k = .ok v ∧
      (∀ k1, Value_eq k k1 = false → mapaccess entries1 k1 = mapaccess entries k1) ∧
      (∀ m1, m1 ≠ m → h1.maps[m1]? = h.maps[m1]?) ∧
      h1.maps.length = h.maps.length ∧
      h1.slices = h.slices ∧
      h1.arrays = h.arrays := by
  have hm2 : m < h.maps.length := (List.getElem?_eq_some.mp hm).1
  have hget : (h.maps.set m (mapassign entries k v))[m]? = some (mapassign entries k v) := by
    simp [hm2]
  refine ⟨⟨h.arrays, h.slices, h.maps.set m (mapassign entries k v)⟩, mapassign entries k v,
    ?_, hget, ?_, ?_, ?_, ?_, rfl, rfl⟩
  · simp [Map_IndexSet, hm, hashKey_of_hashable k hk]
  · simp only [Map_Index, hget, hashKey_of_hashable k hk, mapaccess_mapassign_same entries k v hk]
  · intro k1 hk1
    exact mapaccess_mapassign_other entries k v k1 hk1
  · intro m1 hm1
    simp only []
    rw [List.getElem?_set_ne (Ne.symm hm1)]
  · simp

/-- C4, as amended: for a Map whose entries are `entries` and a key `k` that Go can hash,
`Map.Index(k)` returns exactly when some entry has a key equal to `k`, and then it returns the
value of such an entry; when no entry has a key equal to `k` and `r` is the Repr of `k`, it
throws a new error with the message `no such key: ` followed by `r`. The call only reads the
heap. -/
theorem Map_Index_contract (x : Externals) (h : Heap) (fuel : Nat) (m : Addr)
    (entries : List (Value × Value)) (hm : h.maps[m]? = some entries) (k : Value)
    (hk : hashable k = true) :
    ((∃ v, Map_Index x h fuel m k = .ok v) ↔ ∃ e ∈ entries, Value_eq e.1 k = true) ∧
    (∀ v, Map_Index x h fuel m k = .ok v → ∃ k0, (k0, v) ∈ entries ∧ Value_eq k0 k = true) ∧
    (∀ r, (∀ e ∈ entries, Value_eq e.1 k = false) → Value_Repr x h fuel k = .ok r →
      Map_Index x h fuel m k = .error (.thrown (.fresh ("no such key: " ++ r)))) := by
  have hidx : Map_Index x h fuel m k =
      match mapaccess entries k with
      | some v => .ok v
      | none =>
        match Value_Repr x h fuel k with
        | .ok r => throw (.fresh ("no such key: " ++ r))
        | .error err => .error err := by
    simp only [Map_Index, hm, hashKey_of_hashable k hk]
  have hsome : ∀ v, Map_Index x h fuel m k = .ok v → mapaccess entries k = some v := by
    intro v hv
    rw [hidx] at hv
    cases hacc : mapaccess entries k with
    | some v1 =>
      rw [hacc] at hv
      simp only [Except.ok.injEq] at hv
      rw [hv]
    | none =>
      rw [hacc] at hv
      simp only [throw] at hv
      split at hv <;> simp at hv
  refine ⟨⟨?_, ?_⟩, ?_, ?_⟩
  · rintro ⟨v, hv⟩
    obtain ⟨k0, hmem, heq⟩ := mapaccess_some_mem entries k v (hsome v hv)
    exact ⟨(k0, v), hmem, heq⟩
  · rintro ⟨e, hmem, heq⟩
    cases hacc : mapaccess entries k with
    | some v => exact ⟨v, by rw [hidx, hacc]⟩
    | none =>
      have := (mapaccess_eq_none_iff entries k).mp hacc e hmem
      rw [heq] at this
      exact absurd this (by simp)
  · intro v hv
    exact mapaccess_some_mem entries k v (hsome v hv)
  · intro r hnone hr
    rw [hidx, (mapaccess_eq_none_iff entries k).mpr hnone, hr]
    rfl

/-- C3, witness: writing `v2` under the new key `k2` of the sample map and reading it back. -/
theorem Map_IndexSet_then_Index_witness :
    ∃ h1, Map_IndexSet sampleHeap 0 (.string "k2") (.string "v2") = (.ok (), h1) ∧
      Map_Index sampleExternals h1 0 0 (.string "k2") = .ok (.string "v2") := by
  obtain ⟨h1, entries1, hset, -, hget, -⟩ := Map_IndexSet_then_Index sampleExternals sampleHeap 0
    0 [(.string "k", .string "v")] rfl (.string "k2") (.string "v2") rfl
  exact ⟨h1, hset, hget⟩

/-- C3, counterexample: with the empty multi-error as key, `Map.IndexSet` does not return: the
struct `multiError` has a slice field, Go cannot hash it and panics; the map is as before. -/
theorem Map_IndexSet_counterexample :
    Map_IndexSet sampleHeap 0 (.error (newMultiError [])) (.string "v") =
      (.error (.runtimePanic "hash of unhashable type eval.multiError"), sampleHeap) := by
  rfl

/-- C4, witness: reading the key `q`, which the sample map does not hold. -/
theorem Map_Index_contract_witness :
    Map_Index sampleExternals sampleHeap 1 0 (.string "q") =
      .error (.thrown (.fresh "no such key: \"q\"")) :=
  (Map_Index_contract sampleExternals sampleHeap 1 0 [(.string "k", .string "v")] rfl
    (.string "q") rfl).2.2 "\"q\""
    (by intro e he; simp only [List.mem_singleton] at he; subst he; rfl) rfl

/-- C4, counterexample: the empty multi-error is not a key of the sample map and has the Repr
`?(multi-error)`, yet `Map.Index` does not throw the no-such-key error: Go cannot hash the key
and panics. -/
theorem Map_Index_counterexample :
    Map_Index sampleExternals sampleHeap 1 0 (.error (newMultiError [])) =
      .error (.runtimePanic "hash of unhashable type eval.multiError") ∧
    Value_Repr sampleExternals sampleHeap 1 (.error (newMultiError [])) = .ok "?(multi-error)" ∧
    mapaccess [(.string "k", .string "v")] (.error (newMultiError [])) = none := by
  exact ⟨rfl, rfl, rfl⟩


/-! ## Glob segments -/

/-- The suffix of a text from an index on, by its first byte. -/
theorem drop_cons_index (s : List UInt8) (j : Nat) (c : UInt8) (t : List UInt8)
    (hd : s.drop j = c :: t) : j < s.length ∧ s[j]? = some c ∧ s.drop (j + 1) = t := by
  have hj : j < s.length := by
    by_contra hc
    rw [List.drop_eq_nil_of_le (by omega)] at hd
    exact absurd hd (by simp)
  rw [List.drop_eq_getElem_cons hj] at hd
  simp only [List.cons.injEq] at hd
  exact ⟨hj, by rw [List.getElem?_eq_getElem hj, hd.1], hd.2⟩

/-- The first inner loop stops after the bytes up to the next `/`. -/
theorem skipLiteral_eq (s : List UInt8) (fuel j : Nat) (hfuel : s.length - j < fuel) :
    skipLiteral s fuel j = some (j + ((s.drop j).takeWhile (fun c => c != 47)).length) := by
  induction fuel generalizing j with
  | zero => omega
  | succ fuel ih =>
    cases hd : s.drop j with
    | nil =>
      have hj : s.length ≤ j := List.drop_eq_nil_iff.mp hd
      simp [skipLiteral, Nat.not_lt.mpr hj]
    | cons c t =>
      obtain ⟨hj, hc, ht⟩ := drop_cons_index s j c t hd
      by_cases h47 : c = 47
      · simp [skipLiteral, hc, h47]
      · simp only [skipLiteral, hj, hc, true_and, ne_eq, Option.some.injEq, h47,
          not_false_eq_true, if_true]
        rw [ih (j + 1) (by omega), ht]
        simp [List.takeWhile_cons, h47]
        omega

/-- The second inner loop stops after the run of `/`. -/
theorem skipSlashes_eq (s : List UInt8) (fuel j : Nat) (hfuel : s.length - j < fuel) :
    skipSlashes s fuel j = some (j + ((s.drop j).takeWhile (fun c => c == 47)).length) := by
  induction fuel generalizing j with
  | zero => omega
  | succ fuel ih =>
    cases hd : s.drop j with
    | nil =>
      have hj : s.length ≤ j := List.drop_eq_nil_iff.mp hd
      simp [skipSlashes, Nat.not_lt.mpr hj]
    | cons c t =>
      obtain ⟨hj, hc, ht⟩ := drop_cons_index s j c t hd
      by_cases h47 : c = 47
      · simp only [skipSlashes, hj, hc, h47, true_and, if_true]
        rw [ih (j + 1) (by omega), ht]
        simp [List.takeWhile_cons, h47]
        omega
      · simp [skipSlashes, hc, h47]

/-- Collapsing leaves a stretch without `/` as it is. -/
theorem collapseSlashes_literal (a r : List UInt8) (ha : ∀ c ∈ a, c ≠ 47) :
    collapseSlashes (a ++ r) = a ++ collapseSlashes r := by
  induction a with
  | nil => rfl
  | cons c a ih =>
    have hc : c ≠ 47 := ha c (List.mem_cons_self _ _)
    simp only [List.cons_append, collapseSlashes, hc, false_and, if_false, List.cons.injEq,
      true_and]
    exact ih (fun d hd => ha d (List.mem_cons_of_mem _ hd))

/-- Collapsing turns a run of `/` that ends the text or meets another byte into one `/`. -/
theorem collapseSlashes_run (b r : List UInt8) (hb : ∀ c ∈ b, c = 47) (hne : b ≠ [])
    (hr : r.head? ≠ some 47) : collapseSlashes (b ++ r) = 47 :: collapseSlashes r := by
  induction b with
  | nil => exact absurd rfl hne
  | cons c b ih =>
    have hc : c = 47 := hb c (List.mem_cons_self _ _)
    subst hc
    cases b with
    | nil => simp [collapseSlashes, hr]
    | cons d b =>
      have hd : d = 47 := hb d (by simp)
      subst hd
      have := ih (fun e he => hb e (List.mem_cons_of_mem _ he)) (by simp)
      simp only [List.cons_append] at this ⊢
      rw [collapseSlashes]
      simp [this]

/-- The outer loop appends segments that read back as the rest of the text with its runs of `/`
collapsed, and it does so within the budget. -/
theorem stringToSegments_loop_spec (s : List UInt8) (fuel i : Nat) (segs : List Segment)
    (hfuel : s.length - i < fuel) :
    ∃ out, stringToSegments_loop s fuel i segs = some (segs ++ out) ∧
      readBack out = collapseSlashes (s.drop i) := by
  induction fuel generalizing i segs with
  | zero => omega
  | succ fuel ih =>
    by_cases hi : i < s.length
    · -- the literal stretch `a` and what follows it, `r`
      have hsplit := List.takeWhile_append_dropWhile (fun c => c != 47) (s.drop i)
      generalize ha : (s.drop i).takeWhile (fun c => c != 47) = a at hsplit
      generalize hr : (s.drop i).dropWhile (fun c => c != 47) = r at hsplit
      have hlit : ∀ c ∈ a, c ≠ 47 := by
        intro c hc
        rw [← ha] at hc
        simpa using List.mem_takeWhile_imp hc
      have hj : skipLiteral s (s.length + 1) i = some (i + a.length) := by
        rw [skipLiteral_eq s _ i (by omega), ha]
      have hdropj : s.drop (i + a.length) = r := by
        rw [← List.drop_drop, ← hsplit]
        simp
      have htext : (s.take (i + a.length)).drop i = a := by
        rw [List.drop_take, Nat.add_sub_cancel_left, ← hsplit]
        simp
      have hrhead : ∀ c t, r = c :: t → c = 47 := by
        intro c t hrt
        have := List.head?_dropWhile_not (fun c => c != 47) (s.drop i)
        rw [hr, hrt] at this
        simpa using this
      by_cases hjlen : i + a.length < s.length
      · -- a run of `/` follows: `b`, and then `r2`
        have hsplit2 := List.takeWhile_append_dropWhile (fun c => c == 47) r
        generalize hb : r.takeWhile (fun c => c == 47) = b at hsplit2
        generalize hr2 : r.dropWhile (fun c => c == 47) = r2 at hsplit2
        have hrun : ∀ c ∈ b, c = 47 := by
          intro c hc
          rw [← hb] at hc
          simpa using List.mem_takeWhile_imp hc
        have hbne : b ≠ [] := by
          cases hrc : r with
          | nil =>
            rw [hrc] at hdropj
            have := List.drop_eq_nil_iff.mp hdropj
            omega
          | cons c t =>
            have hc := hrhead c t hrc
            rw [← hb, hrc, hc]
            simp [List.takeWhile_cons]
        have hblen : 0 < b.length := List.length_pos.mpr hbne
        have hr2head : r2.head? ≠ some 47 := by
          have := List.head?_dropWhile_not (fun c => c == 47) r
          rw [hr2] at this
          cases hh : r2.head? with
          | none => simp
          | some c =>
            rw [hh] at this
            simp only [beq_eq_false_iff_ne, ne_eq] at this
            simpa using this
        have hj2 : skipSlashes s (s.length + 1) (i + a.length) =
            some (i + a.length + b.length) := by
          rw [skipSlashes_eq s _ _ (by omega), hdropj, hb]
        have hdropj2 : s.drop (i + a.length + b.length) = r2 := by
          rw [← List.drop_drop, hdropj, ← hsplit2]
          simp
        obtain ⟨out, hout, hread⟩ := ih (i + a.length + b.length)
          ((if i + a.length > i then segs ++ [⟨.Literal, a⟩] else segs) ++ [⟨.Slash, []⟩])
          (by omega)
        rw [hdropj2] at hread
        have hcollapse : collapseSlashes (s.drop i) = a ++ 47 :: collapseSlashes r2 := by
          rw [← hsplit, ← hsplit2, collapseSlashes_literal a _ hlit,
            collapseSlashes_run b r2 hrun hbne hr2head]
        by_cases hpos : i + a.length > i
        · refine ⟨[⟨.Literal, a⟩, ⟨.Slash, []⟩] ++ out, ?_, ?_⟩
          · simp only [stringToSegments_loop, hi, if_true, hj, htext, hjlen, hj2]
            rw [hout, if_pos hpos]
            simp
          · simp [readBack, hread, hcollapse]
        · have ha0 : a = [] := List.length_eq_zero.mp (by omega)
          refine ⟨[⟨.Slash, []⟩] ++ out, ?_, ?_⟩
          · simp only [stringToSegments_loop, hi, if_true, hj, htext, hjlen, hj2]
            rw [hout, if_neg hpos]
            simp
          · simp [readBack, hread, hcollapse, ha0]
      · -- the literal stretch ends the text
        have hr0 : r = [] := by
          rw [← hdropj]
          exact List.drop_eq_nil_of_le (by omega)
        have hpos : i + a.length > i := by omega
        refine ⟨[⟨.Literal, a⟩], ?_, ?_⟩
        · simp only [stringToSegments_loop, hi, if_true, hj, htext, hjlen, if_false, hpos]
        · rw [← hsplit, hr0, collapseSlashes_literal a [] hlit]
          simp [readBack, collapseSlashes]
    · refine ⟨[], ?_, ?_⟩
      · simp [stringToSegments_loop, hi]
      · rw [List.drop_eq_nil_of_le (by omega)]
        rfl

/-- C10: `stringToSegments` returns for every text, within the budget of its loops, and the
segments it returns read back as the text with every maximal run of `/` collapsed to one `/`;
`a/b` and `a//b` both give Literal `a`, Slash, Literal `b`, and the empty text gives no
segment. -/
theorem stringToSegments_total_readBack :
    (∀ s : List UInt8, ∃ segs, stringToSegments s = some segs ∧
      readBack segs = collapseSlashes s) ∧
    stringToSegments (bytes "a/b") =
      some [⟨.Literal, bytes "a"⟩, ⟨.Slash, []⟩, ⟨.Literal, bytes "b"⟩] ∧
    stringToSegments (bytes "a//b") =
      some [⟨.Literal, bytes "a"⟩, ⟨.Slash, []⟩, ⟨.Literal, bytes "b"⟩] ∧
    stringToSegments (bytes "") = some [] := by
  refine ⟨?_, by decide, by decide, by decide⟩
  intro s
  obtain ⟨out, hout, hread⟩ := stringToSegments_loop_spec s (s.length + 1) 0 [] (by omega)
  exact ⟨out, by simpa [stringToSegments] using hout, by simpa using hread⟩

/-! ## Wildcards -/

/-- C11: `wildcardToSegment` returns exactly for the tokens `*`, `**` and `?`, with a segment
of kind Star, StarStar and Question and the empty text; the three kinds are pairwise distinct;
for every other token, the empty one and `***` among them, it throws the bad-wildcard error,
whose message holds the token as the verb `%q` prints it. -/
theorem wildcardToSegment_contract (quoteQ : String → String) :
    (∀ t, (∃ seg, wildcardToSegment quoteQ t = .ok seg) ↔ (t = "*" ∨ t = "**" ∨ t = "?")) ∧
    wildcardToSegment quoteQ "*" = .ok ⟨.Star, []⟩ ∧
    wildcardToSegment quoteQ "**" = .ok ⟨.StarStar, []⟩ ∧
    wildcardToSegment quoteQ "?" = .ok ⟨.Question, []⟩ ∧
    (SegmentType.Star ≠ SegmentType.StarStar ∧ SegmentType.StarStar ≠ SegmentType.Question ∧
      SegmentType.Star ≠ SegmentType.Question) ∧
    (∀ t, ¬ (t = "*" ∨ t = "**" ∨ t = "?") →
      wildcardToSegment quoteQ t = .error (.thrown (.fresh ("bad wildcard: " ++ quoteQ t)))) ∧
    wildcardToSegment quoteQ "" = .error (.thrown (.fresh ("bad wildcard: " ++ quoteQ ""))) ∧
    wildcardToSegment quoteQ "***" =
      .error (.thrown (.fresh ("bad wildcard: " ++ quoteQ "***"))) := by
  have hbad : ∀ t, ¬ (t = "*" ∨ t = "**" ∨ t = "?") →
      wildcardToSegment quoteQ t = .error (.thrown (.fresh ("bad wildcard: " ++ quoteQ t))) := by
    intro t ht
    simp only [not_or] at ht
    simp [wildcardToSegment, ht.1, ht.2.1, ht.2.2, throw]
  refine ⟨?_, rfl, rfl, rfl, by decide, hbad, hbad "" (by decide), hbad "***" (by decide)⟩
  intro t
  constructor
  · rintro ⟨seg, hseg⟩
    by_contra hne
    rw [hbad t hne] at hseg
    cases hseg
  · rintro (h | h | h) <;> subst h
    · exact ⟨_, rfl⟩
    · exact ⟨_, rfl⟩
    · exact ⟨_, rfl⟩

/-! ## Kind -/

/-- C17, the code at the failing input: `ExternalCmd` declares the methods `Type` and `Repr` and
no method `Kind`, so it does not implement `Value`, while `ExternalCmd.Type` returns `fn`; each
of the nine other variants declares `Kind`, implements `Value` and returns one of the seven
tags: `string` for String and for Rat, `bool` for Bool, `error` for Error, `list` for List,
`map` for Map, `fn` for Closure and BuiltinFn, `glob-pattern` for GlobPattern. -/
theorem ExternalCmd_declares_no_Kind :
    Variant_Kind .ExternalCmd = none ∧
    "Kind" ∉ declaredMethods .ExternalCmd ∧
    implementsValue .ExternalCmd = false ∧
    (∀ e, ExternalCmd_Type e = "fn") ∧
    (∀ t, t ≠ .ExternalCmd →
      implementsValue t = true ∧ ∃ tag ∈ kindTags, Variant_Kind t = some tag) ∧
    (∀ v : Value, Variant_Kind v.variant = some (Value_Kind v) ∧ Value_Kind v ∈ kindTags) ∧
    Variant_Kind .String = some "string" ∧ Variant_Kind .Bool = some "bool" ∧
    Variant_Kind .Error = some "error" ∧ Variant_Kind .List = some "list" ∧
    Variant_Kind .Map = some "map" ∧ Variant_Kind .GlobPattern = some "glob-pattern" ∧
    Variant_Kind .Closure = some "fn" ∧ Variant_Kind .BuiltinFn = some "fn" ∧
    Variant_Kind .Rat = some "string" := by
  refine ⟨rfl, by decide, by decide, fun _ => rfl, ?_, ?_, rfl, rfl, rfl, rfl, rfl, rfl, rfl,
    rfl, rfl⟩
  · intro t ht
    cases t <;> first | exact absurd rfl ht | exact ⟨by decide, _, by decide, rfl⟩
  · intro v
    cases v <;> exact ⟨rfl, by simp [Value_Kind, kindTags]⟩

/-! ## Flow -/

/-- C20, the code at the failing input: for a flow that is not Return, Break or Continue,
`flow.Error` and `flow.Repr` do not return, whatever the budget: `flow.Error` formats the flow
with the verb `%v`, for which `fmt` calls `flow.Error` again. For the three named flows they
return `return`, `break`, `continue` and `?(return)`, `?(break)`, `?(continue)`, with no index
out of the bounds of `flowNames`. -/
theorem flow_Error_unnamed_never_returns :
    (∀ fuel n, flow_Error fuel (n + 3) = .error .stackOverflow) ∧
    (∀ fuel n, flow_Repr fuel (n + 3) = .error .stackOverflow) ∧
    (∀ fuel, flow_Error (fuel + 1) 0 = .ok "return" ∧ flow_Error (fuel + 1) 1 = .ok "break" ∧
      flow_Error (fuel + 1) 2 = .ok "continue") ∧
    (∀ fuel, flow_Repr (fuel + 1) 0 = .ok "?(return)" ∧ flow_Repr (fuel + 1) 1 = .ok "?(break)" ∧
      flow_Repr (fuel + 1) 2 = .ok "?(continue)") ∧
    (∀ f, f < 3 → flowNames[f]? ≠ none) := by
  have hloop : ∀ fuel n, flow_Error fuel (n + 3) = .error .stackOverflow := by
    intro fuel n
    induction fuel with
    | zero => rfl
    | succ fuel ih =>
      have : n + 3 ≥ flowNames.length := by simp [flowNames]
      simp only [flow_Error, this, if_true, ih]
  refine ⟨hloop, ?_, fun _ => ⟨rfl, rfl, rfl⟩, fun _ => ⟨rfl, rfl, rfl⟩, ?_⟩
  · intro fuel n
    simp [flow_Repr, hloop]
  · intro f hf
    interval_cases f <;> simp [flowNames]

/-! ## intIndex on every text -/

/-- The code points of the decimal digits. -/
theorem digit_toNat (c : Char) (hc : '0' ≤ c ∧ c ≤ '9') : 48 ≤ c.toNat ∧ c.toNat ≤ 57 := by
  obtain ⟨h0, h9⟩ := hc
  have h0' : ('0' : Char).toNat ≤ c.toNat := h0
  have h9' : c.toNat ≤ ('9' : Char).toNat := h9
  exact ⟨h0', h9'⟩

/-- The digit loop on a text that starts with a digit. -/
theorem ParseUint_loop_cons_digit (c : Char) (rest : List Char) (n : Nat)
    (hc : '0' ≤ c ∧ c ≤ '9') (hn : n < 2 ^ 64) :
    ParseUint_loop (c :: rest) n =
      if n * 10 + (c.toNat - '0'.toNat) < 2 ^ 64 then
        ParseUint_loop rest (n * 10 + (c.toNat - '0'.toNat))
      else .error .ErrRange := by
  obtain ⟨h48, h57⟩ := digit_toNat c hc
  have hd : c.toNat - '0'.toNat ≤ 9 := by
    have : ('0' : Char).toNat = 48 := rfl
    omega
  simp only [ParseUint_loop, hc, and_self, if_true]
  generalize c.toNat - '0'.toNat = d at hd ⊢
  norm_num at hn ⊢
  by_cases h1 : 1844674407370955162 ≤ n
  · rw [if_pos h1, if_neg (by omega)]
  · rw [if_neg h1]
    have h10 : n * 10 % 18446744073709551616 = n * 10 := Nat.mod_eq_of_lt (by omega)
    rw [h10]
    by_cases h2 : n * 10 + d < 18446744073709551616
    · rw [Nat.mod_eq_of_lt h2, if_neg (by omega), if_pos h2]
    · rw [if_neg h2, if_pos]
      left
      have : (n * 10 + d) % 18446744073709551616 = n * 10 + d - 18446744073709551616 := by
        omega
      omega

/-- Reading more digits does not make the number smaller. -/
theorem foldl_digits_ge (ds : List Char) (n : Nat) :
    n ≤ ds.foldl (fun n c => n * 10 + (c.toNat - '0'.toNat)) n := by
  induction ds generalizing n with
  | nil => simp
  | cons c ds ih =>
    simp only [List.foldl_cons]
    exact le_trans (by omega) (ih _)

/-- The digit loop on a text of digits: the number they denote, or a range error when it does
not fit 64 bits. -/
theorem ParseUint_loop_digits (ds : List Char) (n : Nat) (hds : ∀ c ∈ ds, '0' ≤ c ∧ c ≤ '9')
    (hn : n < 2 ^ 64) :
    ParseUint_loop ds n =
      if ds.foldl (fun n c => n * 10 + (c.toNat - '0'.toNat)) n < 2 ^ 64 then
        .ok (ds.foldl (fun n c => n * 10 + (c.toNat - '0'.toNat)) n)
      else .error .ErrRange := by
  induction ds generalizing n with
  | nil =>
    simp only [ParseUint_loop, List.foldl_nil]
    rw [if_pos hn]
  | cons c ds ih =>
    rw [ParseUint_loop_cons_digit c ds n (hds c (List.mem_cons_self _ _)) hn]
    simp only [List.foldl_cons]
    by_cases h1 : n * 10 + (c.toNat - '0'.toNat) < 2 ^ 64
    · rw [if_pos h1]
      exact ih _ (fun d hd => hds d (List.mem_cons_of_mem _ hd)) h1
    · rw [if_neg h1, if_neg]
      have := foldl_digits_ge ds (n * 10 + (c.toNat - '0'.toNat))
      omega

/-- The digit loop stops with a syntax error at a character that is not a digit. -/
theorem ParseUint_loop_cons_other (c : Char) (rest : List Char) (n : Nat)
    (hc : ¬ ('0' ≤ c ∧ c ≤ '9')) : ParseUint_loop (c :: rest) n = .error .ErrSyntax := by
  simp only [ParseUint_loop, hc, if_false]

/-- The digit loop on every text: a range error when the digits in front already exceed 64
bits, else a syntax error when a character that is not a digit follows them, else their
number. -/
theorem ParseUint_loop_any (body : List Char) :
    ParseUint_loop body 0 =
      if 2 ^ 64 ≤ decimalValue (body.takeWhile (fun c => decide ('0' ≤ c ∧ c ≤ '9'))) then
        .error .ErrRange
      else if body.dropWhile (fun c => decide ('0' ≤ c ∧ c ≤ '9')) = [] then
        .ok (decimalValue (body.takeWhile (fun c => decide ('0' ≤ c ∧ c ≤ '9'))))
      else .error .ErrSyntax := by
  have hsplit := List.takeWhile_append_dropWhile (fun c => decide ('0' ≤ c ∧ c ≤ '9')) body
  have hhead := List.head?_dropWhile_not (fun c => decide ('0' ≤ c ∧ c ≤ '9')) body
  generalize hp : body.takeWhile (fun c => decide ('0' ≤ c ∧ c ≤ '9')) = p at hsplit
  generalize hr : body.dropWhile (fun c => decide ('0' ≤ c ∧ c ≤ '9')) = r at hsplit hhead
  have hdig : ∀ c ∈ p, '0' ≤ c ∧ c ≤ '9' := by
    intro c hc
    rw [← hp] at hc
    simpa using List.mem_takeWhile_imp hc
  rw [← hsplit, ParseUint_loop_append, ParseUint_loop_digits p 0 hdig (by norm_num)]
  unfold decimalValue
  by_cases hbig : p.foldl (fun n c => n * 10 + (c.toNat - '0'.toNat)) 0 < 2 ^ 64
  · rw [if_pos hbig, if_neg (by omega)]
    cases r with
    | nil => simp [ParseUint_loop]
    | cons c rest =>
      have hc : ¬ ('0' ≤ c ∧ c ≤ '9') := by simpa using hhead
      simp [ParseUint_loop_cons_other c rest _ hc]
  · rw [if_neg hbig, if_pos (by omega)]

/-- `stripSign` is the sign handling of `ParseInt`. -/
theorem ParseInt_eq (c : Char) (rest : List Char) :
    ParseInt (c :: rest) =
      match ParseUint (stripSign (c :: rest)) with
      | .error e => .error e
      | .ok un =>
        if c = '-' then
          (if un > 2 ^ 63 then .error .ErrRange else .ok (- (un : Int)))
        else (if un ≥ 2 ^ 63 then .error .ErrRange else .ok (un : Int)) := by
  have hstrip : stripSign (c :: rest) =
      if c = '+' then rest else if c = '-' then rest else c :: rest := by
    by_cases hp : c = '+'
    · subst hp; rfl
    · by_cases hm : c = '-'
      · subst hm; rfl
      · rw [if_neg hp, if_neg hm]
        simp only [stripSign]
        split <;> simp_all
  simp only [ParseInt, IntSize, ← hstrip]
  cases hres : ParseUint (stripSign (c :: rest)) with
  | error e => cases e <;> rfl
  | ok un =>
    by_cases hm : c = '-'
    · subst hm
      simp only [not_true_eq_false, false_and, if_false, true_and, if_true]
    · simp only [hm, not_false_eq_true, true_and, false_and, if_false]

/-- `Atoi` on every text, by its sign, the digits in front and what follows them. -/
theorem Atoi_any (s : String) :
    Atoi s =
      if stripSign s.toList = [] then .error .ErrSyntax
      else if 2 ^ 64 ≤ decimalValue (leadingDigits s) then .error .ErrRange
      else if leadingDigits s ≠ stripSign s.toList then .error .ErrSyntax
      else if -2 ^ 63 ≤ intValue s ∧ intValue s < 2 ^ 63 then .ok (intValue s)
      else .error .ErrRange := by
  unfold Atoi
  cases hs : s.toList with
  | nil => simp [ParseInt, stripSign]
  | cons c rest =>
    rw [ParseInt_eq]
    by_cases hbody : stripSign (c :: rest) = []
    · simp [hbody, ParseUint]
    · rw [if_neg hbody]
      have hPU : ParseUint (stripSign (c :: rest)) =
          ParseUint_loop (stripSign (c :: rest)) 0 := by
        unfold ParseUint
        split
        · rename_i heq; exact absurd heq hbody
        · rfl
      rw [hPU, ParseUint_loop_any]
      have hlead : leadingDigits s = (stripSign (c :: rest)).takeWhile
          (fun c => decide ('0' ≤ c ∧ c ≤ '9')) := by
        unfold leadingDigits
        rw [hs]
      rw [← hlead]
      by_cases hbig : 2 ^ 64 ≤ decimalValue (leadingDigits s)
      · rw [if_pos hbig, if_pos hbig]
      · rw [if_neg hbig, if_neg hbig]
        have hsplit := List.takeWhile_append_dropWhile
          (fun c => decide ('0' ≤ c ∧ c ≤ '9')) (stripSign (c :: rest))
        rw [← hlead] at hsplit
        by_cases hdrop : (stripSign (c :: rest)).dropWhile
            (fun c => decide ('0' ≤ c ∧ c ≤ '9')) = []
        · have hall : leadingDigits s = stripSign (c :: rest) := by
            rw [hdrop] at hsplit
            simpa using hsplit
          rw [if_pos hdrop, if_neg (by simp [hall])]
          have hval : intValue s = if c = '-' then - (decimalValue (leadingDigits s) : Int)
              else (decimalValue (leadingDigits s) : Int) := by
            simp only [intValue, hs, hall, List.head?_cons, Option.some.injEq]
          simp only []
          rw [hval]
          norm_num at hbig ⊢
          by_cases hm : c = '-'
          · simp only [hm, if_true]
            split_ifs <;> first | rfl | omega
          · simp only [hm, if_false]
            split_ifs <;> first | rfl | omega
        · have hne : leadingDigits s ≠ stripSign (c :: rest) := by
            intro heq
            rw [heq] at hsplit
            exact hdrop (by simpa using hsplit)
          rw [if_neg hdrop, if_pos hne]

/-- A text is well formed exactly when something follows the sign and all of it is digits. -/
theorem wellFormedInt_iff (s : String) :
    wellFormedInt s ↔ stripSign s.toList ≠ [] ∧ leadingDigits s = stripSign s.toList := by
  unfold wellFormedInt leadingDigits
  rw [List.takeWhile_eq_self_iff]
  simp

/-- C14, as amended: with `s` the text `ToString(idx)`, `intIndex` returns the integer of `s`
when `s` is a well-formed decimal integer (an optional sign, then digits) that fits the Go type
`int`; it throws `ErrIndexOutOfRange` when `s` is well formed and does not fit; when `s` is not
well formed it throws `ErrNeedIntIndex`, unless the digits in front of the first offending
character already exceed 64 bits: then `strconv` reports the overflow first and `intIndex`
throws `ErrIndexOutOfRange`. -/
theorem intIndex_contract (x : Externals) (h : Heap) (fuel : Nat) (idx : Value) (s : String)
    (hs : ToString x h fuel idx = .ok s) :
    (wellFormedInt s → -2 ^ 63 ≤ intValue s ∧ intValue s < 2 ^ 63 →
      intIndex x h fuel idx = .ok (intValue s)) ∧
    (wellFormedInt s → ¬ (-2 ^ 63 ≤ intValue s ∧ intValue s < 2 ^ 63) →
      intIndex x h fuel idx = .error (.thrown .ErrIndexOutOfRange)) ∧
    (¬ wellFormedInt s → decimalValue (leadingDigits s) < 2 ^ 64 →
      intIndex x h fuel idx = .error (.thrown .ErrNeedIntIndex)) ∧
    (¬ wellFormedInt s → 2 ^ 64 ≤ decimalValue (leadingDigits s) →
      intIndex x h fuel idx = .error (.thrown .ErrIndexOutOfRange)) := by
  have hidx : intIndex x h fuel idx =
      match Atoi s with
      | .ok i => .ok i
      | .error .ErrRange => throw .ErrIndexOutOfRange
      | .error .ErrSyntax => throw .ErrNeedIntIndex := by
    simp only [intIndex, hs]
  rw [hidx, Atoi_any, wellFormedInt_iff]
  refine ⟨?_, ?_, ?_, ?_⟩
  · rintro ⟨hne, hall⟩ hrange
    have hsmall : ¬ 2 ^ 64 ≤ decimalValue (leadingDigits s) := by
      rw [hall]
      unfold intValue at hrange
      generalize decimalValue (stripSign s.toList) = d at hrange ⊢
      norm_num at hrange ⊢
      split_ifs at hrange <;> omega
    rw [if_neg hne, if_neg hsmall, if_neg (by simp [hall]), if_pos hrange]
  · rintro ⟨hne, hall⟩ hrange
    rw [if_neg hne]
    by_cases hbig : 2 ^ 64 ≤ decimalValue (leadingDigits s)
    · rw [if_pos hbig]
      rfl
    · rw [if_neg hbig, if_neg (by simp [hall]), if_neg hrange]
      rfl
  · intro hnwf hsmall
    by_cases hne : stripSign s.toList = []
    · rw [if_pos hne]
      rfl
    · rw [if_neg hne, if_neg (by omega), if_pos (fun hall => hnwf ⟨hne, hall⟩)]
      rfl
  · intro hnwf hbig
    have hne : stripSign s.toList ≠ [] := by
      intro hnil
      have : leadingDigits s = [] := by
        unfold leadingDigits
        rw [hnil]
        rfl
      rw [this] at hbig
      simp [decimalValue] at hbig
    rw [if_neg hne, if_pos hbig]
    rfl

/-- C14, witness: the index text `-12`. -/
theorem intIndex_contract_witness :
    intIndex sampleExternals sampleHeap 0 (.string "-12") = .ok (-12) :=
  (intIndex_contract sampleExternals sampleHeap 0 (.string "-12") "-12" rfl).1
    ⟨by decide, by decide⟩ (by decide)

/-- C14, counterexample: the text of twenty digits `9` and the letter `x` is not a well-formed
integer, and `intIndex` throws `ErrIndexOutOfRange` for it, not `ErrNeedIntIndex`. -/
theorem intIndex_counterexample :
    ¬ wellFormedInt "99999999999999999999x" ∧
    intIndex sampleExternals sampleHeap 0 (.string "99999999999999999999x") =
      .error (.thrown .ErrIndexOutOfRange) := by
  refine ⟨?_, by decide⟩
  intro hwf
  have := hwf.2 'x' (by decide)
  revert this
  decide

/-! ## The shape of the segments -/

/-- The outer loop appends segments that describe the rest of the text. -/
theorem stringToSegments_loop_segs (s : List UInt8) (fuel i : Nat) (segs : List Segment)
    (hfuel : s.length - i < fuel) :
    ∃ out, stringToSegments_loop s fuel i segs = some (segs ++ out) ∧ Segs (s.drop i) out := by
  induction fuel generalizing i segs with
  | zero => omega
  | succ fuel ih =>
    by_cases hi : i < s.length
    · have hsplit := List.takeWhile_append_dropWhile (fun c => c != 47) (s.drop i)
      generalize ha : (s.drop i).takeWhile (fun c => c != 47) = a at hsplit
      generalize hr : (s.drop i).dropWhile (fun c => c != 47) = r at hsplit
      have hlit : ∀ c ∈ a, c ≠ 47 := by
        intro c hc
        rw [← ha] at hc
        simpa using List.mem_takeWhile_imp hc
      have hj : skipLiteral s (s.length + 1) i = some (i + a.length) := by
        rw [skipLiteral_eq s _ i (by omega), ha]
      have hdropj : s.drop (i + a.length) = r := by
        rw [← List.drop_drop, ← hsplit]
        simp
      have htext : (s.take (i + a.length)).drop i = a := by
        rw [List.drop_take, Nat.add_sub_cancel_left, ← hsplit]
        simp
      have hrhead : ∀ c t, r = c :: t → c = 47 := by
        intro c t hrt
        have := List.head?_dropWhile_not (fun c => c != 47) (s.drop i)
        rw [hr, hrt] at this
        simpa using this
      by_cases hjlen : i + a.length < s.length
      · have hsplit2 := List.takeWhile_append_dropWhile (fun c => c == 47) r
        generalize hb : r.takeWhile (fun c => c == 47) = b at hsplit2
        generalize hr2 : r.dropWhile (fun c => c == 47) = r2 at hsplit2
        have hrun : ∀ c ∈ b, c = 47 := by
          intro c hc
          rw [← hb] at hc
          simpa using List.mem_takeWhile_imp hc
        have hbne : b ≠ [] := by
          cases hrc : r with
          | nil =>
            rw [hrc] at hdropj
            have := List.drop_eq_nil_iff.mp hdropj
            omega
          | cons c t =>
            have hc := hrhead c t hrc
            rw [← hb, hrc, hc]
            simp [List.takeWhile_cons]
        have hblen : 0 < b.length := List.length_pos.mpr hbne
        have hr2head : r2.head? ≠ some 47 := by
          have := List.head?_dropWhile_not (fun c => c == 47) r
          rw [hr2] at this
          cases hh : r2.head? with
          | none => simp
          | some c =>
            rw [hh] at this
            simp only [beq_eq_false_iff_ne, ne_eq] at this
            simpa using this
        have hj2 : skipSlashes s (s.length + 1) (i + a.length) =
            some (i + a.length + b.length) := by
          rw [skipSlashes_eq s _ _ (by omega), hdropj, hb]
        have hdropj2 : s.drop (i + a.length + b.length) = r2 := by
          rw [← List.drop_drop, hdropj, ← hsplit2]
          simp
        obtain ⟨out, hout, hsegs⟩ := ih (i + a.length + b.length)
          ((if i + a.length > i then segs ++ [⟨.Literal, a⟩] else segs) ++ [⟨.Slash, []⟩])
          (by omega)
        rw [hdropj2] at hsegs
        by_cases hpos : i + a.length > i
        · have hane : a ≠ [] := by
            intro h0
            rw [h0] at hpos
            simp at hpos
          refine ⟨[⟨.Literal, a⟩, ⟨.Slash, []⟩] ++ out, ?_, ?_⟩
          · simp only [stringToSegments_loop, hi, if_true, hj, htext, hjlen, hj2]
            rw [hout, if_pos hpos]
            simp
          · rw [← hsplit, ← hsplit2]
            exact Segs.litSlash a b r2 out hane hlit hbne hrun hr2head hsegs
        · have ha0 : a = [] := List.length_eq_zero.mp (by omega)
          refine ⟨[⟨.Slash, []⟩] ++ out, ?_, ?_⟩
          · simp only [stringToSegments_loop, hi, if_true, hj, htext, hjlen, hj2]
            rw [hout, if_neg hpos]
            simp
          · rw [← hsplit, ← hsplit2, ha0]
            exact Segs.slash b r2 out hbne hrun hr2head hsegs
      · have hr0 : r = [] := by
          rw [← hdropj]
          exact List.drop_eq_nil_of_le (by omega)
        have hpos : i + a.length > i := by omega
        have hane : a ≠ [] := by
          intro h0
          rw [h0] at hpos
          simp at hpos
        refine ⟨[⟨.Literal, a⟩], ?_, ?_⟩
        · simp only [stringToSegments_loop, hi, if_true, hj, htext, hjlen, if_false, hpos]
        · rw [← hsplit, hr0, List.append_nil]
          exact Segs.lit a hane hlit
    · refine ⟨[], ?_, ?_⟩
      · simp [stringToSegments_loop, hi]
      · rw [List.drop_eq_nil_of_le (by omega)]
        exact Segs.nil

/-- The last element of a list with a new first element. -/
theorem getLast?_cons_ne_nil {α : Type} (x : α) (l : List α) (hl : l ≠ []) :
    (x :: l).getLast? = l.getLast? := by
  cases l with
  | nil => exact absurd rfl hl
  | cons y l => simp

/-- A described text is empty exactly when it has no segment. -/
theorem Segs_nil_iff (t : List UInt8) (out : List Segment) (h : Segs t out) :
    out = [] ↔ t = [] := by
  induction h with
  | nil => simp
  | lit a hne _ => simp [hne]
  | slash b r out hne _ _ _ _ => simp [hne]
  | litSlash a b r out hne _ _ _ _ _ _ => simp [hne]

/-- The first segment is a Slash exactly when the text starts with `/`. -/
theorem Segs_head (t : List UInt8) (out : List Segment) (h : Segs t out) :
    out.head?.map (fun seg => seg.kind) = some .Slash ↔ t.head? = some 47 := by
  induction h with
  | nil => simp
  | lit a hne hlit =>
    cases a with
    | nil => exact absurd rfl hne
    | cons c a => simpa using hlit c (List.mem_cons_self _ _)
  | slash b r out hne hrun _ _ _ =>
    cases b with
    | nil => exact absurd rfl hne
    | cons c b => simpa using hrun c (List.mem_cons_self _ _)
  | litSlash a b r out hne hlit _ _ _ _ _ =>
    cases a with
    | nil => exact absurd rfl hne
    | cons c a => simpa using hlit c (List.mem_cons_self _ _)

/-- The last segment is a Slash exactly when the text ends with `/`. -/
theorem Segs_last (t : List UInt8) (out : List Segment) (h : Segs t out) :
    out.getLast?.map (fun seg => seg.kind) = some .Slash ↔ t.getLast? = some 47 := by
  induction h with
  | nil => simp
  | lit a hne hlit =>
    have : a.getLast? ≠ some 47 := by
      intro hl
      exact hlit 47 (List.mem_of_getLast?_eq_some hl) rfl
    simpa using this
  | slash b r out hne hrun hhead hsegs ih =>
    cases hr : r with
    | nil =>
      have ho : out = [] := (Segs_nil_iff r out hsegs).mpr hr
      have hb : b.getLast? = some 47 := by
        rw [List.getLast?_eq_getLast _ hne]
        exact congrArg some (hrun _ (List.getLast_mem hne))
      simp [ho, hb]
    | cons c r1 =>
      have ho : out ≠ [] := fun h0 =>
        absurd ((Segs_nil_iff r out hsegs).mp h0) (by simp [hr])
      rw [hr] at ih
      rw [getLast?_cons_ne_nil _ _ ho, List.getLast?_append_of_ne_nil _ (by simp)]
      exact ih
  | litSlash a b r out hne hlit hbne hrun hhead hsegs ih =>
    cases hr : r with
    | nil =>
      have ho : out = [] := (Segs_nil_iff r out hsegs).mpr hr
      have hb : b.getLast? = some 47 := by
        rw [List.getLast?_eq_getLast _ hbne]
        exact congrArg some (hrun _ (List.getLast_mem hbne))
      rw [ho, List.append_nil, List.getLast?_append_of_ne_nil _ hbne]
      simp [hb]
    | cons c r1 =>
      have ho : out ≠ [] := fun h0 =>
        absurd ((Segs_nil_iff r out hsegs).mp h0) (by simp [hr])
      rw [hr] at ih
      rw [getLast?_cons_ne_nil _ _ (by simp), getLast?_cons_ne_nil _ _ ho,
        List.getLast?_append_of_ne_nil _ (by simp), List.getLast?_append_of_ne_nil _ (by simp)]
      exact ih

/-- In a described text every segment is a Literal with a non-empty text without `/` or a
Slash with the empty text, and no two neighbours have the same kind. -/
theorem Segs_shape (t : List UInt8) (out : List Segment) (h : Segs t out) :
    (∀ seg ∈ out, (seg.kind = .Literal ∧ seg.text ≠ [] ∧ 47 ∉ seg.text) ∨
      (seg.kind = .Slash ∧ seg.text = [])) ∧
    List.Chain' (fun x y => x.kind ≠ y.kind) out := by
  induction h with
  | nil => simp
  | lit a hne hlit =>
    refine ⟨?_, by simp⟩
    intro seg hseg
    simp only [List.mem_singleton] at hseg
    subst hseg
    exact Or.inl ⟨rfl, hne, fun h47 => hlit 47 h47 rfl⟩
  | slash b r out hne hrun hhead hsegs ih =>
    refine ⟨?_, ?_⟩
    · intro seg hseg
      rcases List.mem_cons.mp hseg with h0 | h0
      · subst h0
        exact Or.inr ⟨rfl, rfl⟩
      · exact ih.1 seg h0
    · rw [List.chain'_cons']
      refine ⟨?_, ih.2⟩
      intro y hy hkind
      apply (Segs_head r out hsegs).not.mpr hhead
      rw [Option.mem_def.mp hy]
      simp [← hkind]
  | litSlash a b r out hne hlit hbne hrun hhead hsegs ih =>
    refine ⟨?_, ?_⟩
    · intro seg hseg
      rcases List.mem_cons.mp hseg with h0 | h0
      · subst h0
        exact Or.inl ⟨rfl, hne, fun h47 => hlit 47 h47 rfl⟩
      · rcases List.mem_cons.mp h0 with h1 | h1
        · subst h1
          exact Or.inr ⟨rfl, rfl⟩
        · exact ih.1 seg h1
    · rw [List.chain'_cons', List.chain'_cons']
      refine ⟨by simp, ?_, ih.2⟩
      intro y hy hkind
      apply (Segs_head r out hsegs).not.mpr hhead
      rw [Option.mem_def.mp hy]
      simp [← hkind]

/-- C19: the segments that `stringToSegments` returns for a text `s` are well formed: every
segment is a Literal with a non-empty text without `/` or a Slash with the empty text, no two
neighbours are of the same kind (so no two Slash and no two Literal segments are adjacent), the
first segment is a Slash exactly when `s` starts with `/` and the last segment is a Slash
exactly when `s` ends with `/`. -/
theorem stringToSegments_wellFormed (s : List UInt8) :
    ∃ segs, stringToSegments s = some segs ∧
      (∀ seg ∈ segs, (seg.kind = .Literal ∧ seg.text ≠ [] ∧ 47 ∉ seg.text) ∨
        (seg.kind = .Slash ∧ seg.text = [])) ∧
      List.Chain' (fun x y => x.kind ≠ y.kind) segs ∧
      (segs.head?.map (fun seg => seg.kind) = some .Slash ↔ s.head? = some 47) ∧
      (segs.getLast?.map (fun seg => seg.kind) = some .Slash ↔ s.getLast? = some 47) := by
  obtain ⟨out, hout, hsegs⟩ := stringToSegments_loop_segs s (s.length + 1) 0 [] (by omega)
  simp only [List.drop_zero, List.nil_append] at hout hsegs
  exact ⟨out, hout, (Segs_shape s out hsegs).1, (Segs_shape s out hsegs).2,
    Segs_head s out hsegs, Segs_last s out hsegs⟩

/-! ## JSON -/

mutual
/-- `FromJSONInterface` returns for a tree without a node of another type, and throws the
unexpected-type error for the first such node otherwise. -/
theorem FromJSONInterface_outcome (sprint : Nat → String) :
    ∀ (j : JSONNode) (h : Heap),
      (otherTypes j = [] → ∃ v h1, FromJSONInterface sprint h j = .ok (v, h1)) ∧
      (∀ t ts, otherTypes j = t :: ts →
        FromJSONInterface sprint h j = .error (.thrown (.fresh ("unexpected json type: " ++ t))))
  | .null, h => ⟨fun _ => ⟨_, _, rfl⟩, fun t ts ht => by simp [otherTypes] at ht⟩
  | .bool b, h => ⟨fun _ => ⟨_, _, rfl⟩, fun t ts ht => by simp [otherTypes] at ht⟩
  | .float64 f, h => ⟨fun _ => ⟨_, _, rfl⟩, fun t ts ht => by simp [otherTypes] at ht⟩
  | .string s, h => ⟨fun _ => ⟨_, _, rfl⟩, fun t ts ht => by simp [otherTypes] at ht⟩
  | .other typeName, h => by
    refine ⟨fun ht => by simp [otherTypes] at ht, fun t ts ht => ?_⟩
    simp only [otherTypes, List.cons.injEq] at ht
    simp [FromJSONInterface, throw, ht.1]
  | .array a, h => by
    have ih := FromJSONInterface_array_outcome sprint a h
    refine ⟨fun ht => ?_, fun t ts ht => ?_⟩
    · obtain ⟨vs, h1, hvs⟩ := ih.1 (by simpa [otherTypes] using ht)
      exact ⟨_, _, by simp only [FromJSONInterface, hvs]; rfl⟩
    · have := ih.2 t ts (by simpa [otherTypes] using ht)
      simp only [FromJSONInterface, this]
  | .object m, h => by
    have ih := FromJSONInterface_object_outcome sprint m h []
    refine ⟨fun ht => ?_, fun t ts ht => ?_⟩
    · obtain ⟨es, h1, hes⟩ := ih.1 (by simpa [otherTypes] using ht)
      exact ⟨_, _, by simp only [FromJSONInterface, hes]; rfl⟩
    · have := ih.2 t ts (by simpa [otherTypes] using ht)
      simp only [FromJSONInterface, this]
/-- The outcome of the loop over the elements of an array. -/
theorem FromJSONInterface_array_outcome (sprint : Nat → String) :
    ∀ (a : List JSONNode) (h : Heap),
      (otherTypes_array a = [] → ∃ vs h1, FromJSONInterface_array sprint h a = .ok (vs, h1)) ∧
      (∀ t ts, otherTypes_array a = t :: ts →
        FromJSONInterface_array sprint h a =
          .error (.thrown (.fresh ("unexpected json type: " ++ t))))
  | [], h => ⟨fun _ => ⟨_, _, rfl⟩, fun t ts ht => by simp [otherTypes_array] at ht⟩
  | v :: rest, h => by
    have ihv := FromJSONInterface_outcome sprint v h
    refine ⟨fun ht => ?_, fun t ts ht => ?_⟩
    · simp only [otherTypes_array, List.append_eq_nil] at ht
      obtain ⟨v1, h1, hv1⟩ := ihv.1 ht.1
      obtain ⟨vs, h2, hvs⟩ := (FromJSONInterface_array_outcome sprint rest h1).1 ht.2
      exact ⟨_, _, by simp only [FromJSONInterface_array, hv1, hvs]; rfl⟩
    · simp only [otherTypes_array] at ht
      cases hov : otherTypes v with
      | nil =>
        rw [hov, List.nil_append] at ht
        obtain ⟨v1, h1, hv1⟩ := ihv.1 hov
        have := (FromJSONInterface_array_outcome sprint rest h1).2 t ts ht
        simp only [FromJSONInterface_array, hv1, this]
      | cons t1 ts1 =>
        rw [hov, List.cons_append, List.cons.injEq] at ht
        have := ihv.2 t1 ts1 hov
        simp only [FromJSONInterface_array, this, ht.1]
/-- The outcome of the loop over the members of an object. -/
theorem FromJSONInterface_object_outcome (sprint : Nat → String) :
    ∀ (m : List (String × JSONNode)) (h : Heap) (entries : List (Value × Value)),
      (otherTypes_object m = [] →
        ∃ es h1, FromJSONInterface_object sprint h m entries = .ok (es, h1)) ∧
      (∀ t ts, otherTypes_object m = t :: ts →
        FromJSONInterface_object sprint h m entries =
          .error (.thrown (.fresh ("unexpected json type: " ++ t))))
  | [], h, entries => ⟨fun _ => ⟨_, _, rfl⟩, fun t ts ht => by simp [otherTypes_object] at ht⟩
  | (k, v) :: rest, h, entries => by
    have ihv := FromJSONInterface_outcome sprint v h
    refine ⟨fun ht => ?_, fun t ts ht => ?_⟩
    · simp only [otherTypes_object, List.append_eq_nil] at ht
      obtain ⟨v1, h1, hv1⟩ := ihv.1 ht.1
      obtain ⟨es, h2, hes⟩ := (FromJSONInterface_object_outcome sprint rest h1
        (mapassign entries (.string k) v1)).1 ht.2
      exact ⟨_, _, by simp only [FromJSONInterface_object, hv1, hes]; rfl⟩
    · simp only [otherTypes_object] at ht
      cases hov : otherTypes v with
      | nil =>
        rw [hov, List.nil_append] at ht
        obtain ⟨v1, h1, hv1⟩ := ihv.1 hov
        have := (FromJSONInterface_object_outcome sprint rest h1
          (mapassign entries (.string k) v1)).2 t ts ht
        simp only [FromJSONInterface_object, hv1, this]
      | cons t1 ts1 =>
        rw [hov, List.cons_append, List.cons.injEq] at ht
        have := ihv.2 t1 ts1 hov
        simp only [FromJSONInterface_object, this, ht.1]
end

/-- The loop over the elements of an array converts them one by one and in order. -/
theorem FromJSONInterface_array_converts (sprint : Nat → String) (a : List JSONNode) (h : Heap)
    (vs : List Value) (h1 : Heap) (hvs : FromJSONInterface_array sprint h a = .ok (vs, h1)) :
    Converts sprint h a vs h1 := by
  induction a generalizing h vs with
  | nil =>
    simp only [FromJSONInterface_array, Except.ok.injEq, Prod.mk.injEq] at hvs
    rw [← hvs.1, ← hvs.2]
    exact Converts.nil h
  | cons j js ih =>
    simp only [FromJSONInterface_array] at hvs
    cases hj : FromJSONInterface sprint h j with
    | error err => rw [hj] at hvs; cases hvs
    | ok r =>
      obtain ⟨v1, h2⟩ := r
      rw [hj] at hvs
      simp only at hvs
      cases hrest : FromJSONInterface_array sprint h2 js with
      | error err => rw [hrest] at hvs; cases hvs
      | ok r2 =>
        obtain ⟨vs2, h3⟩ := r2
        rw [hrest] at hvs
        simp only [Except.ok.injEq, Prod.mk.injEq] at hvs
        obtain ⟨hv, hh⟩ := hvs
        subst hv
        subst hh
        exact Converts.cons h h2 h3 j js v1 vs2 hj (ih h2 vs2 hrest)

/-- There are as many conversions as nodes. -/
theorem Converts_length (sprint : Nat → String) (h : Heap) (a : List JSONNode)
    (vs : List Value) (h1 : Heap) (hc : Converts sprint h a vs h1) : vs.length = a.length := by
  induction hc with
  | nil => rfl
  | cons _ _ _ _ _ _ _ _ _ ih => simp [ih]

/-- The keys of the entries of an object are the keys of its members, wrapped as Strings. -/
theorem ConvertsMembers_keys (sprint : Nat → String) (h : Heap) (m : List (String × JSONNode))
    (es : List (Value × Value)) (h1 : Heap) (hc : ConvertsMembers sprint h m es h1) :
    es.map Prod.fst = m.map (fun e => Value.string e.1) := by
  induction hc with
  | nil => rfl
  | cons _ _ _ _ _ _ _ _ _ _ ih => simp [ih]

/-- Writing a key that no entry holds adds an entry at the end. -/
theorem mapassign_append (entries : List (Value × Value)) (k v : Value)
    (hnew : ∀ e ∈ entries, Value_eq e.1 k = false) :
    mapassign entries k v = entries ++ [(k, v)] := by
  induction entries with
  | nil => rfl
  | cons e rest ih =>
    obtain ⟨k0, v0⟩ := e
    have h0 : Value_eq k0 k = false := hnew (k0, v0) (List.mem_cons_self _ _)
    simp only [mapassign, h0, Bool.false_eq_true, if_false, List.cons_append, List.cons.injEq,
      true_and]
    exact ih (fun e he => hnew e (List.mem_cons_of_mem _ he))

/-- The loop over the members of an object with distinct keys adds one entry per member, in
order. -/
theorem FromJSONInterface_object_converts (sprint : Nat → String)
    (m : List (String × JSONNode)) (h : Heap) (acc entries : List (Value × Value)) (h1 : Heap)
    (hnodup : (m.map Prod.fst).Nodup)
    (hacc : ∀ e ∈ acc, ∀ km ∈ m, Value_eq e.1 (.string km.1) = false)
    (hes : FromJSONInterface_object sprint h m acc = .ok (entries, h1)) :
    ∃ es, entries = acc ++ es ∧ ConvertsMembers sprint h m es h1 := by
  induction m generalizing h acc with
  | nil =>
    simp only [FromJSONInterface_object, Except.ok.injEq, Prod.mk.injEq] at hes
    exact ⟨[], by simp [hes.1], by rw [← hes.2]; exact ConvertsMembers.nil h⟩
  | cons km ms ih =>
    obtain ⟨k, j⟩ := km
    simp only [FromJSONInterface_object] at hes
    cases hj : FromJSONInterface sprint h j with
    | error err => rw [hj] at hes; cases hes
    | ok r =>
      obtain ⟨v1, h2⟩ := r
      rw [hj] at hes
      simp only at hes
      have hk : mapassign acc (.string k) v1 = acc ++ [(.string k, v1)] :=
        mapassign_append acc _ _ (fun e he => hacc e he (k, j) (List.mem_cons_self _ _))
      rw [hk] at hes
      simp only [List.map_cons, List.nodup_cons] at hnodup
      obtain ⟨es, hentries, hconv⟩ := ih h2 (acc ++ [(.string k, v1)]) hnodup.2 (by
        intro e he km hkm
        rcases List.mem_append.mp he with h0 | h0
        · exact hacc e h0 km (List.mem_cons_of_mem _ hkm)
        · simp only [List.mem_singleton] at h0
          subst h0
          have hne : k ≠ km.1 := by
            intro heq
            exact hnodup.1 (by rw [heq]; exact List.mem_map_of_mem _ hkm)
          simp [Value_eq, hne]) hes
      exact ⟨(.string k, v1) :: es, by simp [hentries],
        ConvertsMembers.cons h h2 h1 k j ms v1 es hj hconv⟩

/-- C12: for a tree without a node of another type `FromJSONInterface` returns; nil gives the
empty String, a bool gives that Bool, a string gives that String, a number gives a String; an
array gives a List whose slice is not nil and holds as many Values as the array has elements,
each the conversion of the element at its position; an object (its keys are distinct) gives a
Map whose entries have the keys of the object, wrapped as Strings, each with the conversion of
its member. -/
theorem FromJSONInterface_structure (sprint : Nat → String) :
    (∀ j h, otherTypes j = [] → ∃ v h1, FromJSONInterface sprint h j = .ok (v, h1)) ∧
    (∀ h, FromJSONInterface sprint h .null = .ok (.string "", h)) ∧
    (∀ h b, FromJSONInterface sprint h (.bool b) = .ok (.bool b, h)) ∧
    (∀ h s, FromJSONInterface sprint h (.string s) = .ok (.string s, h)) ∧
    (∀ h f, ∃ t, FromJSONInterface sprint h (.float64 f) = .ok (.string t, h)) ∧
    (∀ h a v h2, FromJSONInterface sprint h (.array a) = .ok (v, h2) →
      ∃ vs h1 p an, Converts sprint h a vs h1 ∧ vs.length = a.length ∧ v = .list p ∧
        h2.slices[p]? = some (some an) ∧ h2.elems (some an) = vs) ∧
    (∀ h m v h2, (m.map Prod.fst).Nodup →
      FromJSONInterface sprint h (.object m) = .ok (v, h2) →
      ∃ es h1 p, ConvertsMembers sprint h m es h1 ∧
        es.map Prod.fst = m.map (fun e => Value.string e.1) ∧ v = .map p ∧
        h2.maps[p]? = some es) ∧
    (∀ h one, FromJSONInterface sprint h (.array [.float64 one, .string "a", .bool true]) =
      .ok (.list h.slices.length,
        ⟨h.arrays ++ [[.string (sprint one), .string "a", .bool true]],
          h.slices ++ [some (h.arrays.length, 3)], h.maps⟩)) := by
  refine ⟨fun j h hj => (FromJSONInterface_outcome sprint j h).1 hj, fun _ => rfl,
    fun _ _ => rfl, fun _ _ => rfl, fun _ f => ⟨sprint f, rfl⟩, ?_, ?_, fun _ _ => rfl⟩
  · intro h a v h2 hres
    simp only [FromJSONInterface] at hres
    cases hvs : FromJSONInterface_array sprint h a with
    | error err => rw [hvs] at hres; cases hres
    | ok r =>
      obtain ⟨vs, h1⟩ := r
      rw [hvs] at hres
      simp only [Except.ok.injEq, Prod.mk.injEq] at hres
      have hconv := FromJSONInterface_array_converts sprint a h vs h1 hvs
      refine ⟨vs, h1, h1.slices.length, (h1.arrays.length, vs.length), hconv,
        Converts_length sprint h a vs h1 hconv, hres.1.symm, ?_, ?_⟩
      · rw [← hres.2]
        simp
      · rw [← hres.2]
        simp [Heap.elems, List.getD_eq_getElem?_getD]
  · intro h m v h2 hnodup hres
    simp only [FromJSONInterface] at hres
    cases hes : FromJSONInterface_object sprint h m [] with
    | error err => rw [hes] at hres; cases hres
    | ok r =>
      obtain ⟨entries, h1⟩ := r
      rw [hes] at hres
      simp only [Except.ok.injEq, Prod.mk.injEq] at hres
      obtain ⟨es, hentries, hconv⟩ := FromJSONInterface_object_converts sprint m h [] entries h1
        hnodup (by simp) hes
      simp only [List.nil_append] at hentries
      subst hentries
      refine ⟨entries, h1, h1.maps.length, hconv,
        ConvertsMembers_keys sprint h m entries h1 hconv, hres.1.symm, ?_⟩
      rw [← hres.2]
      simp

/-- C13: `FromJSONInterface` fails exactly when the tree holds, at some depth, a node of
another type than nil, `bool`, `float64`, `string`, `[]interface{}` and
`map[string]interface{}`; it then throws the unexpected-type error with the type description of
such a node, the first one that the walk meets, and returns no Value, so no List or Map that is
built in part. -/
theorem FromJSONInterface_failure (sprint : Nat → String) :
    (∀ j h, (∃ err, FromJSONInterface sprint h j = .error err) ↔ otherTypes j ≠ []) ∧
    (∀ j h t ts, otherTypes j = t :: ts →
      FromJSONInterface sprint h j =
        .error (.thrown (.fresh ("unexpected json type: " ++ t)))) ∧
    (∀ j h err, FromJSONInterface sprint h j = .error err →
      ∃ t ∈ otherTypes j, err = .thrown (.fresh ("unexpected json type: " ++ t))) ∧
    (∀ j h, otherTypes j ≠ [] → ∀ v h1, FromJSONInterface sprint h j ≠ .ok (v, h1)) ∧
    (∀ h, FromJSONInterface sprint h
        (.array [.bool true, .object [("k", .array [.other "int", .null])]]) =
      .error (.thrown (.fresh "unexpected json type: int"))) := by
  have hfail : ∀ j h, otherTypes j ≠ [] → ∃ t ∈ otherTypes j,
      FromJSONInterface sprint h j =
        .error (.thrown (.fresh ("unexpected json type: " ++ t))) := by
    intro j h hne
    cases hot : otherTypes j with
    | nil => exact absurd hot hne
    | cons t ts =>
      exact ⟨t, List.mem_cons_self _ _, (FromJSONInterface_outcome sprint j h).2 t ts hot⟩
  have hok : ∀ j h err, FromJSONInterface sprint h j = .error err → otherTypes j ≠ [] := by
    intro j h err herr hnil
    obtain ⟨v, h1, hv⟩ := (FromJSONInterface_outcome sprint j h).1 hnil
    rw [hv] at herr
    cases herr
  refine ⟨?_, fun j h t ts ht => (FromJSONInterface_outcome sprint j h).2 t ts ht, ?_, ?_,
    fun _ => rfl⟩
  · intro j h
    constructor
    · rintro ⟨err, herr⟩
      exact hok j h err herr
    · intro hne
      obtain ⟨t, -, ht⟩ := hfail j h hne
      exact ⟨_, ht⟩
  · intro j h err herr
    obtain ⟨t, hmem, ht⟩ := hfail j h (hok j h err herr)
    rw [ht] at herr
    simp only [Except.error.injEq] at herr
    exact ⟨t, hmem, herr.symm⟩
  · intro j h hne v h1 hv
    obtain ⟨t, -, ht⟩ := hfail j h hne
    rw [ht] at hv
    cases hv

/-! ## Deep equality -/

/-- The call of `deepValueEqual` on two Lists, unfolded. -/
theorem deepValueEqual_list (o : Outside) (h : Heap) (fuel : Nat) (V : List Visit) (p q : Addr) :
    deepValueEqual o h (fuel + 1) V (.list p) (.list q) =
      match h.slices[p]?, h.slices[q]? with
      | some sl1, some sl2 =>
        if Visit.list p q ∈ V then some (true, V)
        else if p = q then some (true, Visit.list p q :: V)
        else if sl1.isNone != sl2.isNone then some (false, Visit.list p q :: V)
        else if sl1.len != sl2.len then some (false, Visit.list p q :: V)
        else if sameData sl1 sl2 then some (true, Visit.list p q :: V)
        else deepEqual_elems (deepValueEqual o h fuel) (Visit.list p q :: V)
          (h.elems sl1) (h.elems sl2)
      | none, none => some (true, V)
      | _, _ => some (false, V) := rfl

/-- The call of `deepValueEqual` on two Maps, unfolded. -/
theorem deepValueEqual_map (o : Outside) (h : Heap) (fuel : Nat) (V : List Visit) (p q : Addr) :
    deepValueEqual o h (fuel + 1) V (.map p) (.map q) =
      match h.maps[p]?, h.maps[q]? with
      | some entries1, some entries2 =>
        if Visit.map p q ∈ V then some (true, V)
        else if p = q then some (true, Visit.map p q :: V)
        else if entries1.length != entries2.length then
          some (false, Visit.map p q :: V)
        else deepEqual_entries (deepValueEqual o h fuel) entries2 (Visit.map p q :: V)
          entries1
      | none, none => some (true, V)
      | _, _ => some (false, V) := rfl

/-- Two Values that are not two Lists and not two Maps are compared in one layer: the answer
does not depend on the record and leaves it as it is. -/
theorem deepValueEqual_flat (o : Outside) (h : Heap) (a b : Value)
    (hl : ∀ p q, ¬ (a = .list p ∧ b = .list q)) (hm : ∀ p q, ¬ (a = .map p ∧ b = .map q)) :
    ∃ r : Bool, (∀ fuel V, deepValueEqual o h (fuel + 1) V a b = some (r, V)) ∧
      (∀ R, deepStep o h R a b ↔ r = true) ∧
      (∀ V, deepAssumed o h V a b ↔ r = true) := by
  cases a <;> cases b <;> first
    | exact absurd ⟨rfl, rfl⟩ (hl _ _)
    | exact absurd ⟨rfl, rfl⟩ (hm _ _)
    | exact ⟨_, fun _ _ => rfl, fun _ => by simp [deepStep], fun _ => by simp [deepAssumed, deepStep]⟩

/-- Two Values are two Lists, two Maps, or neither. -/
theorem pair_cases (a b : Value) :
    (∃ p q, a = .list p ∧ b = .list q) ∨ (∃ p q, a = .map p ∧ b = .map q) ∨
      ((∀ p q, ¬ (a = .list p ∧ b = .list q)) ∧ (∀ p q, ¬ (a = .map p ∧ b = .map q))) := by
  cases a <;> cases b <;> simp

/-! ### The loops -/

/-- The loop over the elements answers true: the record has grown, the new entries are good and
the elements are related at every position, when the same holds for one comparison. -/
theorem deepEqual_elems_sound (eq : List Visit → Value → Value → Option (Bool × List Visit))
    (A : List Visit → Value → Value → Prop) (G : List Visit → Visit → Prop)
    (hA : ∀ V V' a b, V ⊆ V' → A V a b → A V' a b)
    (hG : ∀ V V' k, V ⊆ V' → G V k → G V' k)
    (heq : ∀ V x y V', eq V x y = some (true, V') →
      V ⊆ V' ∧ (∀ k ∈ V', k ∉ V → G V' k) ∧ A V' x y) :
    ∀ (xs ys : List Value) (V V' : List Visit),
      deepEqual_elems eq V xs ys = some (true, V') →
      V ⊆ V' ∧ (∀ k ∈ V', k ∉ V → G V' k) ∧ ∀ xy ∈ xs.zip ys, A V' xy.1 xy.2 := by
  intro xs
  induction xs with
  | nil =>
    intro ys V V' hres
    simp only [deepEqual_elems, Option.some.injEq, Prod.mk.injEq, true_and] at hres
    subst hres
    exact ⟨List.Subset.refl _, fun k hk hnk => absurd hk hnk, by simp⟩
  | cons x xs ih =>
    intro ys V V' hres
    cases ys with
    | nil =>
      simp only [deepEqual_elems, Option.some.injEq, Prod.mk.injEq, true_and] at hres
      subst hres
      exact ⟨List.Subset.refl _, fun k hk hnk => absurd hk hnk, by simp⟩
    | cons y ys =>
      simp only [deepEqual_elems] at hres
      cases hxy : eq V x y with
      | none => rw [hxy] at hres; simp at hres
      | some r =>
        obtain ⟨b, V1⟩ := r
        cases b with
        | false => rw [hxy] at hres; simp at hres
        | true =>
          rw [hxy] at hres
          simp only at hres
          obtain ⟨hsub1, hnew1, hA1⟩ := heq V x y V1 hxy
          obtain ⟨hsub2, hnew2, hA2⟩ := ih ys V1 V' hres
          refine ⟨fun k hk => hsub2 (hsub1 hk), ?_, ?_⟩
          · intro k hk hnk
            by_cases hk1 : k ∈ V1
            · exact hG V1 V' k hsub2 (hnew1 k hk1 hnk)
            · exact hnew2 k hk hk1
          · intro xy hxy2
            simp only [List.zip_cons_cons, List.mem_cons] at hxy2
            rcases hxy2 with rfl | hmem
            · exact hA V1 V' x y hsub2 hA1
            · exact hA2 xy hmem

/-- The loop over the entries answers true: the record has grown, the new entries are good and
every key of the first map has a related value in the second, when the same holds for one
comparison. -/
theorem deepEqual_entries_sound (eq : List Visit → Value → Value → Option (Bool × List Visit))
    (A : List Visit → Value → Value → Prop) (G : List Visit → Visit → Prop)
    (hA : ∀ V V' a b, V ⊆ V' → A V a b → A V' a b)
    (hG : ∀ V V' k, V ⊆ V' → G V k → G V' k)
    (heq : ∀ V x y V', eq V x y = some (true, V') →
      V ⊆ V' ∧ (∀ k ∈ V', k ∉ V → G V' k) ∧ A V' x y)
    (entries2 : List (Value × Value)) :
    ∀ (entries1 : List (Value × Value)) (V V' : List Visit),
      deepEqual_entries eq entries2 V entries1 = some (true, V') →
      V ⊆ V' ∧ (∀ k ∈ V', k ∉ V → G V' k) ∧
        ∀ kv ∈ entries1, ∃ v2, mapaccess entries2 kv.1 = some v2 ∧ A V' kv.2 v2 := by
  intro entries1
  induction entries1 with
  | nil =>
    intro V V' hres
    simp only [deepEqual_entries, Option.some.injEq, Prod.mk.injEq, true_and] at hres
    subst hres
    exact ⟨List.Subset.refl _, fun k hk hnk => absurd hk hnk, by simp⟩
  | cons kv rest ih =>
    intro V V' hres
    obtain ⟨k0, v1⟩ := kv
    simp only [deepEqual_entries] at hres
    cases hacc : mapaccess entries2 k0 with
    | none => rw [hacc] at hres; simp at hres
    | some v2 =>
      rw [hacc] at hres
      simp only at hres
      cases hxy : eq V v1 v2 with
      | none => rw [hxy] at hres; simp at hres
      | some r =>
        obtain ⟨b, V1⟩ := r
        cases b with
        | false => rw [hxy] at hres; simp at hres
        | true =>
          rw [hxy] at hres
          simp only at hres
          obtain ⟨hsub1, hnew1, hA1⟩ := heq V v1 v2 V1 hxy
          obtain ⟨hsub2, hnew2, hA2⟩ := ih V1 V' hres
          refine ⟨fun k hk => hsub2 (hsub1 hk), ?_, ?_⟩
          · intro k hk hnk
            by_cases hk1 : k ∈ V1
            · exact hG V1 V' k hsub2 (hnew1 k hk1 hnk)
            · exact hnew2 k hk hk1
          · intro kv hkv
            simp only [List.mem_cons] at hkv
            rcases hkv with rfl | hmem
            · exact ⟨v2, hacc, hA V1 V' v1 v2 hsub2 hA1⟩
            · exact hA2 kv hmem

/-- The loop over the elements answers false: the comparison of the elements at some position
has answered false. -/
theorem deepEqual_elems_false (eq : List Visit → Value → Value → Option (Bool × List Visit)) :
    ∀ (xs ys : List Value) (V V' : List Visit),
      deepEqual_elems eq V xs ys = some (false, V') →
      ∃ xy ∈ xs.zip ys, ∃ V0 V1, eq V0 xy.1 xy.2 = some (false, V1) := by
  intro xs
  induction xs with
  | nil => intro ys V V' hres; simp [deepEqual_elems] at hres
  | cons x xs ih =>
    intro ys V V' hres
    cases ys with
    | nil => simp [deepEqual_elems] at hres
    | cons y ys =>
      simp only [deepEqual_elems] at hres
      cases hxy : eq V x y with
      | none => rw [hxy] at hres; simp at hres
      | some r =>
        obtain ⟨b, V1⟩ := r
        cases b with
        | false => exact ⟨(x, y), by simp, V, V1, hxy⟩
        | true =>
          rw [hxy] at hres
          simp only at hres
          obtain ⟨xy, hmem, hex⟩ := ih ys V1 V' hres
          exact ⟨xy, by simp [hmem], hex⟩

/-- The loop over the entries answers false: some key of the first map is not in the second, or
the comparison of its two values has answered false. -/
theorem deepEqual_entries_false (eq : List Visit → Value → Value → Option (Bool × List Visit))
    (entries2 : List (Value × Value)) :
    ∀ (entries1 : List (Value × Value)) (V V' : List Visit),
      deepEqual_entries eq entries2 V entries1 = some (false, V') →
      ∃ kv ∈ entries1, mapaccess entries2 kv.1 = none ∨
        ∃ v2 V0 V1, mapaccess entries2 kv.1 = some v2 ∧ eq V0 kv.2 v2 = some (false, V1) := by
  intro entries1
  induction entries1 with
  | nil => intro V V' hres; simp [deepEqual_entries] at hres
  | cons kv rest ih =>
    intro V V' hres
    obtain ⟨k0, v1⟩ := kv
    simp only [deepEqual_entries] at hres
    cases hacc : mapaccess entries2 k0 with
    | none => exact ⟨(k0, v1), by simp, Or.inl hacc⟩
    | some v2 =>
      rw [hacc] at hres
      simp only at hres
      cases hxy : eq V v1 v2 with
      | none => rw [hxy] at hres; simp at hres
      | some r =>
        obtain ⟨b, V1⟩ := r
        cases b with
        | false => exact ⟨(k0, v1), by simp, Or.inr ⟨v2, V, V1, hacc, hxy⟩⟩
        | true =>
          rw [hxy] at hres
          simp only at hres
          obtain ⟨kv, hmem, hex⟩ := ih V1 V' hres
          exact ⟨kv, by simp [hmem], hex⟩

/-- The loop over the elements gives an answer when every comparison does. -/
theorem deepEqual_elems_total (eq : List Visit → Value → Value → Option (Bool × List Visit))
    (U : List Visit → Nat) (n : Nat)
    (hU : ∀ V V', V ⊆ V' → U V' ≤ U V)
    (heq : ∀ V x y, U V < n → ∃ r V', eq V x y = some (r, V') ∧ V ⊆ V') :
    ∀ (xs ys : List Value) (V : List Visit), U V < n →
      ∃ r V', deepEqual_elems eq V xs ys = some (r, V') ∧ V ⊆ V' := by
  intro xs
  induction xs with
  | nil => intro ys V _; exact ⟨true, V, by simp [deepEqual_elems], List.Subset.refl _⟩
  | cons x xs ih =>
    intro ys V hV
    cases ys with
    | nil => exact ⟨true, V, by simp [deepEqual_elems], List.Subset.refl _⟩
    | cons y ys =>
      obtain ⟨r, V1, hxy, hsub1⟩ := heq V x y hV
      simp only [deepEqual_elems, hxy]
      cases r with
      | false => exact ⟨false, V1, rfl, hsub1⟩
      | true =>
        obtain ⟨r2, V2, hres, hsub2⟩ := ih ys V1 (lt_of_le_of_lt (hU V V1 hsub1) hV)
        exact ⟨r2, V2, hres, fun k hk => hsub2 (hsub1 hk)⟩

/-- The loop over the entries gives an answer when every comparison does. -/
theorem deepEqual_entries_total (eq : List Visit → Value → Value → Option (Bool × List Visit))
    (U : List Visit → Nat) (n : Nat)
    (hU : ∀ V V', V ⊆ V' → U V' ≤ U V)
    (heq : ∀ V x y, U V < n → ∃ r V', eq V x y = some (r, V') ∧ V ⊆ V')
    (entries2 : List (Value × Value)) :
    ∀ (entries1 : List (Value × Value)) (V : List Visit), U V < n →
      ∃ r V', deepEqual_entries eq entries2 V entries1 = some (r, V') ∧ V ⊆ V' := by
  intro entries1
  induction entries1 with
  | nil => intro V _; exact ⟨true, V, by simp [deepEqual_entries], List.Subset.refl _⟩
  | cons kv rest ih =>
    intro V hV
    obtain ⟨k0, v1⟩ := kv
    simp only [deepEqual_entries]
    cases hacc : mapaccess entries2 k0 with
    | none => exact ⟨false, V, rfl, List.Subset.refl _⟩
    | some v2 =>
      obtain ⟨r, V1, hxy, hsub1⟩ := heq V v1 v2 hV
      simp only [hxy]
      cases r with
      | false => exact ⟨false, V1, rfl, hsub1⟩
      | true =>
        obtain ⟨r2, V2, hres, hsub2⟩ := ih V1 (lt_of_le_of_lt (hU V V1 hsub1) hV)
        exact ⟨r2, V2, hres, fun k hk => hsub2 (hsub1 hk)⟩

/-! ### One layer -/

/-- One layer of deep equality is monotone in the relation of the elements. -/
theorem deepStep_mono (o : Outside) (h : Heap) (R R' : Value → Value → Prop)
    (hR : ∀ a b, R a b → R' a b) (a b : Value) (hab : deepStep o h R a b) :
    deepStep o h R' a b := by
  rcases pair_cases a b with ⟨p, q, rfl, rfl⟩ | ⟨p, q, rfl, rfl⟩ | ⟨hl, hm⟩
  · simp only [deepStep] at hab ⊢
    cases hp : h.slices[p]? <;> cases hq : h.slices[q]? <;> simp only [hp, hq] at hab ⊢
    rcases hab with heq | ⟨h1, h2, h3 | h3⟩
    · exact Or.inl heq
    · exact Or.inr ⟨h1, h2, Or.inl h3⟩
    · exact Or.inr ⟨h1, h2, Or.inr fun xy hxy => hR _ _ (h3 xy hxy)⟩
  · simp only [deepStep] at hab ⊢
    cases hp : h.maps[p]? <;> cases hq : h.maps[q]? <;> simp only [hp, hq] at hab ⊢
    rcases hab with heq | ⟨h1, h2⟩
    · exact Or.inl heq
    · refine Or.inr ⟨h1, fun kv hkv => ?_⟩
      obtain ⟨v2, hacc, hrel⟩ := h2 kv hkv
      exact ⟨v2, hacc, hR _ _ hrel⟩
  · obtain ⟨r, -, hstep, -⟩ := deepValueEqual_flat o h a b hl hm
    exact (hstep R').mpr ((hstep R).mp hab)

/-- A larger record relates more. -/
theorem deepAssumed_mono (o : Outside) (h : Heap) (V V' : List Visit) (a b : Value)
    (hsub : V ⊆ V') (hab : deepAssumed o h V a b) : deepAssumed o h V' a b := by
  rcases pair_cases a b with ⟨p, q, rfl, rfl⟩ | ⟨p, q, rfl, rfl⟩ | ⟨hl, hm⟩
  · simp only [deepAssumed] at hab ⊢
    cases hp : h.slices[p]? <;> cases hq : h.slices[q]? <;> simp only [hp, hq] at hab ⊢
    exact hsub hab
  · simp only [deepAssumed] at hab ⊢
    cases hp : h.maps[p]? <;> cases hq : h.maps[q]? <;> simp only [hp, hq] at hab ⊢
    exact hsub hab
  · obtain ⟨r, -, -, hass⟩ := deepValueEqual_flat o h a b hl hm
    exact (hass V').mpr ((hass V).mp hab)

/-- An entry that is good for a record is good for a larger one. -/
theorem deepGood_mono (o : Outside) (h : Heap) (V V' : List Visit) (k : Visit)
    (hsub : V ⊆ V') (hk : deepGood o h V k) : deepGood o h V' k := by
  cases k with
  | list p q =>
    exact deepStep_mono o h _ _ (fun a b => deepAssumed_mono o h V V' a b hsub)
      (.list p) (.list q) hk
  | map p q =>
    exact deepStep_mono o h _ _ (fun a b => deepAssumed_mono o h V V' a b hsub)
      (.map p) (.map q) hk

/-! ### The answer true -/

/-- When `deepValueEqual` answers true, the record has grown, every new entry is good for the
record as it is left, and the record relates the two Values. -/
theorem deepValueEqual_sound (o : Outside) (h : Heap) :
    ∀ (fuel : Nat) (V : List Visit) (a b : Value) (V' : List Visit),
      deepValueEqual o h fuel V a b = some (true, V') →
      V ⊆ V' ∧ (∀ k ∈ V', k ∉ V → deepGood o h V' k) ∧ deepAssumed o h V' a b := by
  intro fuel
  induction fuel with
  | zero => intro V a b V' hres; simp [deepValueEqual] at hres
  | succ fuel ih =>
    intro V a b V' hres
    rcases pair_cases a b with ⟨p, q, rfl, rfl⟩ | ⟨p, q, rfl, rfl⟩ | ⟨hl, hm⟩
    · rw [deepValueEqual_list] at hres
      cases hp : h.slices[p]? with
      | none =>
        cases hq : h.slices[q]? with
        | none =>
          simp only [hp, hq, Option.some.injEq, Prod.mk.injEq, true_and] at hres
          subst hres
          exact ⟨List.Subset.refl _, fun k hk hnk => absurd hk hnk, by simp [deepAssumed, hp, hq]⟩
        | some sl2 => simp [hp, hq] at hres
      | some sl1 =>
        cases hq : h.slices[q]? with
        | none => simp [hp, hq] at hres
        | some sl2 =>
          simp only [hp, hq] at hres
          have hass : ∀ W, Visit.list p q ∈ W → deepAssumed o h W (.list p) (.list q) := by
            intro W hW; simpa [deepAssumed, hp, hq] using hW
          by_cases hk : Visit.list p q ∈ V
          · rw [if_pos hk] at hres
            simp only [Option.some.injEq, Prod.mk.injEq, true_and] at hres
            subst hres
            exact ⟨List.Subset.refl _, fun k hk hnk => absurd hk hnk, hass _ hk⟩
          · rw [if_neg hk] at hres
            have hone : ∀ (W : List Visit),
                deepStep o h (deepAssumed o h W) (.list p) (.list q) →
                ∀ k ∈ Visit.list p q :: V, k ∉ V → deepGood o h W k := by
              intro W hW k hkmem hknot
              simp only [List.mem_cons] at hkmem
              rcases hkmem with rfl | hmem
              · exact hW
              · exact absurd hmem hknot
            by_cases hpq : p = q
            · rw [if_pos hpq] at hres
              simp only [Option.some.injEq, Prod.mk.injEq, true_and] at hres
              subst hres
              refine ⟨List.subset_cons_self _ _, hone _ ?_, hass _ (List.mem_cons_self _ _)⟩
              simp [deepStep, hp, hq, hpq]
            · rw [if_neg hpq] at hres
              by_cases hnil : (sl1.isNone != sl2.isNone) = true
              · rw [if_pos hnil] at hres; simp at hres
              · rw [if_neg hnil] at hres
                by_cases hlen : (sl1.len != sl2.len) = true
                · rw [if_pos hlen] at hres; simp at hres
                · rw [if_neg hlen] at hres
                  have hnil2 : sl1.isNone = sl2.isNone := by simpa using hnil
                  have hlen2 : sl1.len = sl2.len := by simpa using hlen
                  by_cases hdata : sameData sl1 sl2 = true
                  · rw [if_pos hdata] at hres
                    simp only [Option.some.injEq, Prod.mk.injEq, true_and] at hres
                    subst hres
                    refine ⟨List.subset_cons_self _ _, hone _ ?_,
                      hass _ (List.mem_cons_self _ _)⟩
                    simp only [deepStep, hp, hq]
                    exact Or.inr ⟨hnil2, hlen2, Or.inl hdata⟩
                  · rw [if_neg hdata] at hres
                    obtain ⟨hsub, hnew, hall⟩ := deepEqual_elems_sound
                      (deepValueEqual o h fuel) (deepAssumed o h) (deepGood o h)
                      (fun V V' a b => deepAssumed_mono o h V V' a b)
                      (fun V V' k => deepGood_mono o h V V' k)
                      (fun V x y V' => ih V x y V') _ _ _ _ hres
                    have hkin : Visit.list p q ∈ V' := hsub (List.mem_cons_self _ _)
                    refine ⟨fun k hk => hsub (List.mem_cons_of_mem _ hk), ?_, hass _ hkin⟩
                    intro k hkmem hknot
                    by_cases hk1 : k ∈ Visit.list p q :: V
                    · simp only [List.mem_cons] at hk1
                      rcases hk1 with rfl | hmem
                      · simp only [deepGood, deepStep, hp, hq]
                        exact Or.inr ⟨hnil2, hlen2, Or.inr hall⟩
                      · exact absurd hmem hknot
                    · exact hnew k hkmem hk1
    · rw [deepValueEqual_map] at hres
      cases hp : h.maps[p]? with
      | none =>
        cases hq : h.maps[q]? with
        | none =>
          simp only [hp, hq, Option.some.injEq, Prod.mk.injEq, true_and] at hres
          subst hres
          exact ⟨List.Subset.refl _, fun k hk hnk => absurd hk hnk, by simp [deepAssumed, hp, hq]⟩
        | some es2 => simp [hp, hq] at hres
      | some es1 =>
        cases hq : h.maps[q]? with
        | none => simp [hp, hq] at hres
        | some es2 =>
          simp only [hp, hq] at hres
          have hass : ∀ W, Visit.map p q ∈ W → deepAssumed o h W (.map p) (.map q) := by
            intro W hW; simpa [deepAssumed, hp, hq] using hW
          by_cases hk : Visit.map p q ∈ V
          · rw [if_pos hk] at hres
            simp only [Option.some.injEq, Prod.mk.injEq, true_and] at hres
            subst hres
            exact ⟨List.Subset.refl _, fun k hk hnk => absurd hk hnk, hass _ hk⟩
          · rw [if_neg hk] at hres
            by_cases hpq : p = q
            · rw [if_pos hpq] at hres
              simp only [Option.some.injEq, Prod.mk.injEq, true_and] at hres
              subst hres
              refine ⟨List.subset_cons_self _ _, ?_, hass _ (List.mem_cons_self _ _)⟩
              intro k hkmem hknot
              simp only [List.mem_cons] at hkmem
              rcases hkmem with rfl | hmem
              · simp [deepGood, deepStep, hp, hq, hpq]
              · exact absurd hmem hknot
            · rw [if_neg hpq] at hres
              by_cases hlen : (es1.length != es2.length) = true
              · rw [if_pos hlen] at hres; simp at hres
              · rw [if_neg hlen] at hres
                have hlen2 : es1.length = es2.length := by simpa using hlen
                obtain ⟨hsub, hnew, hall⟩ := deepEqual_entries_sound
                  (deepValueEqual o h fuel) (deepAssumed o h) (deepGood o h)
                  (fun V V' a b => deepAssumed_mono o h V V' a b)
                  (fun V V' k => deepGood_mono o h V V' k)
                  (fun V x y V' => ih V x y V') _ _ _ _ hres
                have hkin : Visit.map p q ∈ V' := hsub (List.mem_cons_self _ _)
                refine ⟨fun k hk => hsub (List.mem_cons_of_mem _ hk), ?_, hass _ hkin⟩
                intro k hkmem hknot
                by_cases hk1 : k ∈ Visit.map p q :: V
                · simp only [List.mem_cons] at hk1
                  rcases hk1 with rfl | hmem
                  · simp only [deepGood, deepStep, hp, hq]
                    exact Or.inr ⟨hlen2, hall⟩
                  · exact absurd hmem hknot
                · exact hnew k hkmem hk1
    · obtain ⟨r, hval, -, hass⟩ := deepValueEqual_flat o h a b hl hm
      rw [hval fuel V] at hres
      simp only [Option.some.injEq, Prod.mk.injEq] at hres
      obtain ⟨hr, hV⟩ := hres
      subst hV
      exact ⟨List.Subset.refl _, fun k hk hnk => absurd hk hnk, (hass V).mpr hr⟩

/-! ### The answer false -/

/-- When `deepValueEqual` answers false, no relation under which related Values agree in one
layer and have related elements relates the two Values. -/
theorem deepValueEqual_complete (o : Outside) (h : Heap) (R : Value → Value → Prop)
    (hR : deepBisimulation o h R) :
    ∀ (fuel : Nat) (V : List Visit) (a b : Value) (V' : List Visit),
      deepValueEqual o h fuel V a b = some (false, V') → ¬ R a b := by
  intro fuel
  induction fuel with
  | zero => intro V a b V' hres; simp [deepValueEqual] at hres
  | succ fuel ih =>
    intro V a b V' hres hab
    have hstep := hR a b hab
    rcases pair_cases a b with ⟨p, q, rfl, rfl⟩ | ⟨p, q, rfl, rfl⟩ | ⟨hl, hm⟩
    · rw [deepValueEqual_list] at hres
      simp only [deepStep] at hstep
      cases hp : h.slices[p]? with
      | none =>
        cases hq : h.slices[q]? with
        | none => simp [hp, hq] at hres
        | some sl2 => simp [hp, hq] at hstep
      | some sl1 =>
        cases hq : h.slices[q]? with
        | none => simp [hp, hq] at hstep
        | some sl2 =>
          simp only [hp, hq] at hres hstep
          by_cases hk : Visit.list p q ∈ V
          · rw [if_pos hk] at hres; simp at hres
          · rw [if_neg hk] at hres
            by_cases hpq : p = q
            · rw [if_pos hpq] at hres; simp at hres
            · rw [if_neg hpq] at hres
              rcases hstep with heq | ⟨hnil2, hlen2, hrest⟩
              · exact hpq heq
              · have hnil : ¬ (sl1.isNone != sl2.isNone) = true := by simp [hnil2]
                have hlen : ¬ (sl1.len != sl2.len) = true := by simp [hlen2]
                rw [if_neg hnil, if_neg hlen] at hres
                rcases hrest with hdata | hall
                · rw [if_pos hdata] at hres; simp at hres
                · by_cases hdata : sameData sl1 sl2 = true
                  · rw [if_pos hdata] at hres; simp at hres
                  · rw [if_neg hdata] at hres
                    obtain ⟨xy, hmem, V0, V1, hbad⟩ :=
                      deepEqual_elems_false _ _ _ _ _ hres
                    exact ih V0 xy.1 xy.2 V1 hbad (hall xy hmem)
    · rw [deepValueEqual_map] at hres
      simp only [deepStep] at hstep
      cases hp : h.maps[p]? with
      | none =>
        cases hq : h.maps[q]? with
        | none => simp [hp, hq] at hres
        | some es2 => simp [hp, hq] at hstep
      | some es1 =>
        cases hq : h.maps[q]? with
        | none => simp [hp, hq] at hstep
        | some es2 =>
          simp only [hp, hq] at hres hstep
          by_cases hk : Visit.map p q ∈ V
          · rw [if_pos hk] at hres; simp at hres
          · rw [if_neg hk] at hres
            by_cases hpq : p = q
            · rw [if_pos hpq] at hres; simp at hres
            · rw [if_neg hpq] at hres
              rcases hstep with heq | ⟨hlen2, hall⟩
              · exact hpq heq
              · have hlen : ¬ (es1.length != es2.length) = true := by simp [hlen2]
                rw [if_neg hlen] at hres
                obtain ⟨kv, hmem, hbad⟩ := deepEqual_entries_false _ _ _ _ _ hres
                obtain ⟨v2, hacc, hrel⟩ := hall kv hmem
                rcases hbad with hnone | ⟨v3, V0, V1, hacc3, hbad⟩
                · rw [hnone] at hacc; simp at hacc
                · rw [hacc3] at hacc
                  simp only [Option.some.injEq] at hacc
                  subst hacc
                  exact ih V0 kv.2 v3 V1 hbad hrel
    · obtain ⟨r, hval, hst, -⟩ := deepValueEqual_flat o h a b hl hm
      rw [hval fuel V] at hres
      simp only [Option.some.injEq, Prod.mk.injEq] at hres
      have := (hst R).mp hstep
      rw [hres.1] at this
      simp at this

/-! ### The budget -/

/-- A larger record can get fewer entries. -/
theorem unvisited_mono (h : Heap) (V V' : List Visit) (hsub : V ⊆ V') :
    unvisited h V' ≤ unvisited h V := by
  unfold unvisited
  apply Finset.card_le_card
  intro k hk
  simp only [Finset.mem_sdiff, List.mem_toFinset] at hk ⊢
  exact ⟨hk.1, fun hkV => hk.2 (hsub hkV)⟩

/-- A new entry of allocated pointers uses up one of the entries that the record can get. -/
theorem unvisited_cons (h : Heap) (V : List Visit) (k : Visit) (hk : k ∈ visitUniverse h)
    (hnew : k ∉ V) : unvisited h (k :: V) < unvisited h V := by
  unfold unvisited
  apply Finset.card_lt_card
  rw [Finset.ssubset_iff_of_subset]
  · exact ⟨k, by simp [hk, hnew], by simp⟩
  · intro x hx
    simp only [Finset.mem_sdiff, List.mem_toFinset, List.mem_cons, not_or] at hx ⊢
    exact ⟨hx.1, hx.2.2⟩

/-- The empty record can get fewer entries than the budget. -/
theorem unvisited_nil_lt (h : Heap) : unvisited h [] < deepEqualBudget h := by
  unfold unvisited deepEqualBudget visitUniverse
  simp only [List.toFinset_nil, Finset.sdiff_empty]
  refine Nat.lt_succ_of_le (le_trans (Finset.card_union_le _ _) ?_)
  refine Nat.add_le_add (le_trans Finset.card_image_le ?_) (le_trans Finset.card_image_le ?_)
  · simp
  · simp

/-- The pair of two allocated pointers of Lists is an entry that the record can get. -/
theorem list_visit_mem (h : Heap) (p q : Addr) (sl1 sl2 : Slice)
    (hp : h.slices[p]? = some sl1) (hq : h.slices[q]? = some sl2) :
    Visit.list p q ∈ visitUniverse h := by
  have h1 := (List.getElem?_eq_some.mp hp).1
  have h2 := (List.getElem?_eq_some.mp hq).1
  simp only [visitUniverse, Finset.mem_union, Finset.mem_image, Finset.mem_product,
    Finset.mem_range, Prod.exists]
  exact Or.inl ⟨p, q, ⟨h1, h2⟩, rfl⟩

/-- The pair of two allocated pointers of Maps is an entry that the record can get. -/
theorem map_visit_mem (h : Heap) (p q : Addr) (es1 es2 : List (Value × Value))
    (hp : h.maps[p]? = some es1) (hq : h.maps[q]? = some es2) :
    Visit.map p q ∈ visitUniverse h := by
  have h1 := (List.getElem?_eq_some.mp hp).1
  have h2 := (List.getElem?_eq_some.mp hq).1
  simp only [visitUniverse, Finset.mem_union, Finset.mem_image, Finset.mem_product,
    Finset.mem_range, Prod.exists]
  exact Or.inr ⟨p, q, ⟨h1, h2⟩, rfl⟩

/-- With a budget above the number of entries that the record can still get, `deepValueEqual`
gives an answer. -/
theorem deepValueEqual_total (o : Outside) (h : Heap) :
    ∀ (fuel : Nat) (V : List Visit) (a b : Value), unvisited h V < fuel →
      ∃ r V', deepValueEqual o h fuel V a b = some (r, V') ∧ V ⊆ V' := by
  intro fuel
  induction fuel with
  | zero => intro V a b hV; exact absurd hV (Nat.not_lt_zero _)
  | succ fuel ih =>
    intro V a b hV
    rcases pair_cases a b with ⟨p, q, rfl, rfl⟩ | ⟨p, q, rfl, rfl⟩ | ⟨hl, hm⟩
    · rw [deepValueEqual_list]
      cases hp : h.slices[p]? with
      | none =>
        cases hq : h.slices[q]? with
        | none => exact ⟨true, V, rfl, List.Subset.refl _⟩
        | some sl2 => exact ⟨false, V, rfl, List.Subset.refl _⟩
      | some sl1 =>
        cases hq : h.slices[q]? with
        | none => exact ⟨false, V, rfl, List.Subset.refl _⟩
        | some sl2 =>
          simp only
          by_cases hk : Visit.list p q ∈ V
          · rw [if_pos hk]; exact ⟨true, V, rfl, List.Subset.refl _⟩
          · rw [if_neg hk]
            have hlt : unvisited h (Visit.list p q :: V) < fuel :=
              lt_of_lt_of_le (unvisited_cons h V _ (list_visit_mem h p q sl1 sl2 hp hq) hk)
                (Nat.lt_succ_iff.mp hV)
            split_ifs
            · exact ⟨true, _, rfl, List.subset_cons_self _ _⟩
            · exact ⟨false, _, rfl, List.subset_cons_self _ _⟩
            · exact ⟨false, _, rfl, List.subset_cons_self _ _⟩
            · exact ⟨true, _, rfl, List.subset_cons_self _ _⟩
            · obtain ⟨r, V', hres, hsub⟩ := deepEqual_elems_total (deepValueEqual o h fuel)
                (unvisited h) fuel (unvisited_mono h) (fun V x y hV => ih V x y hV)
                (h.elems sl1) (h.elems sl2) _ hlt
              exact ⟨r, V', hres, fun k hk => hsub (List.mem_cons_of_mem _ hk)⟩
    · rw [deepValueEqual_map]
      cases hp : h.maps[p]? with
      | none =>
        cases hq : h.maps[q]? with
        | none => exact ⟨true, V, rfl, List.Subset.refl _⟩
        | some es2 => exact ⟨false, V, rfl, List.Subset.refl _⟩
      | some es1 =>
        cases hq : h.maps[q]? with
        | none => exact ⟨false, V, rfl, List.Subset.refl _⟩
        | some es2 =>
          simp only
          by_cases hk : Visit.map p q ∈ V
          · rw [if_pos hk]; exact ⟨true, V, rfl, List.Subset.refl _⟩
          · rw [if_neg hk]
            have hlt : unvisited h (Visit.map p q :: V) < fuel :=
              lt_of_lt_of_le (unvisited_cons h V _ (map_visit_mem h p q es1 es2 hp hq) hk)
                (Nat.lt_succ_iff.mp hV)
            split_ifs
            · exact ⟨true, _, rfl, List.subset_cons_self _ _⟩
            · exact ⟨false, _, rfl, List.subset_cons_self _ _⟩
            · obtain ⟨r, V', hres, hsub⟩ := deepEqual_entries_total (deepValueEqual o h fuel)
                (unvisited h) fuel (unvisited_mono h) (fun V x y hV => ih V x y hV)
                es2 es1 _ hlt
              exact ⟨r, V', hres, fun k hk => hsub (List.mem_cons_of_mem _ hk)⟩
    · obtain ⟨r, hval, -, -⟩ := deepValueEqual_flat o h a b hl hm
      exact ⟨r, V, hval fuel V, List.Subset.refl _⟩

/-! ### Deep equality as a relation -/

/-- Two Values are deeply equal exactly when they agree in one layer and their elements are
deeply equal. -/
theorem deeplyEqual_unfold (o : Outside) (h : Heap) (a b : Value) :
    deeplyEqual o h a b ↔ deepStep o h (deeplyEqual o h) a b := by
  have hfwd : ∀ x y, deeplyEqual o h x y → deepStep o h (deeplyEqual o h) x y := by
    intro x y hxy
    obtain ⟨R, hR, hrel⟩ := hxy
    exact deepStep_mono o h R _ (fun u v huv => ⟨R, hR, huv⟩) x y (hR x y hrel)
  refine ⟨hfwd a b, fun hstep => ?_⟩
  refine ⟨fun x y => deeplyEqual o h x y ∨ (x = a ∧ y = b), ?_, Or.inr ⟨rfl, rfl⟩⟩
  intro x y hxy
  rcases hxy with hde | ⟨rfl, rfl⟩
  · exact deepStep_mono o h _ _ (fun u v huv => Or.inl huv) x y (hfwd x y hde)
  · exact deepStep_mono o h _ _ (fun u v huv => Or.inl huv) x y hstep

/-- With a budget that is large enough for the empty record, `deepValueEqual` answers true
exactly for deeply equal Values, and false for the others. -/
theorem deepValueEqual_spec (o : Outside) (h : Heap) (fuel : Nat)
    (hfuel : deepEqualBudget h ≤ fuel) (a b : Value) :
    ∃ r V', deepValueEqual o h fuel [] a b = some (r, V') ∧
      (r = true ↔ deeplyEqual o h a b) := by
  obtain ⟨r, V', hres, -⟩ := deepValueEqual_total o h fuel [] a b
    (lt_of_lt_of_le (unvisited_nil_lt h) hfuel)
  refine ⟨r, V', hres, ?_⟩
  cases r with
  | false =>
    refine ⟨fun hf => absurd hf (by simp), fun hde => ?_⟩
    obtain ⟨R, hR, hrel⟩ := hde
    exact absurd hrel (deepValueEqual_complete o h R hR fuel [] a b V' hres)
  | true =>
    refine ⟨fun _ => ?_, fun _ => rfl⟩
    obtain ⟨-, hnew, hass⟩ := deepValueEqual_sound o h fuel [] a b V' hres
    refine ⟨deepAssumed o h V', ?_, hass⟩
    intro x y hxy
    rcases pair_cases x y with ⟨p, q, rfl, rfl⟩ | ⟨p, q, rfl, rfl⟩ | ⟨hl, hm⟩
    · have hxy2 := hxy
      simp only [deepAssumed] at hxy2
      cases hp : h.slices[p]? with
      | none =>
        cases hq : h.slices[q]? with
        | none => simp [deepStep, hp, hq]
        | some sl2 => simp [hp, hq] at hxy2
      | some sl1 =>
        cases hq : h.slices[q]? with
        | none => simp [hp, hq] at hxy2
        | some sl2 =>
          simp only [hp, hq] at hxy2
          exact hnew _ hxy2 (by simp)
    · have hxy2 := hxy
      simp only [deepAssumed] at hxy2
      cases hp : h.maps[p]? with
      | none =>
        cases hq : h.maps[q]? with
        | none => simp [deepStep, hp, hq]
        | some es2 => simp [hp, hq] at hxy2
      | some es1 =>
        cases hq : h.maps[q]? with
        | none => simp [hp, hq] at hxy2
        | some es2 =>
          simp only [hp, hq] at hxy2
          exact hnew _ hxy2 (by simp)
    · obtain ⟨r, -, hst, hass2⟩ := deepValueEqual_flat o h x y hl hm
      exact (hst _).mpr ((hass2 V').mp hxy)

/-- `DeepEq` gives an answer. -/
theorem DeepEq_total (o : Outside) (h : Heap) (a b : Value) : ∃ r, DeepEq o h a b = some r := by
  obtain ⟨r, V', hres, -⟩ := deepValueEqual_spec o h _ (le_refl _) a b
  exact ⟨r, by simp [DeepEq, hres]⟩

/-- `DeepEq` answers true exactly for deeply equal Values. -/
theorem DeepEq_true_iff (o : Outside) (h : Heap) (a b : Value) :
    DeepEq o h a b = some true ↔ deeplyEqual o h a b := by
  obtain ⟨r, V', hres, hiff⟩ := deepValueEqual_spec o h _ (le_refl _) a b
  simp only [DeepEq, hres, Option.map_some', Option.some.injEq]
  exact hiff

/-- A larger budget gives the answer of `DeepEq`. -/
theorem DeepEq_budget (o : Outside) (h : Heap) (fuel : Nat) (hfuel : deepEqualBudget h ≤ fuel)
    (a b : Value) :
    (deepValueEqual o h fuel [] a b).map (fun r => r.1) = DeepEq o h a b := by
  obtain ⟨r, V', hres, hiff⟩ := deepValueEqual_spec o h fuel hfuel a b
  obtain ⟨r2, V2, hres2, hiff2⟩ := deepValueEqual_spec o h _ (le_refl _) a b
  simp only [DeepEq, hres, hres2, Option.map_some', Option.some.injEq]
  have : r = true ↔ r2 = true := hiff.trans hiff2.symm
  cases r <;> cases r2 <;> simp_all

/-- The pairs of elements of two lists of the same length, by position. -/
theorem forall_zip_iff (R : Value → Value → Prop) (xs ys : List Value)
    (hlen : xs.length = ys.length) :
    (∀ xy ∈ xs.zip ys, R xy.1 xy.2) ↔
      ∀ i, i < xs.length → ∃ x y, xs[i]? = some x ∧ ys[i]? = some y ∧ R x y := by
  induction xs generalizing ys with
  | nil => simp
  | cons x xs ih =>
    cases ys with
    | nil => simp at hlen
    | cons y ys =>
      simp only [List.length_cons, Nat.add_right_cancel_iff] at hlen
      simp only [List.zip_cons_cons, List.mem_cons, forall_eq_or_imp, ih ys hlen,
        List.length_cons]
      constructor
      · rintro ⟨h0, hrest⟩ i hi
        cases i with
        | zero => exact ⟨x, y, by simp, by simp, h0⟩
        | succ i => simpa using hrest i (by omega)
      · intro hall
        refine ⟨?_, fun i hi => ?_⟩
        · obtain ⟨x0, y0, hx0, hy0, hxy⟩ := hall 0 (by omega)
          simp only [List.getElem?_cons_zero, Option.some.injEq] at hx0 hy0
          subst hx0; subst hy0; exact hxy
        · simpa using hall (i + 1) (by omega)

/-- C15, as amended: `DeepEq` gives an answer for every two Values, the same with every larger
budget. Two Lists are deeply equal exactly when they are the same List, or their slices are both
nil or both not nil, have the same length, and share their backing array or have deeply equal
elements at every position; two Maps exactly when they are the same Map, or they have the same
number of entries and every key of the first is a key of the second, by the equality `==` of
Go, with a deeply equal value. So two Lists made apart are deeply equal when their slices are
both nil or both not and their elements are deeply equal one by one, and are not when one slice
is nil and the other is not; two Maps made apart are deeply equal when they have as many
entries and each key of the first is found in the second by `==` with a deeply equal value, and
are not when a key of the first is not found in the second by `==`. Two Strings are deeply
equal when they are the same text, two Bools when they are the same, two Errors when their
inner errors are deeply equal. Two Values of different variants are never deeply equal. -/
theorem DeepEq_containers (o : Outside) (h : Heap) :
    (∀ a b, ∃ r, DeepEq o h a b = some r) ∧
    (∀ fuel a b, deepEqualBudget h ≤ fuel →
      (deepValueEqual o h fuel [] a b).map (fun r => r.1) = DeepEq o h a b) ∧
    (∀ p q sl1 sl2, h.slices[p]? = some sl1 → h.slices[q]? = some sl2 →
      (h.elems sl1).length = sl1.len → (h.elems sl2).length = sl2.len →
      (DeepEq o h (.list p) (.list q) = some true ↔
        p = q ∨ (sl1.isNone = sl2.isNone ∧ sl1.len = sl2.len ∧
          (sameData sl1 sl2 = true ∨
            ∀ i, i < sl1.len → ∃ x y, (h.elems sl1)[i]? = some x ∧
              (h.elems sl2)[i]? = some y ∧ DeepEq o h x y = some true)))) ∧
    (∀ p q es1 es2, h.maps[p]? = some es1 → h.maps[q]? = some es2 →
      (DeepEq o h (.map p) (.map q) = some true ↔
        p = q ∨ (es1.length = es2.length ∧
          ∀ kv ∈ es1, ∃ v2, mapaccess es2 kv.1 = some v2 ∧
            DeepEq o h kv.2 v2 = some true))) ∧
    (∀ p q sl1 sl2, h.slices[p]? = some sl1 → h.slices[q]? = some sl2 →
      (h.elems sl1).length = sl1.len → (h.elems sl2).length = sl2.len →
      sl1.isNone = sl2.isNone → sl1.len = sl2.len →
      (∀ i, i < sl1.len → ∃ x y, (h.elems sl1)[i]? = some x ∧
        (h.elems sl2)[i]? = some y ∧ DeepEq o h x y = some true) →
      DeepEq o h (.list p) (.list q) = some true) ∧
    (∀ p q sl1 sl2, h.slices[p]? = some sl1 → h.slices[q]? = some sl2 → p ≠ q →
      sl1.isNone ≠ sl2.isNone → DeepEq o h (.list p) (.list q) = some false) ∧
    (∀ p q es1 es2, h.maps[p]? = some es1 → h.maps[q]? = some es2 →
      es1.length = es2.length →
      (∀ kv ∈ es1, ∃ v2, mapaccess es2 kv.1 = some v2 ∧ DeepEq o h kv.2 v2 = some true) →
      DeepEq o h (.map p) (.map q) = some true) ∧
    (∀ p q es1 es2, h.maps[p]? = some es1 → h.maps[q]? = some es2 → p ≠ q →
      (∃ kv ∈ es1, mapaccess es2 kv.1 = none) →
      DeepEq o h (.map p) (.map q) = some false) ∧
    (∀ s t, DeepEq o h (.string s) (.string t) = some (decide (s = t))) ∧
    (∀ x y, DeepEq o h (.bool x) (.bool y) = some (decide (x = y))) ∧
    (∀ e1 e2, DeepEq o h (.error e1) (.error e2) = some (Error_deepEqual e1 e2)) ∧
    (∀ a b, a.variant ≠ b.variant → DeepEq o h a b = some false) := by
  have hlist : ∀ p q sl1 sl2, h.slices[p]? = some sl1 → h.slices[q]? = some sl2 →
      (h.elems sl1).length = sl1.len → (h.elems sl2).length = sl2.len →
      (DeepEq o h (.list p) (.list q) = some true ↔
        p = q ∨ (sl1.isNone = sl2.isNone ∧ sl1.len = sl2.len ∧
          (sameData sl1 sl2 = true ∨
            ∀ i, i < sl1.len → ∃ x y, (h.elems sl1)[i]? = some x ∧
              (h.elems sl2)[i]? = some y ∧ DeepEq o h x y = some true))) := by
    intro p q sl1 sl2 hp hq hwf1 hwf2
    rw [DeepEq_true_iff, deeplyEqual_unfold]
    simp only [deepStep, hp, hq]
    by_cases hlen : sl1.len = sl2.len
    · rw [forall_zip_iff _ _ _ (by rw [hwf1, hwf2, hlen]), hwf1]
      simp only [DeepEq_true_iff]
    · simp [hlen]
  have hmap : ∀ p q es1 es2, h.maps[p]? = some es1 → h.maps[q]? = some es2 →
      (DeepEq o h (.map p) (.map q) = some true ↔
        p = q ∨ (es1.length = es2.length ∧
          ∀ kv ∈ es1, ∃ v2, mapaccess es2 kv.1 = some v2 ∧
            DeepEq o h kv.2 v2 = some true)) := by
    intro p q es1 es2 hp hq
    rw [DeepEq_true_iff, deeplyEqual_unfold]
    simp only [deepStep, hp, hq, DeepEq_true_iff]
  have hfalse : ∀ a b, DeepEq o h a b ≠ some true → DeepEq o h a b = some false := by
    intro a b hne
    obtain ⟨r, hr⟩ := DeepEq_total o h a b
    cases r with
    | false => exact hr
    | true => exact absurd hr hne
  refine ⟨DeepEq_total o h, fun fuel a b hfuel => DeepEq_budget o h fuel hfuel a b, hlist, hmap,
    ?_, ?_, ?_, ?_, ?_, ?_, ?_, ?_⟩
  · intro p q sl1 sl2 hp hq hwf1 hwf2 hnil hlen hall
    exact (hlist p q sl1 sl2 hp hq hwf1 hwf2).mpr (Or.inr ⟨hnil, hlen, Or.inr hall⟩)
  · intro p q sl1 sl2 hp hq hpq hnil
    apply hfalse
    intro htrue
    rw [DeepEq_true_iff, deeplyEqual_unfold] at htrue
    simp only [deepStep, hp, hq] at htrue
    rcases htrue with heq | ⟨hnil2, -⟩
    · exact hpq heq
    · exact hnil hnil2
  · intro p q es1 es2 hp hq hlen hall
    exact (hmap p q es1 es2 hp hq).mpr (Or.inr ⟨hlen, hall⟩)
  · intro p q es1 es2 hp hq hpq hex
    apply hfalse
    intro htrue
    rw [hmap p q es1 es2 hp hq] at htrue
    rcases htrue with heq | ⟨-, hall⟩
    · exact hpq heq
    · obtain ⟨kv, hmem, hnone⟩ := hex
      obtain ⟨v2, hacc, -⟩ := hall kv hmem
      rw [hnone] at hacc
      simp at hacc
  · intro s t
    simp only [DeepEq, deepEqualBudget, deepValueEqual, Option.map_some', Option.some.injEq]
    by_cases hst : s = t <;> simp [hst]
  · intro x y
    simp only [DeepEq, deepEqualBudget, deepValueEqual, Option.map_some', Option.some.injEq]
    cases x <;> cases y <;> rfl
  · intro e1 e2
    simp [DeepEq, deepEqualBudget, deepValueEqual]
  · intro a b hab
    apply hfalse
    intro htrue
    rw [DeepEq_true_iff, deeplyEqual_unfold] at htrue
    cases a <;> cases b <;> first
      | exact absurd rfl hab
      | simp [deepStep] at htrue

/-- C15, counterexample: the List of `NewList()` holds the nil slice, the List that
`FromJSONInterface` makes for the empty array holds a slice that is not nil; the two Lists are
made one after the other, both have length 0, so their elements are deeply equal at every
position, and they are not deeply equal. And two Maps that each hold the one entry `v`, the
first under a List of the one element `a` and the second under another List of the one element
`a`: the two keys are deeply equal, the two values are, and the two Maps are not, since the key
of the first Map is not found in the second. -/
theorem DeepEq_counterexample :
    (NewList emptyHeap (variadic emptyHeap []).1) = (.list 0, ⟨[], [none], []⟩) ∧
    FromJSONInterface (fun _ => "") ⟨[], [none], []⟩ (.array []) =
      .ok (.list 1, ⟨[[]], [none, some (0, 0)], []⟩) ∧
    Slice.len none = 0 ∧ Slice.len (some (0, 0)) = 0 ∧
    DeepEq sampleOutside ⟨[[]], [none, some (0, 0)], []⟩ (.list 0) (.list 1) = some false ∧
    DeepEq sampleOutside ⟨[[.string "a"], [.string "a"]], [some (0, 1), some (1, 1)],
      [[(.list 0, .string "v")], [(.list 1, .string "v")]]⟩ (.list 0) (.list 1) = some true ∧
    DeepEq sampleOutside ⟨[[.string "a"], [.string "a"]], [some (0, 1), some (1, 1)],
      [[(.list 0, .string "v")], [(.list 1, .string "v")]]⟩ (.string "v") (.string "v") =
      some true ∧
    mapaccess [(.list 1, .string "v")] (.list 0) = none ∧
    DeepEq sampleOutside ⟨[[.string "a"], [.string "a"]], [some (0, 1), some (1, 1)],
      [[(.list 0, .string "v")], [(.list 1, .string "v")]]⟩ (.map 0) (.map 1) = some false := by
  exact ⟨rfl, rfl, rfl, rfl, by decide, by decide, by decide, rfl, by decide⟩

/-- Deep equality evaluated: two Lists made apart with the same elements are deeply equal; two
Lists that each hold themselves are deeply equal, and are not when a second element differs;
a List is deeply equal to itself; a String and a Bool are not deeply equal. -/
theorem DeepEq_examples :
    DeepEq sampleOutside ⟨[[.string "a", .bool true], [.string "a", .bool true]],
      [some (0, 2), some (1, 2)], []⟩ (.list 0) (.list 1) = some true ∧
    DeepEq sampleOutside ⟨[[.list 0], [.list 1]], [some (0, 1), some (1, 1)], []⟩
      (.list 0) (.list 1) = some true ∧
    DeepEq sampleOutside ⟨[[.list 0, .string "a"], [.list 1, .string "b"]],
      [some (0, 2), some (1, 2)], []⟩ (.list 0) (.list 1) = some false ∧
    DeepEq sampleOutside ⟨[[.list 0]], [some (0, 1)], []⟩ (.list 0) (.list 0) = some true ∧
    DeepEq sampleOutside emptyHeap (.string "true") (.bool true) = some false ∧
    DeepEq sampleOutside emptyHeap (.error .multiErrorNil) (.error (.multiError [])) =
      some false ∧
    DeepEq sampleOutside emptyHeap (.builtinFn 0 ⟨"f", 0⟩) (.builtinFn 1 ⟨"f", 0⟩) =
      some true ∧
    DeepEq sampleOutside emptyHeap (.builtinFn 0 ⟨"f", 1⟩) (.builtinFn 1 ⟨"f", 1⟩) =
      some false := by
  decide

/-! ## The keys of a Map -/

/-- Reading under a key that is equal to the key that was just written gives the written
value. -/
theorem mapaccess_mapassign_eq (entries : List (Value × Value)) (k1 k2 v : Value)
    (heq : Value_eq k1 k2 = true) : mapaccess (mapassign entries k1 v) k2 = some v := by
  induction entries with
  | nil => simp [mapassign, mapaccess, heq]
  | cons e rest ih =>
    obtain ⟨k0, v0⟩ := e
    by_cases h0 : Value_eq k0 k1 = true
    · simp [mapassign, mapaccess, h0, heq]
    · have h02 : Value_eq k0 k2 = false := by
        have h1 := Value_eq_trans k1 k2 k0 heq
        rw [Value_eq_symm k1 k0, Value_eq_symm k2 k0] at h1
        rw [← h1]
        simpa using h0
      simp [mapassign, mapaccess, h0, h02, ih]

/-- Writing under a key that the map holds adds no entry. -/
theorem mapassign_length_of_present (entries : List (Value × Value)) (k v v0 : Value)
    (hk : mapaccess entries k = some v0) : (mapassign entries k v).length = entries.length := by
  induction entries with
  | nil => simp [mapaccess] at hk
  | cons e rest ih =>
    obtain ⟨k1, v1⟩ := e
    by_cases h1 : Value_eq k1 k = true
    · simp [mapassign, h1]
    · simp only [mapaccess, h1] at hk
      simp [mapassign, h1, ih hk]

/-- Two keys that are equal can both be hashed. -/
theorem hashable_of_Value_eq (k1 k2 : Value) (heq : Value_eq k1 k2 = true) :
    hashable k1 = true ∧ hashable k2 = true := by
  cases k1 <;> cases k2 <;> simp_all [Value_eq, hashable]
  rename_i e1 e2
  cases e1 <;> cases e2 <;> simp_all [Error_eq]

/-- C16, as amended: the keys of a Map are compared with the equality `==` of Go. For two keys
`k1` and `k2` that are equal under `==` (the same String, the same Bool, the same List or Map
reference), after `Map.IndexSet(k1, v)` the lookup `Map.Index(k2)` returns `v`, and a second
`IndexSet` under `k2` overwrites that entry and adds none. Two Lists, or two Maps, with
different pointers are not equal under `==`, whatever they hold: a write under one of them
leaves the read under the other as it was. -/
theorem Map_keys_by_equality (x : Externals) (h : Heap) (fuel : Nat) (m : Addr)
    (entries : List (Value × Value)) (hm : h.maps[m]? = some entries) (k1 k2 v v2 : Value)
    (heq : Value_eq k1 k2 = true) :
    ∃ h1 h2 es1 es2, Map_IndexSet h m k1 v = (.ok (), h1) ∧ h1.maps[m]? = some es1 ∧
      Map_Index x h1 fuel m k2 = .ok v ∧
      Map_IndexSet h1 m k2 v2 = (.ok (), h2) ∧ h2.maps[m]? = some es2 ∧
      es2.length = es1.length ∧
      Map_Index x h2 fuel m k1 = .ok v2 ∧
      (∀ p q : Addr, p ≠ q →
        Value_eq (.list p) (.list q) = false ∧ Value_eq (.map p) (.map q) = false) ∧
      (∀ (p q : Addr) (w : Value), p ≠ q →
        mapaccess (mapassign entries (.list p) w) (.list q) = mapaccess entries (.list q) ∧
        mapaccess (mapassign entries (.map p) w) (.map q) = mapaccess entries (.map q)) := by
  obtain ⟨hk1, hk2⟩ := hashable_of_Value_eq k1 k2 heq
  have hm2 : m < h.maps.length := (List.getElem?_eq_some.mp hm).1
  have hsym : Value_eq k2 k1 = true := by rw [Value_eq_symm]; exact heq
  have hget1 : (h.maps.set m (mapassign entries k1 v))[m]? = some (mapassign entries k1 v) := by
    simp [hm2]
  have hget2 : ((h.maps.set m (mapassign entries k1 v)).set m
      (mapassign (mapassign entries k1 v) k2 v2))[m]? =
      some (mapassign (mapassign entries k1 v) k2 v2) := by
    simp [hm2]
  refine ⟨⟨h.arrays, h.slices, h.maps.set m (mapassign entries k1 v)⟩,
    ⟨h.arrays, h.slices, (h.maps.set m (mapassign entries k1 v)).set m
      (mapassign (mapassign entries k1 v) k2 v2)⟩,
    mapassign entries k1 v, mapassign (mapassign entries k1 v) k2 v2, ?_, hget1, ?_, ?_, hget2,
    ?_, ?_, ?_, ?_⟩
  · simp [Map_IndexSet, hm, hashKey_of_hashable k1 hk1]
  · simp only [Map_Index, hget1, hashKey_of_hashable k2 hk2,
      mapaccess_mapassign_eq entries k1 k2 v heq]
  · simp only [Map_IndexSet, hget1, hashKey_of_hashable k2 hk2]
  · exact mapassign_length_of_present _ k2 v2 v (mapaccess_mapassign_eq entries k1 k2 v heq)
  · simp only [Map_Index, hget2, hashKey_of_hashable k1 hk1,
      mapaccess_mapassign_eq (mapassign entries k1 v) k2 k1 v2 hsym]
  · intro p q hpq
    simp [Value_eq, hpq]
  · intro p q w hpq
    exact ⟨mapaccess_mapassign_other entries (.list p) w (.list q) (by simp [Value_eq, hpq]),
      mapaccess_mapassign_other entries (.map p) w (.map q) (by simp [Value_eq, hpq])⟩

/-- C16, witness: the key `k` written and read back as the String `k`. -/
theorem Map_keys_by_equality_witness :
    ∃ h1, Map_IndexSet sampleHeap 0 (.string "k") (.string "w") = (.ok (), h1) ∧
      Map_Index sampleExternals h1 0 0 (.string "k") = .ok (.string "w") := by
  obtain ⟨h1, h2, es1, es2, hset, -, hget, -⟩ := Map_keys_by_equality sampleExternals sampleHeap
    0 0 [(.string "k", .string "v")] rfl (.string "k") (.string "k") (.string "w") (.string "w")
    rfl
  exact ⟨h1, hset, hget⟩

/-- C16, counterexample: two Lists made one after the other, each of the one element `a`, are
deeply equal; after `Map.IndexSet` under the first, `Map.Index` under the second throws the
no-such-key error, and a second `IndexSet` under the second adds an entry. -/
theorem Map_keys_counterexample :
    DeepEq sampleOutside ⟨[[.string "a"], [.string "a"]], [some (0, 1), some (1, 1)], [[]]⟩
      (.list 0) (.list 1) = some true ∧
    Map_IndexSet ⟨[[.string "a"], [.string "a"]], [some (0, 1), some (1, 1)], [[]]⟩ 0
      (.list 0) (.string "v") =
      (.ok (), ⟨[[.string "a"], [.string "a"]], [some (0, 1), some (1, 1)],
        [[(.list 0, .string "v")]]⟩) ∧
    Map_Index sampleExternals ⟨[[.string "a"], [.string "a"]], [some (0, 1), some (1, 1)],
        [[(.list 0, .string "v")]]⟩ 2 0 (.list 1) =
      .error (.thrown (.fresh "no such key: [\"a\"]")) ∧
    Map_IndexSet ⟨[[.string "a"], [.string "a"]], [some (0, 1), some (1, 1)],
        [[(.list 0, .string "v")]]⟩ 0 (.list 1) (.string "w") =
      (.ok (), ⟨[[.string "a"], [.string "a"]], [some (0, 1), some (1, 1)],
        [[(.list 0, .string "v"), (.list 1, .string "w")]]⟩) := by
  exact ⟨rfl, rfl, rfl, rfl⟩

/-! ## Aliasing of Lists -/

/-- C18, as amended: a List that `NewList` makes for the slice `vs`, of `n` elements on the
array at `a`, holds a pointer, and every copy of the List value holds the same pointer: after
`IndexSet(i, v)` through the pointer, for a valid index `i`, `Index(i)` through the pointer
returns `v`, whichever copy makes the write and whichever the read. The write leaves every List
whose slice has another backing array as it was, so a List of a separate `NewList` call that
was given its own elements; it reaches every List whose slice shares the array `a`. -/
theorem List_aliasing (x : Externals) (h : Heap) (fuel : Nat) (a n : Nat) (arr : List Value)
    (harr : h.arrays[a]? = some arr) (hn : n ≤ arr.length) (hlen : n < 2 ^ 63) (i : Int)
    (hi : -(n : Int) ≤ i ∧ i ≤ (n : Int) - 1) (v : Value) :
    (NewList h (some (a, n))).1 = .list h.slices.length ∧
    ∃ h2, List_IndexSet x (NewList h (some (a, n))).2 fuel h.slices.length
        (.string (toString i)) v = (.ok (), h2) ∧
      List_Index x h2 fuel h.slices.length (.string (toString i)) = .ok v ∧
      h2.slices = (NewList h (some (a, n))).2.slices ∧
      (∀ a2 n2, a2 ≠ a → h2.elems (some (a2, n2)) = h.elems (some (a2, n2))) ∧
      (∀ n2, (if 0 ≤ i then i else i + n).toNat < n2 →
        (h2.elems (some (a, n2)))[(if 0 ≤ i then i else i + n).toNat]? = some v) := by
  have hlen2 : (n : Int) < 9223372036854775808 := by
    norm_num at hlen
    omega
  have hr : -2 ^ 63 ≤ i ∧ i < 2 ^ 63 := by norm_num; omega
  have ha : a < h.arrays.length := (List.getElem?_eq_some.mp harr).1
  have hgetD : h.arrays.getD a [] = arr := by
    simp [List.getD_eq_getElem?_getD, harr]
  have hnorm : (if i < 0 then i + (n : Int) else i) = (if 0 ≤ i then i else i + n) := by
    split_ifs <;> omega
  have hk : (if 0 ≤ i then i else i + (n : Int)).toNat < n := by
    split_ifs <;> omega
  have hslice : (h.slices ++ [some (a, n)])[h.slices.length]? = some (some (a, n)) := by
    simp
  have hres : List_IndexSet x (NewList h (some (a, n))).2 fuel h.slices.length
      (.string (toString i)) v = (.ok (),
        ⟨h.arrays.set a (arr.set (if 0 ≤ i then i else i + (n : Int)).toNat v),
          h.slices ++ [some (a, n)], h.maps⟩) := by
    simp only [List_IndexSet, NewList, intIndex_toString, if_pos hr, hslice, Slice.len, hnorm,
      hgetD]
    rw [if_neg]
    split_ifs <;> omega
  have hread : ∀ n2, (if 0 ≤ i then i else i + (n : Int)).toNat < n2 →
      (Heap.elems ⟨h.arrays.set a (arr.set (if 0 ≤ i then i else i + (n : Int)).toNat v),
        h.slices ++ [some (a, n)], h.maps⟩ (some (a, n2)))[
          (if 0 ≤ i then i else i + (n : Int)).toNat]? = some v := by
    intro n2 hk2
    simp only [Heap.elems, List.getD_eq_getElem?_getD]
    rw [List.getElem?_set_self ha]
    simp only [Option.getD_some]
    rw [List.getElem?_take_of_lt hk2]
    simp [show (if 0 ≤ i then i else i + (n : Int)).toNat < arr.length by omega]
  refine ⟨rfl, _, hres, ?_, rfl, ?_, hread⟩
  · simp only [List_Index, intIndex_toString, if_pos hr, hslice, Slice.len, hnorm]
    rw [if_neg (by split_ifs <;> omega), hread n hk]
  · intro a2 n2 ha2
    simp only [Heap.elems, List.getD_eq_getElem?_getD]
    rw [List.getElem?_set_ne (Ne.symm ha2)]

/-- C18, witness: a List made for the slice of `a`, `b`, `c` of the sample heap, written at the
index -1. -/
theorem List_aliasing_witness :
    ∃ h2, List_IndexSet sampleExternals (NewList sampleHeap (some (0, 3))).2 0 1
        (.string (toString (-1 : Int))) (.string "z") = (.ok (), h2) ∧
      List_Index sampleExternals h2 0 1 (.string (toString (-1 : Int))) = .ok (.string "z") := by
  obtain ⟨-, h2, hset, hget, -⟩ := List_aliasing sampleExternals sampleHeap 0 0 3
    [.string "a", .string "b", .string "c"] rfl (by decide) (by decide) (-1) (by decide)
    (.string "z")
  exact ⟨h2, hset, hget⟩

/-- C18, counterexample: two separate calls of `NewList` that are given the same slice, of the
elements `a`, `b`, `c`, make two Lists with two pointers, 0 and 1, that share the backing array;
a write through the first List at the index 0 is read through the second. -/
theorem List_aliasing_counterexample :
    NewList ⟨[[.string "a", .string "b", .string "c"]], [], []⟩ (some (0, 3)) =
      (.list 0, ⟨[[.string "a", .string "b", .string "c"]], [some (0, 3)], []⟩) ∧
    NewList ⟨[[.string "a", .string "b", .string "c"]], [some (0, 3)], []⟩ (some (0, 3)) =
      (.list 1, ⟨[[.string "a", .string "b", .string "c"]], [some (0, 3), some (0, 3)], []⟩) ∧
    List_Index sampleExternals
        ⟨[[.string "a", .string "b", .string "c"]], [some (0, 3), some (0, 3)], []⟩ 0 1
        (.string "0") = .ok (.string "a") ∧
    List_IndexSet sampleExternals
        ⟨[[.string "a", .string "b", .string "c"]], [some (0, 3), some (0, 3)], []⟩ 0 0
        (.string "0") (.string "z") =
      (.ok (), ⟨[[.string "z", .string "b", .string "c"]], [some (0, 3), some (0, 3)], []⟩) ∧
    List_Index sampleExternals
        ⟨[[.string "z", .string "b", .string "c"]], [some (0, 3), some (0, 3)], []⟩ 0 1
        (.string "0") = .ok (.string "z") := by
  exact ⟨rfl, rfl, rfl, rfl, rfl⟩

end Eval

/-! # Properties of package histlist -/

namespace Histlist

theorem Index_loop_nonneg_iff (substr : GoString) (s : GoString) (i : Nat) :
    0 ≤ Index_loop substr s i ↔ substr <:+: s := by
  induction s generalizing i with
  | nil =>
    unfold Index_loop
    by_cases h : substr = []
    · simp [h]
    · simp [h]
  | cons c s ih =>
    unfold Index_loop
    rw [List.infix_cons_iff, List.prefix_iff_eq_take]
    by_cases h : (c :: s).take substr.length = substr
    · rw [if_pos h]
      exact ⟨fun _ => Or.inl h.symm, fun _ => Int.ofNat_nonneg i⟩
    · rw [if_neg h, ih]
      exact ⟨Or.inr, fun h2 => h2.resolve_left (fun h3 => h h3.symm)⟩

/-- `strings.Contains(s, substr)` is true exactly when `substr` occurs in `s` as a contiguous
stretch: `s` is some text, then `substr`, then some text. -/
theorem Contains_iff (s substr : GoString) : Contains s substr = true ↔ substr <:+: s := by
  unfold Contains Index
  rw [decide_eq_true_iff]
  exact Index_loop_nonneg_iff substr s 0

theorem Contains_nil (s : GoString) : Contains s [] = true :=
  (Contains_iff s []).mpr List.nil_infix

theorem Contains_eq_decide (s substr : GoString) :
    Contains s substr = decide (substr <:+: s) := by
  rw [Bool.eq_iff_iff, Contains_iff, decide_eq_true_iff]

theorem filter_loop_elems (p : GoString) (l : List Entry) (entries : items) :
    (filter_loop p l entries).elems =
      entries.elems ++ l.filter (fun e => Contains e.Text p) := by
  induction l generalizing entries with
  | nil => simp [filter_loop]
  | cons e rest ih =>
    unfold filter_loop
    by_cases h : Contains e.Text p = true
    · rw [if_pos h, ih]
      simp [append, items.elems, List.filter_cons, h]
    · rw [if_neg h, ih]
      simp [List.filter_cons, h]

theorem filter_elems (allEntries : items) (p : GoString) :
    (filter allEntries p).elems =
      allEntries.elems.filter (fun e => decide (p <:+: e.Text)) := by
  have hfun : (fun e : Entry => decide (p <:+: e.Text)) = (fun e => Contains e.Text p) := by
    funext e; exact (Contains_eq_decide e.Text p).symm
  rw [hfun]
  unfold filter
  by_cases hp : p = []
  · rw [if_pos hp, hp]
    simp [Contains_nil]
  · rw [if_neg hp, filter_loop_elems]
    simp [items.elems]

/-- For a pattern that is not empty the slice that `filter` returns is nil exactly when no entry
contains the pattern: the loop starts from the nil slice and `append` never returns it. -/
theorem filter_eq_nil_iff (allEntries : items) (p : GoString) (hp : p ≠ []) :
    filter allEntries p = none ↔ ∀ e ∈ allEntries.elems, ¬ p <:+: e.Text := by
  have hloop : ∀ (l : List Entry) (acc : List Entry), filter_loop p l (some acc) ≠ none := by
    intro l
    induction l with
    | nil => intro acc; simp [filter_loop]
    | cons e rest ih =>
      intro acc
      unfold filter_loop
      split_ifs
      · exact ih _
      · exact ih _
  unfold filter
  rw [if_neg hp]
  generalize allEntries.elems = l
  induction l with
  | nil => simp [filter_loop]
  | cons e rest ih =>
    unfold filter_loop
    by_cases h : Contains e.Text p = true
    · rw [if_pos h]
      have h2 := (Contains_iff _ _).mp h
      simp only [append, items.elems, List.nil_append, hloop, false_iff]
      intro hall
      exact hall e (List.mem_cons_self _ _) h2
    · rw [if_neg h]
      have h2 : ¬ p <:+: e.Text := fun h3 => h ((Contains_iff _ _).mpr h3)
      exact ih.trans (by simp [h2])

/-- C21: for every slice of entries and every pattern `p`, `filter` with the empty pattern
returns the slice it was given; with any pattern the elements it returns are the entries whose
`Text` contains `p` as a contiguous stretch of bytes, in their order (the empty pattern is
contained in every text); that list is a subsequence of the input, an entry is in it exactly
when it is in the input and its `Text` contains `p`, it holds every such entry as many times as
the input does, and every returned entry is an entry of the input, with its `Seq` and `Text`. -/
theorem filter_contract (allEntries : items) (p : GoString) :
    filter allEntries [] = allEntries ∧
    (filter allEntries p).elems = allEntries.elems.filter (fun e => decide (p <:+: e.Text)) ∧
    (filter allEntries p).elems.Sublist allEntries.elems ∧
    (∀ e, e ∈ (filter allEntries p).elems ↔ e ∈ allEntries.elems ∧ p <:+: e.Text) ∧
    (∀ e, (filter allEntries p).elems.count e =
      if p <:+: e.Text then allEntries.elems.count e else 0) ∧
    (filter allEntries p).Len ≤ allEntries.Len := by
  have hel := filter_elems allEntries p
  refine ⟨by simp [filter], hel, ?_, ?_, ?_, ?_⟩
  · rw [hel]; exact List.filter_sublist _
  · intro e; rw [hel]; simp [List.mem_filter]
  · intro e
    rw [hel]
    by_cases h : p <:+: e.Text
    · rw [if_pos h]
      exact List.count_filter (by simpa using h)
    · rw [if_neg h, List.count_eq_zero]
      simp [List.mem_filter, h]
  · unfold items.Len; rw [hel]; exact List.length_filter_le _ _


/-- The functions evaluated: `strings.Index` gives the first position or -1; `filter` with the
pattern `ls` keeps the first and the third sample entry, with the empty pattern returns the
slice it was given, and with a pattern that no entry contains returns the nil slice. -/
theorem filter_examples :
    Index [101, 99, 104, 111, 32, 97] [111] = 3 ∧
    Index [101, 99, 104, 111, 32, 97] [108] = -1 ∧
    Index [101, 99, 104, 111, 32, 97] [] = 0 ∧
    filter sampleEntries [108, 115] = some [⟨[108, 115], 1⟩, ⟨[108, 115, 32, 45, 108], 3⟩] ∧
    filter sampleEntries [] = sampleEntries ∧
    filter none [] = none ∧
    filter (some []) [] = some [] ∧
    filter (some []) [108] = none ∧
    filter sampleEntries [120] = none := by
  decide

end Histlist
